import Mathlib

/-!
Quoridor server: the game engine of `server.js`.

A shallow embedding of the game logic of `server.js`:
`isMoveBlockedByWall`, `pathExistsForPlayer`, `isValidWallPlacement`,
`getValidMoves` and the `game-action` handler, and of the room directory:
the `create-room`, `join-room`, `start-game` and `disconnect` handlers on the
object `rooms`, followed by the properties proved about them.

Modelling conventions.
* Rows, columns, wall counts and destination rows are JavaScript numbers that
  only ever hold integers here; they are `Int`.
* Connection ids (`socket.id`) are opaque tokens compared with `===`; they are
  `Nat`.
* A wall's `orientation` is whatever the client sent.  Only the two strings
  `'horizontal'` and `'vertical'` are ever tested for; any other value is
  `Orientation.other tag`, two such values being `===` exactly when the tags
  agree.
* `gameState.board` is written once at game start and never read; it is left
  out.
* The `Set` of string keys built from `row` and `col` is a list of cells
  without duplicates: the key of a cell determines the cell.
* `Math.abs(x) < 2` on integers is `x.natAbs < 2`.
* A handler that would throw (`player.id` when `players[turnIndex]` is
  `undefined`) returns `none`; in reachable game states this never happens
  (`gameAction_isSome_of_reachable`).
* The `while` loop of `pathExistsForPlayer` carries an iteration bound;
  `pathSearch_fuel` shows that the bound is never reached.
* The object `rooms` is the list of its entries in the order in which
  `for (... in rooms)` visits them; the keys of a reachable directory are
  pairwise different (`keys_nodup_of_dirReachable`).
* `rooms` is a plain object: a key that names a property of `Object.prototype`
  (`RoomCode.isInherited`) has a value that is not a room, so `create-room`
  refuses it and `join-room` throws on it; no room of a reachable directory
  has such a key (`keys_not_inherited_of_dirReachable`).
* A double is the rational number it stands for; the product
  `Math.random() * n` is the exact product rounded to the nearest double, ties
  to even (`roundDouble`).
* `connectedUsers` is not modelled: the nickname of a connection comes with
  its `create-room` and `join-room` events.
-/

namespace Quoridor

/-- The `orientation` field of a wall. -/
inductive Orientation
  | horizontal
  | vertical
  | other (tag : Nat)
  deriving DecidableEq, Repr

/-- A wall object `{ row, col, orientation }`. -/
structure Wall where
  row : Int
  col : Int
  orientation : Orientation
  deriving DecidableEq, Repr

/-- A board cell `{ row, col }`. -/
structure Cell where
  row : Int
  col : Int
  deriving DecidableEq, Repr

/-- A player object of `gameState.players`. -/
structure Player where
  id : Nat
  nickname : String
  row : Int
  col : Int
  wallsLeft : Int
  destination : Int
  deriving DecidableEq, Repr

/-- The object `room.gameState`. -/
structure GameState where
  walls : List Wall
  players : List Player
  turnIndex : Nat
  deriving DecidableEq, Repr

/-- The cell a player stands on. -/
def Player.cell (p : Player) : Cell := ⟨p.row, p.col⟩

/-- The test `r >= 0 && r < boardSize && c >= 0 && c < boardSize` with
`boardSize = 9`. -/
def inBounds (r c : Int) : Bool :=
  decide (0 ≤ r) && decide (r < 9) && decide (0 ≤ c) && decide (c < 9)

/-- `isMoveBlockedByWall(r1, c1, r2, c2, walls)`: each `for` loop returns
`true` at the first wall that satisfies its test, `false` otherwise. -/
def isMoveBlockedByWall (r1 c1 r2 c2 : Int) (walls : List Wall) : Bool :=
  if r1 = r2 then
    walls.any fun wall =>
      decide (wall.orientation = Orientation.vertical) && decide (wall.col = min c1 c2)
        && (decide (wall.row = r1) || decide (wall.row = r1 - 1))
  else
    walls.any fun wall =>
      decide (wall.orientation = Orientation.horizontal) && decide (wall.row = min r1 r2)
        && (decide (wall.col = c1) || decide (wall.col = c1 - 1))

/-- The array `moves` of `pathExistsForPlayer` (also the order of
`directions` in `getValidMoves`): up, down, left, right. -/
def moves : List (Int × Int) := [(-1, 0), (1, 0), (0, -1), (0, 1)]

/-- One iteration of the inner `for` loop of `pathExistsForPlayer`, on the
pair `(queue, visited)`, for the cell `(row, col)` just dequeued. -/
def visitNeighbour (walls : List Wall) (row col : Int)
    (s : List Cell × List Cell) (d : Int × Int) : List Cell × List Cell :=
  let newRow := row + d.1
  let newCol := col + d.2
  if inBounds newRow newCol then
    if !s.2.contains ⟨newRow, newCol⟩ && !isMoveBlockedByWall row col newRow newCol walls then
      (s.1 ++ [⟨newRow, newCol⟩], ⟨newRow, newCol⟩ :: s.2)
    else s
  else s

/-- The `while (queue.length > 0)` loop of `pathExistsForPlayer`, with a bound
on the number of iterations: `none` when the bound is used up before the loop
ends. -/
def pathSearch (walls : List Wall) (destination : Int) :
    Nat → List Cell → List Cell → Option Bool
  | 0, _, _ => none
  | _ + 1, [], _ => some false
  | fuel + 1, c :: rest, visited =>
    if c.row = destination then some true
    else
      let s := moves.foldl (visitNeighbour walls c.row c.col) (rest, visited)
      pathSearch walls destination fuel s.1 s.2

/-- An iteration bound the loop never reaches: each iteration dequeues one
cell, and only the start cell and the 81 board cells are ever enqueued. -/
def searchFuel : Nat := 83

/-- `pathExistsForPlayer(player, walls)`. -/
def pathExistsForPlayer (player : Player) (walls : List Wall) : Bool :=
  match pathSearch walls player.destination searchFuel [player.cell] [player.cell] with
  | some b => b
  | none => false

/-- The body of the loop over existing walls in `isValidWallPlacement`: `true`
when `wall` makes one of the `return false` tests fire (same spot, crossing at
the same intersection, overlapping parallel wall). -/
def wallCollides (newWall wall : Wall) : Bool :=
  (decide (wall.row = newWall.row) && decide (wall.col = newWall.col)
      && decide (wall.orientation = newWall.orientation))
  || (decide (wall.row = newWall.row) && decide (wall.col = newWall.col)
      && decide (wall.orientation ≠ newWall.orientation))
  || (decide (wall.orientation = newWall.orientation)
      && ((decide (wall.orientation = Orientation.horizontal) && decide (wall.row = newWall.row)
            && decide ((wall.col - newWall.col).natAbs < 2))
          || (decide (wall.orientation = Orientation.vertical) && decide (wall.col = newWall.col)
            && decide ((wall.row - newWall.row).natAbs < 2))))

/-- `isValidWallPlacement(newWall, gameState)`. -/
def isValidWallPlacement (newWall : Wall) (gameState : GameState) : Bool :=
  if newWall.row < 0 ∨ newWall.row > 7 ∨ newWall.col < 0 ∨ newWall.col > 7 then false
  else if gameState.walls.any (wallCollides newWall) then false
  else gameState.players.all fun p => pathExistsForPlayer p (gameState.walls ++ [newWall])

/-- The array `directions` of `getValidMoves`, as pairs `(dr, dc)`. -/
def directions : List (Int × Int) := [(-1, 0), (1, 0), (0, -1), (0, 1)]

/-- The cells that one iteration of the loop of `getValidMoves`, for the
direction `d = (dr, dc)`, adds to `validMoves`, in the order it adds them. -/
def directionMoves (player : Player) (gameState : GameState) (d : Int × Int) : List Cell :=
  let row := player.row
  let col := player.col
  let nextRow := row + d.1
  let nextCol := col + d.2
  if decide (nextRow < 0) || decide (nextRow ≥ 9) || decide (nextCol < 0) || decide (nextCol ≥ 9)
  then []
  else if isMoveBlockedByWall row col nextRow nextCol gameState.walls then []
  else
    match gameState.players.find? fun p => decide (p.row = nextRow) && decide (p.col = nextCol) with
    | some _ =>
      let jumpRow := nextRow + d.1
      let jumpCol := nextCol + d.2
      let jumpBlocked :=
        decide (jumpRow < 0) || decide (jumpRow ≥ 9) || decide (jumpCol < 0) || decide (jumpCol ≥ 9)
          || isMoveBlockedByWall nextRow nextCol jumpRow jumpCol gameState.walls
      if !jumpBlocked then [⟨jumpRow, jumpCol⟩]
      else if d.2 = 0 then
        (if decide (nextCol - 1 ≥ 0)
            && !isMoveBlockedByWall nextRow nextCol nextRow (nextCol - 1) gameState.walls
          then [⟨nextRow, nextCol - 1⟩] else [])
        ++ (if decide (nextCol + 1 < 9)
            && !isMoveBlockedByWall nextRow nextCol nextRow (nextCol + 1) gameState.walls
          then [⟨nextRow, nextCol + 1⟩] else [])
      else
        (if decide (nextRow - 1 ≥ 0)
            && !isMoveBlockedByWall nextRow nextCol (nextRow - 1) nextCol gameState.walls
          then [⟨nextRow - 1, nextCol⟩] else [])
        ++ (if decide (nextRow + 1 < 9)
            && !isMoveBlockedByWall nextRow nextCol (nextRow + 1) nextCol gameState.walls
          then [⟨nextRow + 1, nextCol⟩] else [])
    | none => [⟨nextRow, nextCol⟩]

/-- `validMoves.add(key)` on a `Set` kept in insertion order. -/
def setAdd (validMoves : List Cell) (c : Cell) : List Cell :=
  if validMoves.contains c then validMoves else validMoves ++ [c]

/-- `getValidMoves(player, gameState)`: the cells of the set, in insertion
order (turning the keys back into `{ row, col }` objects changes nothing). -/
def getValidMoves (player : Player) (gameState : GameState) : List Cell :=
  directions.foldl (fun validMoves d => (directionMoves player gameState d).foldl setAdd validMoves) []

/-- The `action` argument of `game-action`: `type` is `'move'` with payload
`{ row, col }`, `'place-wall'` with a wall as payload, or anything else. -/
inductive Action
  | move (row col : Int)
  | placeWall (wall : Wall)
  | other
  deriving DecidableEq, Repr

/-- What a handler sends: `socket.emit('error-message', text)` to one
connection, or `io.to(roomCode).emit(...)` of `game-over` with the winner's
nickname or of `update-game-state` with the game state. -/
inductive Emit
  | errorMessage (socketId : Nat) (text : String)
  | gameOver (nickname : String)
  | updateGameState (gameState : GameState)
  deriving DecidableEq, Repr

/-- The end of the `game-action` handler: advance the turn and broadcast. -/
def nextTurn (gs : GameState) : GameState × List Emit :=
  let gs2 := { gs with turnIndex := (gs.turnIndex + 1) % gs.players.length }
  (gs2, [Emit.updateGameState gs2])

/-- The `game-action` handler on a room whose `gameState` is `gs`, for the
connection `socketId`: the new game state and the messages sent.  `none` is the
`TypeError` of `player.id` when `players[turnIndex]` is `undefined`.  On a win
the handler also schedules the deletion of the room ten seconds later, which
is not a change of the game state. -/
def gameAction (socketId : Nat) (action : Action) (gs : GameState) :
    Option (GameState × List Emit) :=
  match gs.players[gs.turnIndex]? with
  | none => none
  | some player =>
    if player.id ≠ socketId then
      some (gs, [Emit.errorMessage socketId "당신의 턴이 아닙니다."])
    else
      match action with
      | Action.move row col =>
        let validMoves := getValidMoves player gs
        let isMoveValid := validMoves.any fun m => decide (m.row = row) && decide (m.col = col)
        if !isMoveValid then
          some (gs, [Emit.errorMessage socketId "유효하지 않은 움직임입니다."])
        else
          let gs1 := { gs with
            players := gs.players.set gs.turnIndex { player with row := row, col := col } }
          if row = player.destination then some (gs1, [Emit.gameOver player.nickname])
          else some (nextTurn gs1)
      | Action.placeWall wall =>
        if player.wallsLeft ≤ 0 then
          some (gs, [Emit.errorMessage socketId "남은 장애물이 없습니다."])
        else if isValidWallPlacement wall gs then
          some (nextTurn { gs with
            walls := gs.walls ++ [wall]
            players := gs.players.set gs.turnIndex { player with wallsLeft := player.wallsLeft - 1 } })
        else
          some (gs, [Emit.errorMessage socketId "유효하지 않은 장애물 위치입니다."])
      | Action.other => some (nextTurn gs)

/-- An entry `{ id, nickname }` of `room.players`. -/
structure Participant where
  id : Nat
  nickname : String
  deriving DecidableEq, Repr

/-- The array `playerPositions` of the `start-game` handler. -/
def playerPositions : List Cell := [⟨0, 4⟩, ⟨8, 4⟩, ⟨4, 0⟩, ⟨4, 8⟩]

/-- The array `destinationRows` of the `start-game` handler. -/
def destinationRows : List Int := [8, 0, 8, 0]

/-- The game state the `start-game` handler builds for the participants of a
room, `turnIndex` being the value of
`Math.floor(Math.random() * room.players.length)`.  A room holds at most four
participants (`join-room` refuses a fifth), so every participant has an entry
in `playerPositions` and `destinationRows`. -/
def newGameState (participants : List Participant) (turnIndex : Nat) : GameState :=
  let wallCount : Int := if participants.length < 4 then 10 else 5
  { walls := []
    players := List.zipWith
      (fun (p : Participant) (seat : Cell × Int) =>
        { id := p.id, nickname := p.nickname, row := seat.1.row, col := seat.1.col,
          wallsLeft := wallCount, destination := seat.2 })
      participants (List.zip playerPositions destinationRows)
    turnIndex := turnIndex }

/-- The game states a session can be in: those the `start-game` handler
builds for 2, 3 or 4 participants with distinct ids, and those the
`game-action` handler leaves behind, whoever sends the action and whatever it
is. -/
inductive Reachable : GameState → Prop
  | start (participants : List Participant) (turnIndex : Nat) :
      2 ≤ participants.length → participants.length ≤ 4 →
      (participants.map fun p => p.id).Nodup → turnIndex < participants.length →
      Reachable (newGameState participants turnIndex)
  | step (gs gs2 : GameState) (socketId : Nat) (action : Action) (out : List Emit) :
      Reachable gs → gameAction socketId action gs = some (gs2, out) → Reachable gs2

/-- The handler applied to a list of `(socketId, action)` events in turn. -/
def runActions : List (Nat × Action) → GameState → Option GameState
  | [], gs => some gs
  | (socketId, action) :: events, gs =>
    match gameAction socketId action gs with
    | none => none
    | some (gs2, _) => runActions events gs2

/-! ### The grid graph -/

/-- The cell `b` is on the 9x9 board. -/
def OnBoard (b : Cell) : Prop := inBounds b.row b.col = true

/-- The cell `b` is the upper, lower, left or right neighbour of `a`. -/
def Adjacent (a b : Cell) : Prop :=
  (b.row = a.row - 1 ∧ b.col = a.col) ∨ (b.row = a.row + 1 ∧ b.col = a.col) ∨
  (b.row = a.row ∧ b.col = a.col - 1) ∨ (b.row = a.row ∧ b.col = a.col + 1)

/-- An edge of the grid graph: `b` is an orthogonal neighbour of `a` and the
step from `a` to `b` is not blocked under `isMoveBlockedByWall`. -/
def Edge (walls : List Wall) (a b : Cell) : Prop :=
  Adjacent a b ∧ isMoveBlockedByWall a.row a.col b.row b.col walls = false

/-- A genuine path to row `d`: the cells `start :: rest` are all on the board,
each one is joined to the next by an edge, and the last one lies in row `d`. -/
def HasPathToRow (walls : List Wall) (start : Cell) (d : Int) : Prop :=
  ∃ (rest : List Cell) (last : Cell),
    List.Chain (Edge walls) start rest ∧ (∀ c ∈ start :: rest, OnBoard c) ∧
    (start :: rest).getLast? = some last ∧ last.row = d

/-- An edge whose target is on the board: the steps the search follows. -/
def Link (walls : List Wall) (a b : Cell) : Prop := OnBoard b ∧ Edge walls a b

/-- Reachability along links. -/
def Reach (walls : List Wall) (a b : Cell) : Prop := Relation.ReflTransGen (Link walls) a b

/-- The 81 cells of the board. -/
def allCells : List Cell :=
  (List.range 9).flatMap fun (r : Nat) =>
    (List.range 9).map fun (c : Nat) => Cell.mk (Int.ofNat r) (Int.ofNat c)

/-- Number of board cells not yet in `visited`. -/
def unvisited (visited : List Cell) : Nat :=
  (allCells.filter fun x => !visited.contains x).length

/-- Some player of the game state stands on the cell `(r, c)`. -/
def Occupied (gs : GameState) (r c : Int) : Prop := ∃ p ∈ gs.players, p.row = r ∧ p.col = c

/-- The straight jump over the neighbour in direction `d` is possible: the
cell two steps away is on the board and the step onto it is not blocked. -/
def JumpOpen (player : Player) (gs : GameState) (d : Int × Int) : Prop :=
  inBounds (player.row + d.1 + d.1) (player.col + d.2 + d.2) = true ∧
  isMoveBlockedByWall (player.row + d.1) (player.col + d.2)
    (player.row + d.1 + d.1) (player.col + d.2 + d.2) gs.walls = false

/-- The two steps perpendicular to the direction `d`. -/
def sideSteps (d : Int × Int) : List (Int × Int) :=
  if d.2 = 0 then [(0, -1), (0, 1)] else [(-1, 0), (1, 0)]

instance (b : Cell) : Decidable (OnBoard b) := by unfold OnBoard; infer_instance

/-- What the path invariant needs: players on the board, each with a cell of
its destination row within reach. -/
def PathInv (gs : GameState) : Prop :=
  ∀ p ∈ gs.players, OnBoard p.cell ∧ ∃ c, Reach gs.walls p.cell c ∧ c.row = p.destination

/-- Three participants, in join order. -/
def threeParticipants : List Participant := [⟨10, "a"⟩, ⟨11, "b"⟩, ⟨12, "c"⟩]

/-- Eleven moves, each by the player whose turn it is, each one accepted: the
three pawns walk to `(3,4)`, `(5,4)` and `(4,4)`, then the first jumps over the
third. -/
def collisionEvents : List (Nat × Action) :=
  [(12, Action.move 4 1), (10, Action.move 1 4), (11, Action.move 7 4),
   (12, Action.move 4 2), (10, Action.move 2 4), (11, Action.move 6 4),
   (12, Action.move 4 3), (10, Action.move 3 4), (11, Action.move 5 4),
   (12, Action.move 4 4), (10, Action.move 5 4)]

/-- The game state after `collisionEvents`. -/
def collisionState : GameState :=
  { walls := []
    players := [⟨10, "a", 5, 4, 10, 8⟩, ⟨11, "b", 5, 4, 10, 0⟩, ⟨12, "c", 4, 4, 10, 8⟩]
    turnIndex := 1 }

/-- The player stands on one of the four start cells and has the destination
row that goes with it. -/
def AtSeat (p : Player) : Prop :=
  (p.cell, p.destination) ∈ List.zip playerPositions destinationRows

/-- A game state with one wall and two players, the second one on turn. -/
def oneWallState : GameState :=
  { walls := [⟨3, 3, Orientation.horizontal⟩]
    players := [⟨10, "a", 0, 4, 9, 8⟩, ⟨11, "b", 8, 4, 10, 0⟩]
    turnIndex := 1 }

/-- A game state with a pawn at `(3,4)` and an opponent at `(4,4)`, no walls. -/
def jumpState : GameState :=
  { walls := []
    players := [⟨10, "a", 3, 4, 10, 8⟩, ⟨11, "b", 4, 4, 10, 0⟩]
    turnIndex := 0 }

/-- The same with a horizontal wall at `(4,4)`, behind the opponent. -/
def sidestepState : GameState :=
  { walls := [⟨4, 4, Orientation.horizontal⟩]
    players := [⟨10, "a", 3, 4, 10, 8⟩, ⟨11, "b", 4, 4, 10, 0⟩]
    turnIndex := 0 }

/-- Two participants, in join order. -/
def twoParticipants : List Participant := [⟨10, "a"⟩, ⟨11, "b"⟩]

/-- Fifteen accepted moves of a two-player game: player 10 walks down column 4
while player 11 steps left and right on row 8; the last move puts player 10 on
its destination row 8. -/
def winEvents : List (Nat × Action) :=
  [(10, Action.move 1 4), (11, Action.move 8 3), (10, Action.move 2 4), (11, Action.move 8 4),
   (10, Action.move 3 4), (11, Action.move 8 3), (10, Action.move 4 4), (11, Action.move 8 4),
   (10, Action.move 5 4), (11, Action.move 8 3), (10, Action.move 6 4), (11, Action.move 8 4),
   (10, Action.move 7 4), (11, Action.move 8 3), (10, Action.move 8 4)]

/-- The game state before the last move of `winEvents`. -/
def beforeWinState : GameState :=
  { walls := []
    players := [⟨10, "a", 7, 4, 10, 8⟩, ⟨11, "b", 8, 3, 10, 0⟩]
    turnIndex := 0 }

/-- The game state after `winEvents`: player 10 has won. -/
def wonState : GameState :=
  { walls := []
    players := [⟨10, "a", 8, 4, 10, 8⟩, ⟨11, "b", 8, 3, 10, 0⟩]
    turnIndex := 0 }

/-- The game state after the winner has placed a wall in `wonState`. -/
def afterWonState : GameState :=
  { walls := [⟨0, 0, Orientation.horizontal⟩]
    players := [⟨10, "a", 8, 4, 9, 8⟩, ⟨11, "b", 8, 3, 10, 0⟩]
    turnIndex := 1 }

/-! ### The room directory: definitions -/

/-- A room code, as a property key of the object `rooms`: `index n` is the key
that is the canonical decimal string of the number `n`, `text s` any other
string `s`. -/
inductive RoomCode
  | index (n : Nat)
  | text (s : String)
  deriving DecidableEq, Repr

/-- The names of the properties of `Object.prototype`.  `rooms` is a plain
object, so `rooms[key]` has a value, which is not a room, for each of these
keys as long as `rooms` has no property of its own with that key. -/
def inheritedNames : List String :=
  ["constructor", "__defineGetter__", "__defineSetter__", "hasOwnProperty",
   "__lookupGetter__", "__lookupSetter__", "isPrototypeOf", "propertyIsEnumerable",
   "toString", "valueOf", "__proto__", "toLocaleString"]

/-- The key names a property of `Object.prototype`. -/
def RoomCode.isInherited : RoomCode → Bool
  | RoomCode.text s => inheritedNames.contains s
  | RoomCode.index _ => false

/-- The number of a key that is an array index, the canonical decimal string
of a number below `2 ^ 32 - 1`.  `for (... in rooms)` visits the keys that are
array indices first, in ascending numeric order, and every other key after
them, in the order of creation. -/
def RoomCode.arrayIndex : RoomCode → Option Nat
  | RoomCode.index n => if n < 4294967295 then some n else none
  | RoomCode.text _ => none

/-- A room object `{ players, host, gameState }`; `gameState` is `null` before
the game starts. -/
structure Room where
  players : List Participant
  host : Nat
  gameState : Option GameState
  deriving DecidableEq, Repr

/-- What the handlers of the room directory send: `socket.emit` of
`error-message`, `room-created` or `joined-room` to one connection,
`io.to(roomCode).emit` of `update-lobby` or `game-started`, and the messages of
the `game-action` handler for a room.  The `update-user-list` broadcasts
belong to `connectedUsers`, which is not modelled. -/
inductive LobbyEmit
  | errorMessage (socketId : Nat) (text : String)
  | roomCreated (socketId : Nat) (code : RoomCode)
  | joinedRoom (socketId : Nat) (code : RoomCode)
  | updateLobby (code : RoomCode) (room : Room)
  | gameStarted (code : RoomCode) (gameState : GameState)
  | game (code : RoomCode) (message : Emit)
  deriving DecidableEq, Repr

/-- The value `rooms[roomCode]` (`none` for `undefined`); the object `rooms` is
the list of its entries in the order in which `for (... in rooms)` visits
them. -/
def lookupRoom (rooms : List (RoomCode × Room)) (code : RoomCode) : Option Room :=
  (rooms.find? fun e => decide (e.1 = code)).map fun e => e.2

/-- A write to the room `rooms[roomCode]`, which exists: the entry keeps its
place. -/
def setRoom (rooms : List (RoomCode × Room)) (code : RoomCode) (room : Room) :
    List (RoomCode × Room) :=
  rooms.map fun e => if e.1 = code then (code, room) else e

/-- The statement `delete rooms[roomCode]`. -/
def deleteRoom (rooms : List (RoomCode × Room)) (code : RoomCode) : List (RoomCode × Room) :=
  rooms.filter fun e => !decide (e.1 = code)

/-- The existing key `other` is visited before the new key `code` in the order
of `for (... in rooms)`: `code` is not an array index, or both keys are array
indices and `other` is the smaller. -/
def visitedAfter (code : RoomCode) (other : RoomCode) : Bool :=
  match code.arrayIndex, other.arrayIndex with
  | some n, some m => decide (m < n)
  | some _, none => false
  | none, _ => true

/-- The assignment `rooms[roomCode] = room` for a key that does not exist
yet. -/
def insertRoom (rooms : List (RoomCode × Room)) (code : RoomCode) (room : Room) :
    List (RoomCode × Room) :=
  (rooms.takeWhile fun e => visitedAfter code e.1) ++ (code, room)
    :: (rooms.dropWhile fun e => visitedAfter code e.1)

/-- The `create-room` handler, for the connection `socketId` whose entry in
`connectedUsers` has the nickname `nickname`.  The test `if (rooms[roomCode])`
succeeds for a room and for a value inherited from `Object.prototype`. -/
def createRoom (socketId : Nat) (nickname : String) (code : RoomCode)
    (rooms : List (RoomCode × Room)) : List (RoomCode × Room) × List LobbyEmit :=
  match lookupRoom rooms code with
  | some _ => (rooms, [LobbyEmit.errorMessage socketId "이미 존재하는 방 코드입니다."])
  | none =>
    if code.isInherited then
      (rooms, [LobbyEmit.errorMessage socketId "이미 존재하는 방 코드입니다."])
    else
      let room : Room :=
        { players := [⟨socketId, nickname⟩], host := socketId, gameState := none }
      (insertRoom rooms code room,
        [LobbyEmit.roomCreated socketId code, LobbyEmit.updateLobby code room])

/-- The `join-room` handler.  For a key inherited from `Object.prototype` the
test `if (!rooms[roomCode])` fails, `rooms[roomCode].players` is `undefined`
and `.length` throws a `TypeError`: the result is `none`. -/
def joinRoom (socketId : Nat) (nickname : String) (code : RoomCode)
    (rooms : List (RoomCode × Room)) : Option (List (RoomCode × Room) × List LobbyEmit) :=
  match lookupRoom rooms code with
  | none =>
    if code.isInherited then none
    else some (rooms, [LobbyEmit.errorMessage socketId "존재하지 않는 방 코드입니다."])
  | some room =>
    if room.players.length ≥ 4 then
      some (rooms, [LobbyEmit.errorMessage socketId "방이 가득 찼습니다."])
    else
      let room2 : Room := { room with players := room.players ++ [⟨socketId, nickname⟩] }
      some (setRoom rooms code room2,
        [LobbyEmit.updateLobby code room2, LobbyEmit.joinedRoom socketId code])

/-- The integer nearest to `t`, the even one of the two when `t` lies half way
between them: the rounding of IEEE 754 arithmetic. -/
def roundHalfEven (t : ℚ) : ℤ :=
  if t - ⌊t⌋ < 1 / 2 then ⌊t⌋
  else if 1 / 2 < t - ⌊t⌋ then ⌊t⌋ + 1
  else if ⌊t⌋ % 2 = 0 then ⌊t⌋ else ⌊t⌋ + 1

/-- The double that a JavaScript operation with the exact result `x` returns,
for `0 ≤ x < 2 ^ 1023`: `x` rounded to a multiple of `2 ^ (e - 52)`, where
`2 ^ e ≤ x < 2 ^ (e + 1)` and `e` is taken as `-1022` below `2 ^ (-1022)`. -/
def roundDouble (x : ℚ) : ℚ :=
  if x ≤ 0 then 0
  else
    (roundHalfEven (x / 2 ^ (max (Int.log 2 x) (-1022) - 52)) : ℚ)
      * 2 ^ (max (Int.log 2 x) (-1022) - 52)

/-- The number `x` is a double that is not negative: `m * 2 ^ e` with
`m < 2 ^ 53` and `-1074 ≤ e ≤ 971`. -/
def IsDouble (x : ℚ) : Prop :=
  ∃ (m : ℕ) (e : ℤ), m < 2 ^ 53 ∧ -1074 ≤ e ∧ e ≤ 971 ∧ x = (m : ℚ) * 2 ^ e

/-- The `start-game` handler; `draw` is the value of `Math.random()`, a double
in `[0, 1)`, and `Math.random() * room.players.length` is the product rounded
to a double.  For a key inherited from `Object.prototype` the test
`rooms[roomCode].host === socket.id` fails as it does for a missing room. -/
def startGame (socketId : Nat) (code : RoomCode) (draw : ℚ)
    (rooms : List (RoomCode × Room)) : List (RoomCode × Room) × List LobbyEmit :=
  match lookupRoom rooms code with
  | none => (rooms, [])
  | some room =>
    if room.host = socketId then
      if room.players.length < 2 then
        (rooms, [LobbyEmit.errorMessage socketId "게임를 시작하려면 최소 2명이 필요합니다."])
      else
        let gameState :=
          newGameState room.players ⌊roundDouble (draw * (room.players.length : ℚ))⌋₊
        (setRoom rooms code { room with gameState := some gameState },
          [LobbyEmit.gameStarted code gameState])
    else (rooms, [])

/-- The `game-action` handler on the directory: nothing happens when the room
or its game state is missing (a value inherited from `Object.prototype` has no
`gameState` either); otherwise `gameAction` runs on the game state of the
room.  `none` is the `TypeError` of `gameAction`. -/
def roomGameAction (socketId : Nat) (code : RoomCode) (action : Action)
    (rooms : List (RoomCode × Room)) : Option (List (RoomCode × Room) × List LobbyEmit) :=
  match lookupRoom rooms code with
  | none => some (rooms, [])
  | some room =>
    match room.gameState with
    | none => some (rooms, [])
    | some gs =>
      match gameAction socketId action gs with
      | none => none
      | some (gs2, out) =>
        some (setRoom rooms code { room with gameState := some gs2 },
          out.map (LobbyEmit.game code))

/-- The loop of the `disconnect` handler over the entries of `rooms` still to
visit: the first room that lists the connection loses the first entry with
its id (`findIndex`, `splice`), is deleted when it is empty then, and gets
`players[0].id` as host when the connection was its host; the `break` ends
the loop there. -/
def disconnectLoop (socketId : Nat) :
    List (RoomCode × Room) → List (RoomCode × Room) × List LobbyEmit
  | [] => ([], [])
  | (code, room) :: rest =>
    match room.players.findIdx? fun p => decide (p.id = socketId) with
    | some playerIndex =>
      match room.players.eraseIdx playerIndex with
      | [] => (rest, [])
      | first :: others =>
        let room2 : Room :=
          { room with
            players := first :: others
            host := if room.host = socketId then first.id else room.host }
        ((code, room2) :: rest, [LobbyEmit.updateLobby code room2])
    | none =>
      let r := disconnectLoop socketId rest
      ((code, room) :: r.1, r.2)

/-- The `disconnect` handler, as far as `rooms` goes. -/
def disconnect (socketId : Nat) (rooms : List (RoomCode × Room)) :
    List (RoomCode × Room) × List LobbyEmit :=
  disconnectLoop socketId rooms

/-- The callback of the `setTimeout` of the win branch of `game-action`:
`if (rooms[roomCode]) delete rooms[roomCode]`. -/
def teardown (code : RoomCode) (rooms : List (RoomCode × Room)) : List (RoomCode × Room) :=
  match lookupRoom rooms code with
  | some _ => deleteRoom rooms code
  | none => rooms

/-- An event of the room directory. -/
inductive Event
  | createRoom (socketId : Nat) (nickname : String) (code : RoomCode)
  | joinRoom (socketId : Nat) (nickname : String) (code : RoomCode)
  | startGame (socketId : Nat) (code : RoomCode) (draw : ℚ)
  | gameAction (socketId : Nat) (code : RoomCode) (action : Action)
  | disconnect (socketId : Nat)
  | teardown (code : RoomCode)

/-- The handler of an event; `none` when it throws. -/
def handle (event : Event) (rooms : List (RoomCode × Room)) :
    Option (List (RoomCode × Room) × List LobbyEmit) :=
  match event with
  | Event.createRoom socketId nickname code => some (createRoom socketId nickname code rooms)
  | Event.joinRoom socketId nickname code => joinRoom socketId nickname code rooms
  | Event.startGame socketId code draw => some (startGame socketId code draw rooms)
  | Event.gameAction socketId code action => roomGameAction socketId code action rooms
  | Event.disconnect socketId => some (disconnect socketId rooms)
  | Event.teardown code => some (teardown code rooms, [])

/-- The handlers applied to a list of events in turn, from the directory
`rooms`. -/
def runEvents : List Event → List (RoomCode × Room) → Option (List (RoomCode × Room))
  | [], rooms => some rooms
  | event :: events, rooms =>
    match handle event rooms with
    | none => none
    | some (rooms2, _) => runEvents events rooms2

/-- The `start-game` events carry a value of `Math.random()`, a double in
`[0, 1)`; the other events carry nothing that a condition is put on. -/
def Event.WellFormed : Event → Prop
  | Event.startGame _ _ draw => IsDouble draw ∧ 0 ≤ draw ∧ draw < 1
  | _ => True

/-- The directories the server can be in: the empty one it starts with, and
those an event handler that returns leaves behind.  When the deletion
scheduled at a win fires is not modelled: `teardown` may come at any time. -/
inductive DirReachable : List (RoomCode × Room) → Prop
  | empty : DirReachable []
  | step (rooms rooms2 : List (RoomCode × Room)) (event : Event) (out : List LobbyEmit) :
      DirReachable rooms → event.WellFormed → handle event rooms = some (rooms2, out) →
      DirReachable rooms2

/-- What holds of every room of a reachable directory: between 1 and 4
participants, the host among them, and a game state, if there is one, whose
`turnIndex` designates a player. -/
def RoomOk (room : Room) : Prop :=
  1 ≤ room.players.length ∧ room.players.length ≤ 4 ∧
  (∃ p ∈ room.players, p.id = room.host) ∧
  ∀ gs, room.gameState = some gs → gs.turnIndex < gs.players.length

/-- A directory with one room, code `B`, of two participants, not started. -/
def lobbyRooms : List (RoomCode × Room) :=
  [(RoomCode.text "B", { players := [⟨1, "a"⟩, ⟨2, "b"⟩], host := 1, gameState := none })]

/-- Six events on the empty directory: a room is created and filled; the
fifth `join-room` and a second `create-room` with its code are refused. -/
def fullRoomEvents : List Event :=
  [Event.createRoom 1 "a" (RoomCode.text "A"), Event.joinRoom 2 "b" (RoomCode.text "A"),
   Event.joinRoom 3 "c" (RoomCode.text "A"), Event.joinRoom 4 "d" (RoomCode.text "A"),
   Event.joinRoom 5 "e" (RoomCode.text "A"), Event.createRoom 6 "f" (RoomCode.text "A")]

/-- The directory after `fullRoomEvents`. -/
def fullRooms : List (RoomCode × Room) :=
  [(RoomCode.text "A",
    { players := [⟨1, "a"⟩, ⟨2, "b"⟩, ⟨3, "c"⟩, ⟨4, "d"⟩], host := 1, gameState := none })]

/-- Nine accepted moves of a three-player game: the third player, who starts
on the left edge at `(4,0)`, walks down column 0 to `(7,0)` while the others
step left and right on their rows. -/
def leftSeatEvents : List (Nat × Action) :=
  [(12, Action.move 5 0), (10, Action.move 0 3), (11, Action.move 8 3),
   (12, Action.move 6 0), (10, Action.move 0 4), (11, Action.move 8 4),
   (12, Action.move 7 0), (10, Action.move 0 3), (11, Action.move 8 3)]

/-- The game state after `leftSeatEvents`. -/
def leftSeatState : GameState :=
  { walls := []
    players := [⟨10, "a", 0, 3, 10, 8⟩, ⟨11, "b", 8, 3, 10, 0⟩, ⟨12, "c", 7, 0, 10, 8⟩]
    turnIndex := 2 }

/-- The game state after the third player has moved on to `(8,0)`. -/
def leftSeatWonState : GameState :=
  { walls := []
    players := [⟨10, "a", 0, 3, 10, 8⟩, ⟨11, "b", 8, 3, 10, 0⟩, ⟨12, "c", 8, 0, 10, 8⟩]
    turnIndex := 2 }

/-- Twenty-one accepted moves of a three-player game: the third player walks
along row 4 from `(4,0)` to `(4,7)` while the others step left and right on
their rows. -/
def crossingEvents : List (Nat × Action) :=
  [(12, Action.move 4 1), (10, Action.move 0 3), (11, Action.move 8 3),
   (12, Action.move 4 2), (10, Action.move 0 4), (11, Action.move 8 4),
   (12, Action.move 4 3), (10, Action.move 0 3), (11, Action.move 8 3),
   (12, Action.move 4 4), (10, Action.move 0 4), (11, Action.move 8 4),
   (12, Action.move 4 5), (10, Action.move 0 3), (11, Action.move 8 3),
   (12, Action.move 4 6), (10, Action.move 0 4), (11, Action.move 8 4),
   (12, Action.move 4 7), (10, Action.move 0 3), (11, Action.move 8 3)]

/-- The game state after `crossingEvents`. -/
def crossingState : GameState :=
  { walls := []
    players := [⟨10, "a", 0, 3, 10, 8⟩, ⟨11, "b", 8, 3, 10, 0⟩, ⟨12, "c", 4, 7, 10, 8⟩]
    turnIndex := 2 }

/-- The game state after the third player has moved on to `(4,8)`, on the
right edge. -/
def crossedState : GameState :=
  { walls := []
    players := [⟨10, "a", 0, 3, 10, 8⟩, ⟨11, "b", 8, 3, 10, 0⟩, ⟨12, "c", 4, 8, 10, 8⟩]
    turnIndex := 0 }

/-- Connection 1 creates the rooms `A` and `B`, connection 2 joins `B`. -/
def twoRoomEvents : List Event :=
  [Event.createRoom 1 "a" (RoomCode.text "A"), Event.createRoom 1 "a" (RoomCode.text "B"),
   Event.joinRoom 2 "b" (RoomCode.text "B")]

/-- The directory after `twoRoomEvents`. -/
def twoRooms : List (RoomCode × Room) :=
  [(RoomCode.text "A", { players := [⟨1, "a"⟩], host := 1, gameState := none }),
   (RoomCode.text "B", { players := [⟨1, "a"⟩, ⟨2, "b"⟩], host := 1, gameState := none })]

/-- The directory after connection 1 has disconnected from `twoRooms`: room
`A` is gone, room `B` is as before. -/
def staleHostRooms : List (RoomCode × Room) :=
  [(RoomCode.text "B", { players := [⟨1, "a"⟩, ⟨2, "b"⟩], host := 1, gameState := none })]

/-- Connection 1 creates the room `A` and joins it again. -/
def doubleJoinEvents : List Event :=
  [Event.createRoom 1 "a" (RoomCode.text "A"), Event.joinRoom 1 "a" (RoomCode.text "A")]

/-- The directory after `doubleJoinEvents`. -/
def doubleJoinRooms : List (RoomCode × Room) :=
  [(RoomCode.text "A", { players := [⟨1, "a"⟩, ⟨1, "a"⟩], host := 1, gameState := none })]

/-- Connection 1 creates the rooms `A` and `B`. -/
def twoCreateEvents : List Event :=
  [Event.createRoom 1 "a" (RoomCode.text "A"), Event.createRoom 1 "a" (RoomCode.text "B")]

/-- The directory after `twoCreateEvents`. -/
def twoCreateRooms : List (RoomCode × Room) :=
  [(RoomCode.text "A", { players := [⟨1, "a"⟩], host := 1, gameState := none }),
   (RoomCode.text "B", { players := [⟨1, "a"⟩], host := 1, gameState := none })]

/-- A directory of one room, of two participants, whose game the first of them
has just won. -/
def wonRooms : List (RoomCode × Room) :=
  [(RoomCode.text "A", { players := twoParticipants, host := 10, gameState := some wonState })]

/-! ### Lemmas on the search -/

theorem inBounds_iff (r c : Int) : inBounds r c = true ↔ 0 ≤ r ∧ r < 9 ∧ 0 ≤ c ∧ c < 9 := by
  simp [inBounds, and_assoc]

theorem mem_allCells (b : Cell) (h : OnBoard b) : b ∈ allCells := by
  obtain ⟨r, c⟩ := b
  simp only [OnBoard, inBounds_iff] at h
  have hr : r.toNat < 9 := by omega
  have hc : c.toNat < 9 := by omega
  refine List.mem_flatMap.mpr ⟨r.toNat, List.mem_range.mpr hr, ?_⟩
  refine List.mem_map.mpr ⟨c.toNat, List.mem_range.mpr hc, ?_⟩
  simp only [Cell.mk.injEq, Int.ofNat_eq_coe]
  omega

theorem allCells_length : allCells.length = 81 := by decide

theorem unvisited_le (v : List Cell) : unvisited v ≤ 81 := by
  unfold unvisited
  calc _ ≤ allCells.length := List.length_filter_le _ _
    _ = 81 := allCells_length

theorem unvisited_cons_lt (v : List Cell) (b : Cell) (hb : OnBoard b) (hv : b ∉ v) :
    unvisited (b :: v) < unvisited v := by
  unfold unvisited
  have h1 : (allCells.filter fun x => !(b :: v).contains x)
      = (allCells.filter fun x => !v.contains x).filter fun x => !(b :: v).contains x := by
    rw [List.filter_filter]
    apply List.filter_congr
    intro x _
    by_cases hx : x ∈ v <;> by_cases hxb : x = b <;> simp [hx, hxb]
  rw [h1]
  apply List.length_filter_lt_length_iff_exists.mpr
  refine ⟨b, ?_, ?_⟩
  · simp [List.mem_filter, mem_allCells b hb, hv]
  · simp

theorem visitNeighbour_eq (walls : List Wall) (r c : Int) (s : List Cell × List Cell)
    (d : Int × Int) :
    visitNeighbour walls r c s d =
      if inBounds (r + d.1) (c + d.2) = true ∧ (⟨r + d.1, c + d.2⟩ : Cell) ∉ s.2 ∧
          isMoveBlockedByWall r c (r + d.1) (c + d.2) walls = false
      then (s.1 ++ [⟨r + d.1, c + d.2⟩], ⟨r + d.1, c + d.2⟩ :: s.2) else s := by
  unfold visitNeighbour
  by_cases h1 : inBounds (r + d.1) (c + d.2) = true
  · by_cases h2 : (⟨r + d.1, c + d.2⟩ : Cell) ∈ s.2 <;>
      by_cases h3 : isMoveBlockedByWall r c (r + d.1) (c + d.2) walls = true <;>
      simp [h1, h2, h3]
  · simp [h1]

theorem adjacent_of_mem_moves (a : Cell) (d : Int × Int) (hd : d ∈ moves) :
    Adjacent a ⟨a.row + d.1, a.col + d.2⟩ := by
  simp only [moves, List.mem_cons, List.mem_singleton, List.not_mem_nil, or_false] at hd
  rcases hd with rfl | rfl | rfl | rfl <;> simp [Adjacent] <;> omega

theorem exists_move_of_adjacent (a b : Cell) (h : Adjacent a b) :
    ∃ d ∈ moves, b = ⟨a.row + d.1, a.col + d.2⟩ := by
  obtain ⟨br, bc⟩ := b
  rcases h with ⟨h1, h2⟩ | ⟨h1, h2⟩ | ⟨h1, h2⟩ | ⟨h1, h2⟩
  · exact ⟨(-1, 0), by simp [moves], by simp at h1 h2 ⊢; omega⟩
  · exact ⟨(1, 0), by simp [moves], by simp at h1 h2 ⊢; omega⟩
  · exact ⟨(0, -1), by simp [moves], by simp at h1 h2 ⊢; omega⟩
  · exact ⟨(0, 1), by simp [moves], by simp at h1 h2 ⊢; omega⟩

/-- What one iteration of the inner loop does to `(queue, visited)`. -/
theorem visitNeighbour_spec (walls : List Wall) (r c : Int) (d : Int × Int) (hd : d ∈ moves)
    (s : List Cell × List Cell) :
    (∀ x ∈ s.1, x ∈ (visitNeighbour walls r c s d).1) ∧
    (∀ x ∈ s.2, x ∈ (visitNeighbour walls r c s d).2) ∧
    (∀ x ∈ (visitNeighbour walls r c s d).1, x ∈ s.1 ∨ Link walls ⟨r, c⟩ x) ∧
    (∀ x ∈ (visitNeighbour walls r c s d).2, x ∈ s.2 ∨ x ∈ (visitNeighbour walls r c s d).1) ∧
    (inBounds (r + d.1) (c + d.2) = true →
      isMoveBlockedByWall r c (r + d.1) (c + d.2) walls = false →
      (⟨r + d.1, c + d.2⟩ : Cell) ∈ (visitNeighbour walls r c s d).2) ∧
    unvisited (visitNeighbour walls r c s d).2 + (visitNeighbour walls r c s d).1.length
      ≤ unvisited s.2 + s.1.length := by
  rw [visitNeighbour_eq]
  split
  · rename_i h
    obtain ⟨hb, hv, hw⟩ := h
    have hlink : Link walls ⟨r, c⟩ ⟨r + d.1, c + d.2⟩ :=
      ⟨hb, adjacent_of_mem_moves ⟨r, c⟩ d hd, hw⟩
    have hlt := unvisited_cons_lt s.2 ⟨r + d.1, c + d.2⟩ hb hv
    refine ⟨?_, ?_, ?_, ?_, ?_, ?_⟩
    · intro x hx; simp [hx]
    · intro x hx; simp [hx]
    · intro x hx
      simp only [List.mem_append, List.mem_singleton] at hx
      rcases hx with hx | rfl
      · exact Or.inl hx
      · exact Or.inr hlink
    · intro x hx
      simp only [List.mem_cons] at hx
      rcases hx with rfl | hx
      · right; simp
      · exact Or.inl hx
    · intro _ _; simp
    · simp only [List.length_append, List.length_singleton]; omega
  · rename_i h
    refine ⟨fun x hx => hx, fun x hx => hx, fun x hx => Or.inl hx, fun x hx => Or.inl hx, ?_,
      le_refl _⟩
    intro hb hw
    by_contra hv
    exact h ⟨hb, hv, hw⟩

/-- What a run of the inner loop over the directions `ds` does to
`(queue, visited)`. -/
theorem foldl_visit_spec (walls : List Wall) (r c : Int) (ds : List (Int × Int))
    (hds : ∀ d ∈ ds, d ∈ moves) (s : List Cell × List Cell) :
    (∀ x ∈ s.1, x ∈ (ds.foldl (visitNeighbour walls r c) s).1) ∧
    (∀ x ∈ s.2, x ∈ (ds.foldl (visitNeighbour walls r c) s).2) ∧
    (∀ x ∈ (ds.foldl (visitNeighbour walls r c) s).1, x ∈ s.1 ∨ Link walls ⟨r, c⟩ x) ∧
    (∀ x ∈ (ds.foldl (visitNeighbour walls r c) s).2,
      x ∈ s.2 ∨ x ∈ (ds.foldl (visitNeighbour walls r c) s).1) ∧
    (∀ d ∈ ds, inBounds (r + d.1) (c + d.2) = true →
      isMoveBlockedByWall r c (r + d.1) (c + d.2) walls = false →
      (⟨r + d.1, c + d.2⟩ : Cell) ∈ (ds.foldl (visitNeighbour walls r c) s).2) ∧
    unvisited (ds.foldl (visitNeighbour walls r c) s).2
        + (ds.foldl (visitNeighbour walls r c) s).1.length
      ≤ unvisited s.2 + s.1.length := by
  induction ds generalizing s with
  | nil =>
    exact ⟨fun x hx => hx, fun x hx => hx, fun x hx => Or.inl hx, fun x hx => Or.inl hx,
      fun d hd => absurd hd (List.not_mem_nil d), le_refl _⟩
  | cons d ds ih =>
    obtain ⟨a1, a2, a3, a4, a5, a6⟩ :=
      visitNeighbour_spec walls r c d (hds d (List.mem_cons_self d ds)) s
    obtain ⟨b1, b2, b3, b4, b5, b6⟩ :=
      ih (fun e he => hds e (List.mem_cons_of_mem d he)) (visitNeighbour walls r c s d)
    simp only [List.foldl_cons]
    refine ⟨fun x hx => b1 x (a1 x hx), fun x hx => b2 x (a2 x hx), ?_, ?_, ?_, le_trans b6 a6⟩
    · intro x hx
      rcases b3 x hx with h | h
      · exact a3 x h
      · exact Or.inr h
    · intro x hx
      rcases b4 x hx with h | h
      · rcases a4 x h with h | h
        · exact Or.inl h
        · exact Or.inr (b1 x h)
      · exact Or.inr h
    · intro e he hb hw
      rcases List.mem_cons.mp he with rfl | he
      · exact b2 _ (a5 hb hw)
      · exact b5 e he hb hw

/-- Soundness of the loop: it answers `true` only at a cell reachable from
`start`, provided every queued cell is. -/
theorem pathSearch_sound (walls : List Wall) (d : Int) (start : Cell) :
    ∀ (fuel : Nat) (q v : List Cell), (∀ x ∈ q, Reach walls start x) →
      pathSearch walls d fuel q v = some true → ∃ c, Reach walls start c ∧ c.row = d := by
  intro fuel
  induction fuel with
  | zero => intro q v _ h; simp [pathSearch] at h
  | succ fuel ih =>
    intro q v hq h
    cases q with
    | nil => simp [pathSearch] at h
    | cons c rest =>
      simp only [pathSearch] at h
      by_cases hc : c.row = d
      · exact ⟨c, hq c (List.mem_cons_self c rest), hc⟩
      · rw [if_neg hc] at h
        refine ih _ _ ?_ h
        intro x hx
        rcases (foldl_visit_spec walls c.row c.col moves (fun _ h => h) (rest, v)).2.2.1 x hx
          with h1 | h1
        · exact hq x (List.mem_cons_of_mem c h1)
        · exact Relation.ReflTransGen.tail (hq c (List.mem_cons_self c rest)) h1

/-- Termination and completeness of the loop: with more fuel than unvisited
board cells plus queued cells it ends, and when it answers `false` the visited
cells are contained in a set closed under links that avoids row `d`. -/
theorem pathSearch_complete (walls : List Wall) (d : Int) :
    ∀ (fuel : Nat) (q v : List Cell), unvisited v + q.length < fuel →
      (∀ x ∈ q, x ∈ v) →
      (∀ a ∈ v, a ∉ q → ∀ b, Link walls a b → b ∈ v) →
      (∀ a ∈ v, a ∉ q → a.row ≠ d) →
      ∃ r, pathSearch walls d fuel q v = some r ∧
        (r = false → ∃ v2 : List Cell, (∀ x ∈ v, x ∈ v2) ∧
          (∀ a ∈ v2, ∀ b, Link walls a b → b ∈ v2) ∧ ∀ a ∈ v2, a.row ≠ d) := by
  intro fuel
  induction fuel with
  | zero => intro q v h; omega
  | succ fuel ih =>
    intro q v hfuel hqv hclosed hrow
    cases q with
    | nil =>
      refine ⟨false, by simp [pathSearch], fun _ => ⟨v, fun x hx => hx, ?_, ?_⟩⟩
      · exact fun a ha => hclosed a ha (List.not_mem_nil a)
      · exact fun a ha => hrow a ha (List.not_mem_nil a)
    | cons c rest =>
      by_cases hc : c.row = d
      · exact ⟨true, by simp [pathSearch, hc], fun h => by simp at h⟩
      · obtain ⟨f1, f2, f3, f4, f5, f6⟩ :=
          foldl_visit_spec walls c.row c.col moves (fun _ h => h) (rest, v)
        simp only [pathSearch, if_neg hc]
        have hstep := ih (moves.foldl (visitNeighbour walls c.row c.col) (rest, v)).1
          (moves.foldl (visitNeighbour walls c.row c.col) (rest, v)).2 ?_ ?_ ?_ ?_
        · obtain ⟨r, hr, hfalse⟩ := hstep
          refine ⟨r, hr, fun h => ?_⟩
          obtain ⟨v2, h1, h2, h3⟩ := hfalse h
          exact ⟨v2, fun x hx => h1 x (f2 x hx), h2, h3⟩
        · simp only [List.length_cons] at hfuel f6
          omega
        · intro x hx
          rcases f3 x hx with h | h
          · exact f2 x (hqv x (List.mem_cons_of_mem c h))
          · rcases f4 x (by
              obtain ⟨e, he, rfl⟩ := exists_move_of_adjacent ⟨c.row, c.col⟩ x h.2.1
              exact f5 e he h.1 h.2.2) with h2 | h2
            · exact f2 x h2
            · obtain ⟨e, he, rfl⟩ := exists_move_of_adjacent ⟨c.row, c.col⟩ x h.2.1
              exact f5 e he h.1 h.2.2
        · intro a ha hna b hab
          have hav : a ∈ v := by
            rcases f4 a ha with h | h
            · exact h
            · exact absurd h hna
          by_cases hac : a = c
          · subst hac
            obtain ⟨e, he, rfl⟩ := exists_move_of_adjacent a b hab.2.1
            exact f5 e he hab.1 hab.2.2
          · have : a ∉ c :: rest := by
              intro hmem
              rcases List.mem_cons.mp hmem with h | h
              · exact hac h
              · exact hna (f1 a h)
            exact f2 b (hclosed a hav this b hab)
        · intro a ha hna
          have hav : a ∈ v := by
            rcases f4 a ha with h | h
            · exact h
            · exact absurd h hna
          by_cases hac : a = c
          · subst hac; exact hc
          · have : a ∉ c :: rest := by
              intro hmem
              rcases List.mem_cons.mp hmem with h | h
              · exact hac h
              · exact hna (f1 a h)
            exact hrow a hav this

theorem chain_link_onBoard (walls : List Wall) :
    ∀ (rest : List Cell) (a : Cell), List.Chain (Link walls) a rest → ∀ c ∈ rest, OnBoard c := by
  intro rest
  induction rest with
  | nil => intro a _ c hc; exact absurd hc (List.not_mem_nil c)
  | cons b rest ih =>
    intro a h c hc
    rw [List.chain_cons] at h
    rcases List.mem_cons.mp hc with rfl | hc
    · exact h.1.1
    · exact ih b h.2 c hc

theorem chain_link_of_edge (walls : List Wall) :
    ∀ (rest : List Cell) (a : Cell), List.Chain (Edge walls) a rest →
      (∀ c ∈ rest, OnBoard c) → List.Chain (Link walls) a rest := by
  intro rest
  induction rest with
  | nil => intro a _ _; exact List.Chain.nil
  | cons b rest ih =>
    intro a h hb
    rw [List.chain_cons] at h
    exact List.Chain.cons ⟨hb b (List.mem_cons_self b rest), h.1⟩
      (ih b h.2 fun c hc => hb c (List.mem_cons_of_mem b hc))

/-- Paths written out as lists of cells and reachability along links are the
same thing from a start cell on the board. -/
theorem hasPathToRow_iff_reach (walls : List Wall) (start : Cell) (d : Int)
    (hs : OnBoard start) :
    HasPathToRow walls start d ↔ ∃ c, Reach walls start c ∧ c.row = d := by
  constructor
  · rintro ⟨rest, last, hchain, hboard, hlast, hrow⟩
    refine ⟨last, ?_, hrow⟩
    have hl := chain_link_of_edge walls rest start hchain
      (fun c hc => hboard c (List.mem_cons_of_mem start hc))
    refine List.relationReflTransGen_of_exists_chain rest hl ?_
    rw [List.getLast?_eq_getLast _ (List.cons_ne_nil start rest)] at hlast
    exact Option.some.inj hlast
  · rintro ⟨c, hreach, hrow⟩
    obtain ⟨rest, hchain, hlast⟩ := List.exists_chain_of_relationReflTransGen hreach
    refine ⟨rest, c, hchain.imp (fun _ _ h => h.2), ?_, ?_, hrow⟩
    · intro x hx
      rcases List.mem_cons.mp hx with rfl | hx
      · exact hs
      · exact chain_link_onBoard walls rest start hchain x hx
    · rw [List.getLast?_eq_getLast _ (List.cons_ne_nil start rest), hlast]

/-- The search ends within `searchFuel` iterations, and its answer is `true`
exactly when a cell of row `d` is reachable from `start`. -/
theorem pathSearch_start (walls : List Wall) (d : Int) (start : Cell) :
    ∃ r, pathSearch walls d searchFuel [start] [start] = some r ∧
      (r = true ↔ ∃ c, Reach walls start c ∧ c.row = d) := by
  obtain ⟨r, hr, hfalse⟩ := pathSearch_complete walls d searchFuel [start] [start]
    (by have := unvisited_le [start]; simp only [List.length_singleton, searchFuel]; omega)
    (fun x hx => hx) (fun a ha hna => absurd ha hna) (fun a ha hna => absurd ha hna)
  refine ⟨r, hr, ?_, ?_⟩
  · intro h
    subst h
    exact pathSearch_sound walls d start searchFuel [start] [start]
      (fun x hx => by rw [List.mem_singleton.mp hx]; exact Relation.ReflTransGen.refl) hr
  · rintro ⟨c, hreach, hrow⟩
    cases r with
    | true => rfl
    | false =>
      obtain ⟨v2, h1, h2, h3⟩ := hfalse rfl
      have hmem : ∀ x, Reach walls start x → x ∈ v2 := by
        intro x hx
        induction hx with
        | refl => exact h1 start (List.mem_singleton.mpr rfl)
        | tail _ hstep ih => exact h2 _ ih _ hstep
      exact absurd hrow (h3 c (hmem c hreach))

theorem pathExistsForPlayer_iff_reach (player : Player) (walls : List Wall) :
    pathExistsForPlayer player walls = true ↔
      ∃ c, Reach walls player.cell c ∧ c.row = player.destination := by
  obtain ⟨r, hr, hiff⟩ := pathSearch_start walls player.destination player.cell
  unfold pathExistsForPlayer
  rw [hr]
  exact hiff

theorem pathExistsForPlayer_iff_path (player : Player) (walls : List Wall)
    (hp : OnBoard player.cell) :
    pathExistsForPlayer player walls = true ↔
      HasPathToRow walls player.cell player.destination := by
  rw [pathExistsForPlayer_iff_reach, hasPathToRow_iff_reach walls _ _ hp]

theorem pathSearch_fuel (walls : List Wall) (player : Player) (fuel : Nat)
    (hfuel : searchFuel ≤ fuel) :
    pathSearch walls player.destination fuel [player.cell] [player.cell]
      = some (pathExistsForPlayer player walls) := by
  obtain ⟨r, hr, hfalse⟩ := pathSearch_complete walls player.destination fuel
    [player.cell] [player.cell]
    (by have := unvisited_le [player.cell]
        simp only [List.length_singleton]; unfold searchFuel at hfuel; omega)
    (fun x hx => hx) (fun a ha hna => absurd ha hna) (fun a ha hna => absurd ha hna)
  rw [hr]
  congr 1
  cases r with
  | true =>
    have := pathSearch_sound walls player.destination player.cell fuel [player.cell]
      [player.cell]
      (fun x hx => by rw [List.mem_singleton.mp hx]; exact Relation.ReflTransGen.refl) hr
    exact ((pathExistsForPlayer_iff_reach player walls).mpr this).symm
  | false =>
    obtain ⟨v2, h1, h2, h3⟩ := hfalse rfl
    have hmem : ∀ x, Reach walls player.cell x → x ∈ v2 := by
      intro x hx
      induction hx with
      | refl => exact h1 _ (List.mem_singleton.mpr rfl)
      | tail _ hstep ih => exact h2 _ ih _ hstep
    cases hp : pathExistsForPlayer player walls with
    | false => rfl
    | true =>
      obtain ⟨c, hreach, hrow⟩ := (pathExistsForPlayer_iff_reach player walls).mp hp
      exact absurd hrow (h3 c (hmem c hreach))

theorem not_blocked_nil (r1 c1 r2 c2 : Int) : isMoveBlockedByWall r1 c1 r2 c2 [] = false := by
  simp [isMoveBlockedByWall]

theorem reach_down_nil (c : Int) (hc : 0 ≤ c ∧ c < 9) :
    ∀ (n : Nat) (r : Int), 0 ≤ r → r + n < 9 → Reach [] ⟨r, c⟩ ⟨r + n, c⟩ := by
  intro n
  induction n with
  | zero => intro r _ _; simp only [Nat.cast_zero, add_zero]; exact Relation.ReflTransGen.refl
  | succ n ih =>
    intro r h0 h9
    push_cast at h9
    refine Relation.ReflTransGen.tail (ih r h0 (by omega)) ⟨?_, ?_, not_blocked_nil _ _ _ _⟩
    · simp only [OnBoard, inBounds_iff]; push_cast; omega
    · right; left; exact ⟨by simp only; push_cast; ring, rfl⟩

theorem reach_up_nil (c : Int) (hc : 0 ≤ c ∧ c < 9) :
    ∀ (n : Nat) (r : Int), r < 9 → 0 ≤ r - n → Reach [] ⟨r, c⟩ ⟨r - n, c⟩ := by
  intro n
  induction n with
  | zero => intro r _ _; simp only [Nat.cast_zero, sub_zero]; exact Relation.ReflTransGen.refl
  | succ n ih =>
    intro r h9 h0
    push_cast at h0
    refine Relation.ReflTransGen.tail (ih r h9 (by omega)) ⟨?_, ?_, not_blocked_nil _ _ _ _⟩
    · simp only [OnBoard, inBounds_iff]; push_cast; omega
    · left; exact ⟨by simp only; push_cast; ring, rfl⟩

theorem reach_row_nil (r c d : Int) (hr : 0 ≤ r ∧ r < 9) (hc : 0 ≤ c ∧ c < 9)
    (hd : 0 ≤ d ∧ d < 9) : Reach [] ⟨r, c⟩ ⟨d, c⟩ := by
  by_cases h : r ≤ d
  · have := reach_down_nil c hc (d - r).toNat r hr.1 (by omega)
    rwa [show r + ((d - r).toNat : Int) = d by omega] at this
  · have := reach_up_nil c hc (r - d).toNat r hr.2 (by omega)
    rwa [show r - ((r - d).toNat : Int) = d by omega] at this

/-- Blocking does not depend on the direction in which an edge is crossed. -/
theorem blocked_symm (walls : List Wall) (a b : Cell) (h : Adjacent a b) :
    isMoveBlockedByWall b.row b.col a.row a.col walls
      = isMoveBlockedByWall a.row a.col b.row b.col walls := by
  obtain ⟨ar, ac⟩ := a
  obtain ⟨br, bc⟩ := b
  simp only [Adjacent] at h
  unfold isMoveBlockedByWall
  rcases h with ⟨h1, h2⟩ | ⟨h1, h2⟩ | ⟨h1, h2⟩ | ⟨h1, h2⟩
  · subst h1 h2
    rw [if_neg (by simp only; omega), if_neg (by simp only; omega), min_comm]
  · subst h1 h2
    rw [if_neg (by simp only; omega), if_neg (by simp only; omega), min_comm]
  · subst h1 h2
    rw [if_pos rfl, if_pos rfl, min_comm]
  · subst h1 h2
    rw [if_pos rfl, if_pos rfl, min_comm]

theorem adjacent_symm (a b : Cell) (h : Adjacent a b) : Adjacent b a := by
  unfold Adjacent at *
  omega

/-- A link can be walked backwards when its source is on the board. -/
theorem link_symm (walls : List Wall) (a b : Cell) (ha : OnBoard a) (hadj : Adjacent a b)
    (hw : isMoveBlockedByWall a.row a.col b.row b.col walls = false) : Link walls b a :=
  ⟨ha, adjacent_symm a b hadj, by rw [blocked_symm walls a b hadj]; exact hw⟩

theorem mem_setAdd (acc : List Cell) (c x : Cell) : x ∈ setAdd acc c ↔ x ∈ acc ∨ x = c := by
  unfold setAdd
  by_cases hc : c ∈ acc
  · have : acc.contains c = true := by simpa using hc
    rw [if_pos this]
    constructor
    · exact fun h => Or.inl h
    · rintro (h | rfl)
      · exact h
      · exact hc
  · have : ¬ (acc.contains c = true) := by simpa using hc
    rw [if_neg this]
    simp

theorem mem_foldl_setAdd (cs : List Cell) :
    ∀ (acc : List Cell) (x : Cell), x ∈ cs.foldl setAdd acc ↔ x ∈ acc ∨ x ∈ cs := by
  induction cs with
  | nil => intro acc x; simp
  | cons c cs ih =>
    intro acc x
    rw [List.foldl_cons, ih, mem_setAdd, List.mem_cons]
    tauto

theorem mem_foldl_directionMoves (player : Player) (gs : GameState) (ds : List (Int × Int)) :
    ∀ (acc : List Cell) (x : Cell),
      x ∈ ds.foldl (fun validMoves d => (directionMoves player gs d).foldl setAdd validMoves) acc
        ↔ x ∈ acc ∨ ∃ d ∈ ds, x ∈ directionMoves player gs d := by
  induction ds with
  | nil => intro acc x; simp
  | cons d ds ih =>
    intro acc x
    rw [List.foldl_cons, ih, mem_foldl_setAdd]
    simp only [List.mem_cons, exists_eq_or_imp]
    tauto

/-- A cell is in the result of `getValidMoves` exactly when the iteration for
one of the four directions adds it. -/
theorem mem_getValidMoves (player : Player) (gs : GameState) (x : Cell) :
    x ∈ getValidMoves player gs ↔ ∃ d ∈ directions, x ∈ directionMoves player gs d := by
  unfold getValidMoves
  rw [mem_foldl_directionMoves]
  simp

theorem offBoard_eq (r c : Int) :
    (decide (r < 0) || decide (r ≥ 9) || decide (c < 0) || decide (c ≥ 9)) = !inBounds r c := by
  unfold inBounds
  by_cases h1 : r < 0 <;> by_cases h2 : r ≥ 9 <;> by_cases h3 : c < 0 <;> by_cases h4 : c ≥ 9 <;>
    simp [h1, h2, h3, h4]
  omega

theorem find_none_iff (gs : GameState) (r c : Int) :
    gs.players.find? (fun p => decide (p.row = r) && decide (p.col = c)) = none
      ↔ ¬ Occupied gs r c := by
  simp [Occupied, List.find?_eq_none]

theorem sideCell_mem (walls : List Wall) (nr nc : Int) (hb : inBounds nr nc = true) (x : Cell) :
    (x ∈ (if (decide (nc - 1 ≥ 0) && !isMoveBlockedByWall nr nc nr (nc - 1) walls) = true
          then [(⟨nr, nc - 1⟩ : Cell)] else [])
        ++ (if (decide (nc + 1 < 9) && !isMoveBlockedByWall nr nc nr (nc + 1) walls) = true
          then [(⟨nr, nc + 1⟩ : Cell)] else []))
    ↔ ∃ e ∈ [((0 : Int), (-1 : Int)), (0, 1)], x = ⟨nr + e.1, nc + e.2⟩ ∧
        inBounds x.row x.col = true ∧ isMoveBlockedByWall nr nc x.row x.col walls = false := by
  rw [inBounds_iff] at hb
  have e1 : inBounds nr (nc - 1) = true ↔ nc - 1 ≥ 0 := by rw [inBounds_iff]; omega
  have e2 : inBounds nr (nc + 1) = true ↔ nc + 1 < 9 := by rw [inBounds_iff]; omega
  simp only [List.mem_cons, List.mem_singleton, List.not_mem_nil, or_false, exists_eq_or_imp,
    exists_eq_left, add_zero, List.mem_append, Bool.and_eq_true, decide_eq_true_eq,
    Bool.not_eq_true', ← e1, ← e2, Int.add_neg_one]
  constructor
  · rintro (h | h)
    · split at h
      · rename_i hc; rw [List.mem_singleton] at h; subst h; exact Or.inl ⟨rfl, hc.1, hc.2⟩
      · simp at h
    · split at h
      · rename_i hc; rw [List.mem_singleton] at h; subst h; exact Or.inr ⟨rfl, hc.1, hc.2⟩
      · simp at h
  · rintro (⟨rfl, h1, h2⟩ | ⟨rfl, h1, h2⟩)
    · left; rw [if_pos ⟨h1, h2⟩]; simp
    · right; rw [if_pos ⟨h1, h2⟩]; simp

theorem sideCell_mem_rows (walls : List Wall) (nr nc : Int) (hb : inBounds nr nc = true)
    (x : Cell) :
    (x ∈ (if (decide (nr - 1 ≥ 0) && !isMoveBlockedByWall nr nc (nr - 1) nc walls) = true
          then [(⟨nr - 1, nc⟩ : Cell)] else [])
        ++ (if (decide (nr + 1 < 9) && !isMoveBlockedByWall nr nc (nr + 1) nc walls) = true
          then [(⟨nr + 1, nc⟩ : Cell)] else []))
    ↔ ∃ e ∈ [((-1 : Int), (0 : Int)), (1, 0)], x = ⟨nr + e.1, nc + e.2⟩ ∧
        inBounds x.row x.col = true ∧ isMoveBlockedByWall nr nc x.row x.col walls = false := by
  rw [inBounds_iff] at hb
  have e1 : inBounds (nr - 1) nc = true ↔ nr - 1 ≥ 0 := by rw [inBounds_iff]; omega
  have e2 : inBounds (nr + 1) nc = true ↔ nr + 1 < 9 := by rw [inBounds_iff]; omega
  simp only [List.mem_cons, List.mem_singleton, List.not_mem_nil, or_false, exists_eq_or_imp,
    exists_eq_left, add_zero, List.mem_append, Bool.and_eq_true, decide_eq_true_eq,
    Bool.not_eq_true', ← e1, ← e2, Int.add_neg_one]
  constructor
  · rintro (h | h)
    · split at h
      · rename_i hc; rw [List.mem_singleton] at h; subst h; exact Or.inl ⟨rfl, hc.1, hc.2⟩
      · simp at h
    · split at h
      · rename_i hc; rw [List.mem_singleton] at h; subst h; exact Or.inr ⟨rfl, hc.1, hc.2⟩
      · simp at h
  · rintro (⟨rfl, h1, h2⟩ | ⟨rfl, h1, h2⟩)
    · left; rw [if_pos ⟨h1, h2⟩]; simp
    · right; rw [if_pos ⟨h1, h2⟩]; simp

/-- The cells the iteration of `getValidMoves` for the direction `d` adds: none
when the neighbour is off the board or behind a wall; the neighbour when no
player stands on it; otherwise the cell two steps away when the jump is open,
and when it is not, the side cells next to the neighbour that are on the
board and not walled off from it. -/
theorem mem_directionMoves (player : Player) (gs : GameState) (d : Int × Int) (x : Cell) :
    x ∈ directionMoves player gs d ↔
      inBounds (player.row + d.1) (player.col + d.2) = true ∧
      isMoveBlockedByWall player.row player.col (player.row + d.1) (player.col + d.2)
        gs.walls = false ∧
      ((¬ Occupied gs (player.row + d.1) (player.col + d.2) ∧
          x = ⟨player.row + d.1, player.col + d.2⟩) ∨
       (Occupied gs (player.row + d.1) (player.col + d.2) ∧ JumpOpen player gs d ∧
          x = ⟨player.row + d.1 + d.1, player.col + d.2 + d.2⟩) ∨
       (Occupied gs (player.row + d.1) (player.col + d.2) ∧ ¬ JumpOpen player gs d ∧
          ∃ e ∈ sideSteps d, x = ⟨player.row + d.1 + e.1, player.col + d.2 + e.2⟩ ∧
            inBounds x.row x.col = true ∧
            isMoveBlockedByWall (player.row + d.1) (player.col + d.2) x.row x.col
              gs.walls = false)) := by
  unfold directionMoves
  simp only [offBoard_eq]
  by_cases hb : inBounds (player.row + d.1) (player.col + d.2) = true
  swap
  · simp [hb]
  by_cases hw : isMoveBlockedByWall player.row player.col (player.row + d.1) (player.col + d.2)
      gs.walls = true
  · simp [hb, hw]
  simp only [Bool.not_eq_true] at hw
  simp only [hb, Bool.not_true, Bool.false_eq_true, if_false, hw, true_and]
  cases hfind : gs.players.find?
      (fun p => decide (p.row = player.row + d.1) && decide (p.col = player.col + d.2)) with
  | none =>
    have hocc := (find_none_iff gs _ _).mp hfind
    simp [hocc]
  | some o =>
    have hocc : Occupied gs (player.row + d.1) (player.col + d.2) := by
      by_contra h
      rw [(find_none_iff gs _ _).mpr h] at hfind
      exact Option.noConfusion hfind
    simp only [hocc, not_true_eq_false, false_and, true_and, false_or]
    by_cases hj : JumpOpen player gs d
    · have : (!(!inBounds (player.row + d.1 + d.1) (player.col + d.2 + d.2) ||
          isMoveBlockedByWall (player.row + d.1) (player.col + d.2) (player.row + d.1 + d.1)
            (player.col + d.2 + d.2) gs.walls)) = true := by
        simp [hj.1, hj.2]
      rw [if_pos this]
      simp [hj]
    · have : ¬ ((!(!inBounds (player.row + d.1 + d.1) (player.col + d.2 + d.2) ||
          isMoveBlockedByWall (player.row + d.1) (player.col + d.2) (player.row + d.1 + d.1)
            (player.col + d.2 + d.2) gs.walls)) = true) := by
        intro h
        apply hj
        simpa [JumpOpen] using h
      rw [if_neg this]
      simp only [hj, not_false_eq_true, true_and, false_and, false_or]
      unfold sideSteps
      by_cases hdc : d.2 = 0
      · rw [if_pos hdc, if_pos hdc]
        exact sideCell_mem gs.walls _ _ hb x
      · rw [if_neg hdc, if_neg hdc]
        exact sideCell_mem_rows gs.walls _ _ hb x

theorem mem_moves_of_sideSteps (d e : Int × Int) (he : e ∈ sideSteps d) : e ∈ moves := by
  unfold sideSteps at he
  split at he <;> simp at he <;> rcases he with rfl | rfl <;> simp [moves]

/-- Two links walked backwards. -/
theorem reach_back (walls : List Wall) (cur n x : Cell) (hcur : OnBoard cur) (hn : OnBoard n)
    (h1 : Adjacent cur n) (hw1 : isMoveBlockedByWall cur.row cur.col n.row n.col walls = false)
    (h2 : Adjacent n x) (hw2 : isMoveBlockedByWall n.row n.col x.row x.col walls = false) :
    Reach walls x cur :=
  Relation.ReflTransGen.tail
    (Relation.ReflTransGen.single (link_symm walls n x hn h2 hw2))
    (link_symm walls cur n hcur h1 hw1)

/-- Every cell the iteration for a direction adds is on the board and joined
to the player's cell by links. -/
theorem directionMoves_reach (player : Player) (gs : GameState) (d : Int × Int)
    (hd : d ∈ directions) (hp : OnBoard player.cell) (x : Cell)
    (hx : x ∈ directionMoves player gs d) :
    OnBoard x ∧ Reach gs.walls x player.cell := by
  rw [mem_directionMoves] at hx
  obtain ⟨hb, hw, hx⟩ := hx
  have hadj : Adjacent player.cell ⟨player.row + d.1, player.col + d.2⟩ :=
    adjacent_of_mem_moves player.cell d hd
  rcases hx with ⟨_, rfl⟩ | ⟨_, hj, rfl⟩ | ⟨_, _, e, he, rfl, hxb, hxw⟩
  · exact ⟨hb, Relation.ReflTransGen.single (link_symm gs.walls player.cell _ hp hadj hw)⟩
  · exact ⟨hj.1, reach_back gs.walls player.cell ⟨player.row + d.1, player.col + d.2⟩ _ hp hb
      hadj hw (adjacent_of_mem_moves ⟨player.row + d.1, player.col + d.2⟩ d hd) hj.2⟩
  · exact ⟨hxb, reach_back gs.walls player.cell ⟨player.row + d.1, player.col + d.2⟩ _ hp hb
      hadj hw (adjacent_of_mem_moves ⟨player.row + d.1, player.col + d.2⟩ e
        (mem_moves_of_sideSteps d e he)) hxw⟩

theorem mem_zipWith_seat (f : Participant → Cell × Int → Player) :
    ∀ (ps : List Participant) (seats : List (Cell × Int)) (x : Player),
      x ∈ List.zipWith f ps seats → ∃ p seat, seat ∈ seats ∧ x = f p seat := by
  intro ps
  induction ps with
  | nil => intro seats x hx; simp at hx
  | cons p ps ih =>
    intro seats x hx
    cases seats with
    | nil => simp at hx
    | cons seat seats =>
      simp only [List.zipWith_cons_cons, List.mem_cons] at hx
      rcases hx with rfl | hx
      · exact ⟨p, seat, List.mem_cons_self _ _, rfl⟩
      · obtain ⟨p2, seat2, h1, h2⟩ := ih seats x hx
        exact ⟨p2, seat2, List.mem_cons_of_mem _ h1, h2⟩

theorem pathInv_newGameState (participants : List Participant) (turnIndex : Nat) :
    PathInv (newGameState participants turnIndex) := by
  intro p hp
  obtain ⟨q, seat, hseat, rfl⟩ := mem_zipWith_seat _ _ _ p hp
  simp only [playerPositions, destinationRows, List.zip_cons_cons, List.zip_nil_right,
    List.mem_cons, List.mem_singleton, List.not_mem_nil, or_false] at hseat
  rcases hseat with rfl | rfl | rfl | rfl
  · exact ⟨by simp [OnBoard, Player.cell, inBounds], _, reach_row_nil 0 4 8 (by omega) (by omega) (by omega), rfl⟩
  · exact ⟨by simp [OnBoard, Player.cell, inBounds], _, reach_row_nil 8 4 0 (by omega) (by omega) (by omega), rfl⟩
  · exact ⟨by simp [OnBoard, Player.cell, inBounds], _, reach_row_nil 4 0 8 (by omega) (by omega) (by omega), rfl⟩
  · exact ⟨by simp [OnBoard, Player.cell, inBounds], _, reach_row_nil 4 8 0 (by omega) (by omega) (by omega), rfl⟩

theorem isValidWallPlacement_paths (w : Wall) (gs : GameState)
    (h : isValidWallPlacement w gs = true) :
    ∀ p ∈ gs.players, pathExistsForPlayer p (gs.walls ++ [w]) = true := by
  unfold isValidWallPlacement at h
  split at h
  · simp at h
  · split at h
    · simp at h
    · exact List.all_eq_true.mp h

/-- The `game-action` handler keeps the path invariant. -/
theorem pathInv_gameAction (socketId : Nat) (action : Action) (gs gs2 : GameState)
    (out : List Emit) (hinv : PathInv gs) (h : gameAction socketId action gs = some (gs2, out)) :
    PathInv gs2 := by
  unfold gameAction at h
  cases hpl : gs.players[gs.turnIndex]? with
  | none => rw [hpl] at h; simp at h
  | some player =>
    rw [hpl] at h
    simp only at h
    have hmem : player ∈ gs.players := List.getElem?_mem hpl
    split at h
    · simp only [Option.some.injEq, Prod.mk.injEq] at h
      rw [← h.1]; exact hinv
    · cases action with
      | other =>
        simp only [nextTurn, Option.some.injEq, Prod.mk.injEq] at h
        rw [← h.1]; exact hinv
      | move row col =>
        simp only at h
        split at h
        · simp only [Option.some.injEq, Prod.mk.injEq] at h
          rw [← h.1]; exact hinv
        · rename_i hvalid
          simp only [Bool.not_eq_true, Bool.not_eq_false', List.any_eq_true, Bool.and_eq_true,
            decide_eq_true_eq] at hvalid
          obtain ⟨m, hm, hrow, hcol⟩ := hvalid
          obtain ⟨d, hd, hmd⟩ := (mem_getValidMoves player gs m).mp hm
          obtain ⟨hmb, hmr⟩ := directionMoves_reach player gs d hd (hinv player hmem).1 m hmd
          have hm2 : m = ⟨row, col⟩ := by cases m; simp_all
          subst hm2
          have key : PathInv { gs with
              players := gs.players.set gs.turnIndex { player with row := row, col := col } } := by
            intro p hp
            rcases List.mem_or_eq_of_mem_set hp with hp | rfl
            · exact hinv p hp
            · obtain ⟨c, hc, hcd⟩ := (hinv player hmem).2
              exact ⟨hmb, c, Relation.ReflTransGen.trans hmr hc, hcd⟩
          split at h
          · simp only [Option.some.injEq, Prod.mk.injEq] at h
            rw [← h.1]; exact key
          · simp only [nextTurn, Option.some.injEq, Prod.mk.injEq] at h
            rw [← h.1]; exact key
      | placeWall wall =>
        simp only at h
        split at h
        · simp only [Option.some.injEq, Prod.mk.injEq] at h
          rw [← h.1]; exact hinv
        · split at h
          · rename_i hvalid
            simp only [nextTurn, Option.some.injEq, Prod.mk.injEq] at h
            rw [← h.1]
            have hall := isValidWallPlacement_paths wall gs hvalid
            intro p hp
            rcases List.mem_or_eq_of_mem_set hp with hp | rfl
            · exact ⟨(hinv p hp).1, (pathExistsForPlayer_iff_reach p _).mp (hall p hp)⟩
            · exact ⟨(hinv player hmem).1,
                (pathExistsForPlayer_iff_reach player _).mp (hall player hmem)⟩
          · simp only [Option.some.injEq, Prod.mk.injEq] at h
            rw [← h.1]; exact hinv

theorem pathInv_reachable (gs : GameState) (h : Reachable gs) : PathInv gs := by
  induction h with
  | start participants turnIndex _ _ _ _ => exact pathInv_newGameState participants turnIndex
  | step gs gs2 socketId action out _ hstep ih =>
    exact pathInv_gameAction socketId action gs gs2 out ih hstep

theorem reachable_runActions (events : List (Nat × Action)) :
    ∀ (gs gs2 : GameState), Reachable gs → runActions events gs = some gs2 → Reachable gs2 := by
  induction events with
  | nil =>
    intro gs gs2 hr h
    simp only [runActions, Option.some.injEq] at h
    exact h ▸ hr
  | cons ev events ih =>
    intro gs gs2 hr h
    obtain ⟨socketId, action⟩ := ev
    simp only [runActions] at h
    cases hstep : gameAction socketId action gs with
    | none => rw [hstep] at h; simp at h
    | some res =>
      obtain ⟨gs1, out⟩ := res
      rw [hstep] at h
      exact ih gs1 gs2 (Reachable.step gs gs1 socketId action out hr hstep) h

theorem wallCollides_iff (w v : Wall) :
    wallCollides w v = true ↔
      (v.row = w.row ∧ v.col = w.col) ∨
      (v.orientation = w.orientation ∧
        ((w.orientation = Orientation.horizontal ∧ v.row = w.row ∧ |v.col - w.col| < 2) ∨
         (w.orientation = Orientation.vertical ∧ v.col = w.col ∧ |v.row - w.row| < 2))) := by
  unfold wallCollides
  have e1 : (v.col - w.col).natAbs < 2 ↔ |v.col - w.col| < 2 := by
    rw [Int.abs_eq_natAbs]; omega
  have e2 : (v.row - w.row).natAbs < 2 ↔ |v.row - w.row| < 2 := by
    rw [Int.abs_eq_natAbs]; omega
  simp only [Bool.or_eq_true, Bool.and_eq_true, decide_eq_true_eq, e1, e2]
  by_cases ho : v.orientation = w.orientation <;> by_cases hA : v.row = w.row <;>
    by_cases hB : v.col = w.col <;> simp [ho, hA, hB]

/-- The bounds test of `isValidWallPlacement`. -/
theorem isValidWallPlacement_eq (w : Wall) (gs : GameState) :
    isValidWallPlacement w gs = true ↔
      (0 ≤ w.row ∧ w.row ≤ 7 ∧ 0 ≤ w.col ∧ w.col ≤ 7) ∧
      (∀ v ∈ gs.walls, wallCollides w v = false) ∧
      (∀ p ∈ gs.players, pathExistsForPlayer p (gs.walls ++ [w]) = true) := by
  unfold isValidWallPlacement
  by_cases hb : w.row < 0 ∨ w.row > 7 ∨ w.col < 0 ∨ w.col > 7
  · rw [if_pos hb]
    constructor
    · intro h; exact absurd h (by simp)
    · rintro ⟨h, _⟩; omega
  · rw [if_neg hb]
    by_cases hc : gs.walls.any (wallCollides w) = true
    · rw [if_pos hc]
      constructor
      · intro h; exact absurd h (by simp)
      · rintro ⟨_, h, _⟩
        obtain ⟨v, hv, hcv⟩ := List.any_eq_true.mp hc
        rw [h v hv] at hcv
        exact absurd hcv (by simp)
    · rw [if_neg hc, List.all_eq_true]
      constructor
      · intro h
        refine ⟨by omega, ?_, h⟩
        intro v hv
        by_contra hcv
        exact hc (List.any_eq_true.mpr ⟨v, hv, by simpa using hcv⟩)
      · rintro ⟨_, _, h⟩; exact h

/-- The answer of `pathExistsForPlayer` only depends on the player's cell and
destination row. -/
theorem pathExistsForPlayer_congr (p q : Player) (walls : List Wall) (h1 : p.cell = q.cell)
    (h2 : p.destination = q.destination) :
    pathExistsForPlayer p walls = pathExistsForPlayer q walls := by
  unfold pathExistsForPlayer
  rw [h1, h2]

theorem atSeat_newGameState (participants : List Participant) (turnIndex : Nat) :
    ∀ p ∈ (newGameState participants turnIndex).players,
      AtSeat p ∧ p.wallsLeft = if participants.length < 4 then 10 else 5 := by
  intro p hp
  obtain ⟨q, seat, hseat, rfl⟩ := mem_zipWith_seat _ _ _ p hp
  exact ⟨hseat, rfl⟩

theorem atSeat_paths (p : Player) (h : AtSeat p) :
    pathExistsForPlayer p [⟨3, 3, Orientation.horizontal⟩] = true ∧
    pathExistsForPlayer p [⟨3, 3, Orientation.horizontal⟩, ⟨3, 5, Orientation.horizontal⟩]
      = true := by
  simp only [AtSeat, playerPositions, destinationRows, List.zip_cons_cons, List.zip_nil_right,
    List.mem_cons, List.mem_singleton, List.not_mem_nil, or_false, Prod.mk.injEq] at h
  rcases h with ⟨h1, h2⟩ | ⟨h1, h2⟩ | ⟨h1, h2⟩ | ⟨h1, h2⟩
  · rw [pathExistsForPlayer_congr p ⟨0, "", 0, 4, 0, 8⟩ _ h1 h2,
      pathExistsForPlayer_congr p ⟨0, "", 0, 4, 0, 8⟩ _ h1 h2]
    decide
  · rw [pathExistsForPlayer_congr p ⟨0, "", 8, 4, 0, 0⟩ _ h1 h2,
      pathExistsForPlayer_congr p ⟨0, "", 8, 4, 0, 0⟩ _ h1 h2]
    decide
  · rw [pathExistsForPlayer_congr p ⟨0, "", 4, 0, 0, 8⟩ _ h1 h2,
      pathExistsForPlayer_congr p ⟨0, "", 4, 0, 0, 8⟩ _ h1 h2]
    decide
  · rw [pathExistsForPlayer_congr p ⟨0, "", 4, 8, 0, 0⟩ _ h1 h2,
      pathExistsForPlayer_congr p ⟨0, "", 4, 8, 0, 0⟩ _ h1 h2]
    decide

theorem mem_directions_iff (d : Int × Int) :
    d ∈ directions ↔ (d.1 = -1 ∧ d.2 = 0) ∨ (d.1 = 1 ∧ d.2 = 0) ∨ (d.1 = 0 ∧ d.2 = -1) ∨
      (d.1 = 0 ∧ d.2 = 1) := by
  obtain ⟨a, b⟩ := d
  simp [directions]

theorem mem_sideSteps_iff (d e : Int × Int) :
    e ∈ sideSteps d ↔ (d.2 = 0 ∧ e.1 = 0 ∧ (e.2 = -1 ∨ e.2 = 1)) ∨
      (d.2 ≠ 0 ∧ e.2 = 0 ∧ (e.1 = -1 ∨ e.1 = 1)) := by
  obtain ⟨a, b⟩ := e
  unfold sideSteps
  by_cases h : d.2 = 0
  · simp [h]; tauto
  · simp [h]; tauto

/-- The neighbour cell in direction `d`, when a player stands on it, is not a
valid move: no direction adds it. -/
theorem neighbour_not_mem_getValidMoves (player : Player) (gs : GameState) (d : Int × Int)
    (hd : d ∈ directions) (hocc : Occupied gs (player.row + d.1) (player.col + d.2)) :
    (⟨player.row + d.1, player.col + d.2⟩ : Cell) ∉ getValidMoves player gs := by
  intro hmem
  obtain ⟨d2, hd2, hx⟩ := (mem_getValidMoves player gs _).mp hmem
  rw [mem_directionMoves] at hx
  rw [mem_directions_iff] at hd hd2
  obtain ⟨_, _, hx⟩ := hx
  rcases hx with ⟨hno, heq⟩ | ⟨_, _, heq⟩ | ⟨_, _, e, he, heq, _⟩
  · simp only [Cell.mk.injEq] at heq
    rw [heq.1, heq.2] at hocc
    exact hno hocc
  · simp only [Cell.mk.injEq] at heq
    omega
  · simp only [Cell.mk.injEq] at heq
    rw [mem_sideSteps_iff] at he
    omega

/-- The cell two steps away in direction `d` is not a valid move when the
straight jump in that direction is not open. -/
theorem jump_not_mem_getValidMoves (player : Player) (gs : GameState) (d : Int × Int)
    (hj : ¬ JumpOpen player gs d) :
    (⟨player.row + d.1 + d.1, player.col + d.2 + d.2⟩ : Cell) ∉ getValidMoves player gs := by
  intro hmem
  obtain ⟨d2, hd2, hx⟩ := (mem_getValidMoves player gs _).mp hmem
  rw [mem_directionMoves] at hx
  rw [mem_directions_iff] at hd2
  obtain ⟨_, _, hx⟩ := hx
  rcases hx with ⟨_, heq⟩ | ⟨_, hj2, heq⟩ | ⟨_, _, e, he, heq, _⟩
  · simp only [Cell.mk.injEq] at heq
    omega
  · simp only [Cell.mk.injEq] at heq
    have : d2 = d := Prod.ext (by omega) (by omega)
    rw [this] at hj2
    exact hj hj2
  · simp only [Cell.mk.injEq] at heq
    rw [mem_sideSteps_iff] at he
    omega

/-- When the straight jump is open, the iteration for the direction adds the
cell two steps away and nothing else. -/
theorem directionMoves_jump (player : Player) (gs : GameState) (d : Int × Int)
    (hb : inBounds (player.row + d.1) (player.col + d.2) = true)
    (hw : isMoveBlockedByWall player.row player.col (player.row + d.1) (player.col + d.2)
      gs.walls = false)
    (hocc : Occupied gs (player.row + d.1) (player.col + d.2)) (hj : JumpOpen player gs d) :
    directionMoves player gs d = [⟨player.row + d.1 + d.1, player.col + d.2 + d.2⟩] := by
  unfold directionMoves
  simp only [offBoard_eq, hb, Bool.not_true, Bool.false_eq_true, if_false, hw]
  cases hfind : gs.players.find?
      (fun p => decide (p.row = player.row + d.1) && decide (p.col = player.col + d.2)) with
  | none => exact absurd hocc ((find_none_iff gs _ _).mp hfind)
  | some o =>
    have : (!(!inBounds (player.row + d.1 + d.1) (player.col + d.2 + d.2) ||
        isMoveBlockedByWall (player.row + d.1) (player.col + d.2) (player.row + d.1 + d.1)
          (player.col + d.2 + d.2) gs.walls)) = true := by
      simp [hj.1, hj.2]
    simp only [this, if_true]

theorem any_validMoves_iff (moves : List Cell) (row col : Int) :
    (moves.any fun m => decide (m.row = row) && decide (m.col = col)) = true
      ↔ (⟨row, col⟩ : Cell) ∈ moves := by
  rw [List.any_eq_true]
  constructor
  · rintro ⟨m, hm, h⟩
    simp only [Bool.and_eq_true, decide_eq_true_eq] at h
    obtain ⟨r, c⟩ := m
    simp only at h
    rw [← h.1, ← h.2]; exact hm
  · intro h
    exact ⟨_, h, by simp⟩

theorem runActions_others (gs : GameState) (player : Player)
    (hturn : gs.players[gs.turnIndex]? = some player) :
    ∀ events : List (Nat × Action), (∀ ev ∈ events, ev.1 ≠ player.id) →
      runActions events gs = some gs := by
  intro events
  induction events with
  | nil => intro _; rfl
  | cons ev events ih =>
    intro h
    obtain ⟨socketId, action⟩ := ev
    have hid : player.id ≠ socketId := fun e => h (socketId, action) (List.mem_cons_self _ _) e.symm
    have hstep : gameAction socketId action gs
        = some (gs, [Emit.errorMessage socketId "당신의 턴이 아닙니다."]) := by
      unfold gameAction
      rw [hturn]
      simp only [hid, ne_eq, not_false_eq_true, if_true]
    simp only [runActions, hstep]
    exact ih fun ev hev => h ev (List.mem_cons_of_mem _ hev)

theorem wallsLeft_gameAction (socketId : Nat) (action : Action) (gs gs2 : GameState)
    (out : List Emit) (hinv : ∀ p ∈ gs.players, 0 ≤ p.wallsLeft)
    (h : gameAction socketId action gs = some (gs2, out)) :
    ∀ p ∈ gs2.players, 0 ≤ p.wallsLeft := by
  unfold gameAction at h
  cases hpl : gs.players[gs.turnIndex]? with
  | none => rw [hpl] at h; simp at h
  | some player =>
    rw [hpl] at h
    simp only at h
    have hmem : player ∈ gs.players := List.getElem?_mem hpl
    split at h
    · simp only [Option.some.injEq, Prod.mk.injEq] at h
      rw [← h.1]; exact hinv
    · cases action with
      | other =>
        simp only [nextTurn, Option.some.injEq, Prod.mk.injEq] at h
        rw [← h.1]; exact hinv
      | move row col =>
        simp only at h
        have key : ∀ p ∈ gs.players.set gs.turnIndex { player with row := row, col := col },
            0 ≤ p.wallsLeft := by
          intro p hp
          rcases List.mem_or_eq_of_mem_set hp with hp | rfl
          · exact hinv p hp
          · exact hinv player hmem
        split at h
        · simp only [Option.some.injEq, Prod.mk.injEq] at h
          rw [← h.1]; exact hinv
        · split at h
          · simp only [Option.some.injEq, Prod.mk.injEq] at h
            rw [← h.1]; exact key
          · simp only [nextTurn, Option.some.injEq, Prod.mk.injEq] at h
            rw [← h.1]; exact key
      | placeWall wall =>
        simp only at h
        split at h
        · simp only [Option.some.injEq, Prod.mk.injEq] at h
          rw [← h.1]; exact hinv
        · rename_i hpos
          split at h
          · simp only [nextTurn, Option.some.injEq, Prod.mk.injEq] at h
            rw [← h.1]
            intro p hp
            rcases List.mem_or_eq_of_mem_set hp with hp | rfl
            · exact hinv p hp
            · simp only; omega
          · simp only [Option.some.injEq, Prod.mk.injEq] at h
            rw [← h.1]; exact hinv

theorem wallsLeft_reachable (gs : GameState) (h : Reachable gs) :
    ∀ p ∈ gs.players, 0 ≤ p.wallsLeft := by
  induction h with
  | start participants turnIndex _ _ _ _ =>
    intro p hp
    rw [(atSeat_newGameState participants turnIndex p hp).2]
    split <;> omega
  | step gs gs2 socketId action out _ hstep ih =>
    exact wallsLeft_gameAction socketId action gs gs2 out ih hstep

theorem newGameState_length (participants : List Participant) (turnIndex : Nat)
    (h : participants.length ≤ 4) :
    (newGameState participants turnIndex).players.length = participants.length := by
  simp only [newGameState, playerPositions, destinationRows, List.length_zipWith,
    List.length_zip, List.length_cons, List.length_nil]
  omega

/-- The handler never changes the number of players and keeps `turnIndex` a
valid index. -/
theorem gameAction_turnIndex (socketId : Nat) (action : Action) (gs gs2 : GameState)
    (out : List Emit) (h : gameAction socketId action gs = some (gs2, out)) :
    gs2.players.length = gs.players.length ∧ gs2.turnIndex < gs2.players.length := by
  unfold gameAction at h
  cases hpl : gs.players[gs.turnIndex]? with
  | none => rw [hpl] at h; simp at h
  | some player =>
    rw [hpl] at h
    simp only at h
    have hlt : gs.turnIndex < gs.players.length := (List.getElem?_eq_some.mp hpl).1
    have hmod : (gs.turnIndex + 1) % gs.players.length < gs.players.length :=
      Nat.mod_lt _ (by omega)
    split at h
    · simp only [Option.some.injEq, Prod.mk.injEq] at h
      rw [← h.1]; exact ⟨rfl, hlt⟩
    · cases action with
      | other =>
        simp only [nextTurn, Option.some.injEq, Prod.mk.injEq] at h
        rw [← h.1]; exact ⟨rfl, hmod⟩
      | move row col =>
        simp only at h
        split at h
        · simp only [Option.some.injEq, Prod.mk.injEq] at h
          rw [← h.1]; exact ⟨rfl, hlt⟩
        · split at h
          · simp only [Option.some.injEq, Prod.mk.injEq] at h
            rw [← h.1]
            simp only [List.length_set]
            exact ⟨trivial, hlt⟩
          · simp only [nextTurn, Option.some.injEq, Prod.mk.injEq] at h
            rw [← h.1]
            simp only [List.length_set]
            exact ⟨trivial, hmod⟩
      | placeWall wall =>
        simp only at h
        split at h
        · simp only [Option.some.injEq, Prod.mk.injEq] at h
          rw [← h.1]; exact ⟨rfl, hlt⟩
        · split at h
          · simp only [nextTurn, Option.some.injEq, Prod.mk.injEq] at h
            rw [← h.1]
            simp only [List.length_set]
            exact ⟨trivial, hmod⟩
          · simp only [Option.some.injEq, Prod.mk.injEq] at h
            rw [← h.1]; exact ⟨rfl, hlt⟩

/-- In a reachable game state `turnIndex` designates a player. -/
theorem turnIndex_lt_of_reachable (gs : GameState) (h : Reachable gs) :
    gs.turnIndex < gs.players.length := by
  induction h with
  | start participants turnIndex _ h4 _ ht =>
    rw [newGameState_length participants turnIndex h4]
    exact ht
  | step gs gs2 socketId action out _ hstep _ =>
    exact (gameAction_turnIndex socketId action gs gs2 out hstep).2

/-- In a reachable game state the handler always returns: `players[turnIndex]`
is never `undefined`. -/
theorem gameAction_isSome_of_reachable (gs : GameState) (h : Reachable gs) (socketId : Nat)
    (action : Action) : ∃ gs2 out, gameAction socketId action gs = some (gs2, out) := by
  have hlt := turnIndex_lt_of_reachable gs h
  have hpl : gs.players[gs.turnIndex]? = some gs.players[gs.turnIndex] :=
    List.getElem?_eq_getElem hlt
  unfold gameAction
  rw [hpl]
  simp only
  split
  · exact ⟨_, _, rfl⟩
  · cases action with
    | other => exact ⟨_, _, rfl⟩
    | move row col =>
      simp only
      split
      · exact ⟨_, _, rfl⟩
      · split
        · exact ⟨_, _, rfl⟩
        · exact ⟨_, _, rfl⟩
    | placeWall wall =>
      simp only
      split
      · exact ⟨_, _, rfl⟩
      · split
        · exact ⟨_, _, rfl⟩
        · exact ⟨_, _, rfl⟩

/-! ### Lemmas on the room directory -/

theorem roundHalfEven_le (t : ℚ) (M : ℤ) (h : t < (M : ℚ) + 1 / 2) : roundHalfEven t ≤ M := by
  have hf : (⌊t⌋ : ℚ) ≤ t := Int.floor_le t
  have hfM : ⌊t⌋ ≤ M := by
    have : (⌊t⌋ : ℚ) < (M : ℚ) + 1 := by linarith
    have : (⌊t⌋ : ℚ) < ((M + 1 : ℤ) : ℚ) := by push_cast; linarith
    have := Int.cast_lt.mp this
    omega
  unfold roundHalfEven
  by_cases h1 : t - ⌊t⌋ < 1 / 2
  · rw [if_pos h1]; exact hfM
  · have hne : ⌊t⌋ ≠ M := by
      intro heq
      rw [heq] at h1
      exact h1 (by linarith)
    have hlt : ⌊t⌋ + 1 ≤ M := by omega
    rw [if_neg h1]
    split
    · exact hlt
    · split
      · exact hfM
      · exact hlt

theorem roundHalfEven_nonneg (t : ℚ) (h : 0 ≤ t) : 0 ≤ roundHalfEven t := by
  have hf : 0 ≤ ⌊t⌋ := Int.floor_nonneg.mpr h
  unfold roundHalfEven
  split
  · exact hf
  · split
    · omega
    · split
      · exact hf
      · omega

/-- A double below 1 is at most `1 - 2 ^ (-53)`. -/
theorem isDouble_lt_one (x : ℚ) (hx : IsDouble x) (h1 : x < 1) :
    x ≤ 1 - 1 / 2 ^ 53 := by
  obtain ⟨m, e, hm, _, _, rfl⟩ := hx
  have hm' : (m : ℚ) ≤ 2 ^ 53 - 1 := by
    norm_num
    omega
  by_cases he : e ≤ -53
  · have hpow : (2 : ℚ) ^ e ≤ 2 ^ (-53 : ℤ) := zpow_le_zpow_right₀ (by norm_num) he
    have hpos : (0 : ℚ) < 2 ^ e := by positivity
    calc (m : ℚ) * 2 ^ e ≤ (2 ^ 53 - 1) * 2 ^ e := by
          apply mul_le_mul_of_nonneg_right hm' hpos.le
      _ ≤ (2 ^ 53 - 1) * 2 ^ (-53 : ℤ) := by
          apply mul_le_mul_of_nonneg_left hpow (by norm_num)
      _ = 1 - 1 / 2 ^ 53 := by norm_num
  · obtain ⟨j, hj⟩ : ∃ j : ℕ, e = (j : ℤ) - 53 := ⟨(e + 53).toNat, by omega⟩
    subst hj
    have hz : (2 : ℚ) ^ ((j : ℤ) - 53) = 2 ^ j / 2 ^ 53 := by
      rw [zpow_sub₀ (by norm_num), zpow_natCast]; norm_num
    rw [hz] at h1 ⊢
    have hlt : ((m * 2 ^ j : ℕ) : ℚ) < ((2 ^ 53 : ℕ) : ℚ) := by
      push_cast
      have h53 : (0 : ℚ) < 2 ^ 53 := by positivity
      have := (div_lt_one h53).mp (by rwa [← mul_div_assoc] at h1)
      exact this
    have hnat : m * 2 ^ j < 2 ^ 53 := by exact_mod_cast hlt
    have hle : m * 2 ^ j ≤ 9007199254740991 := by omega
    have hleq : ((m * 2 ^ j : ℕ) : ℚ) ≤ 9007199254740991 := by exact_mod_cast hle
    have hleq2 : (m : ℚ) * 2 ^ j ≤ 2 ^ 53 - 1 := by
      push_cast at hleq
      norm_num
      exact hleq
    rw [← mul_div_assoc, div_le_iff₀ (by positivity)]
    calc (m : ℚ) * 2 ^ j ≤ 2 ^ 53 - 1 := hleq2
      _ = (1 - 1 / 2 ^ 53) * 2 ^ 53 := by norm_num

/-- The rounded product of a double below 1 and `n`, for `n` from 2 to 4, is
not negative and still below `n`. -/
theorem roundDouble_mul_lt (draw : ℚ) (n : ℕ) (hd1 : draw ≤ 1 - 1 / 2 ^ 53)
    (h2 : 2 ≤ n) (h4 : n ≤ 4) :
    0 ≤ roundDouble (draw * (n : ℚ)) ∧ roundDouble (draw * (n : ℚ)) < (n : ℚ) := by
  have hn2 : (2 : ℚ) ≤ (n : ℚ) := by exact_mod_cast h2
  have hn4 : (n : ℚ) ≤ 4 := by exact_mod_cast h4
  unfold roundDouble
  by_cases hx : draw * (n : ℚ) ≤ 0
  · rw [if_pos hx]
    exact ⟨le_refl _, by linarith⟩
  rw [if_neg hx]
  have hxpos : 0 < draw * (n : ℚ) := lt_of_not_ge hx
  -- the gap between the exact product and `n`
  have hgap : (n : ℚ) / 2 ^ 53 ≤ (n : ℚ) - draw * (n : ℚ) := by
    have : draw * (n : ℚ) ≤ (1 - 1 / 2 ^ 53) * (n : ℚ) :=
      mul_le_mul_of_nonneg_right hd1 (by linarith)
    have e : (1 - 1 / 2 ^ 53) * (n : ℚ) = (n : ℚ) - (n : ℚ) / 2 ^ 53 := by ring
    linarith
  have hxn : draw * (n : ℚ) < (n : ℚ) := by
    have : (0 : ℚ) < (n : ℚ) / 2 ^ 53 := by positivity
    linarith
  -- the exponent of the product is at most 1, and at most 0 when `n = 2`
  have hlog : (2 : ℚ) ^ Int.log 2 (draw * (n : ℚ)) ≤ draw * (n : ℚ) := by
    have := Int.zpow_log_le_self (b := 2) (r := draw * (n : ℚ)) (by norm_num) hxpos
    simpa using this
  have hL1 : Int.log 2 (draw * (n : ℚ)) ≤ 1 := by
    by_contra hcon
    have h2L : (2 : ℚ) ^ (2 : ℤ) ≤ 2 ^ Int.log 2 (draw * (n : ℚ)) :=
      zpow_le_zpow_right₀ (by norm_num) (by omega)
    have : (2 : ℚ) ^ (2 : ℤ) = 4 := by norm_num
    linarith
  have hL0 : n = 2 → Int.log 2 (draw * (n : ℚ)) ≤ 0 := by
    intro hn
    by_contra hcon
    have h2L : (2 : ℚ) ^ (1 : ℤ) ≤ 2 ^ Int.log 2 (draw * (n : ℚ)) :=
      zpow_le_zpow_right₀ (by norm_num) (by omega)
    have : (2 : ℚ) ^ (1 : ℤ) = 2 := by norm_num
    have hn' : (n : ℚ) = 2 := by rw [hn]; norm_num
    linarith
  -- the quantum is `1 / 2 ^ (51 + j)`
  obtain ⟨j, hj⟩ : ∃ j : ℕ, max (Int.log 2 (draw * (n : ℚ))) (-1022) - 52 = -((51 + j : ℕ) : ℤ) :=
    ⟨(1 - max (Int.log 2 (draw * (n : ℚ))) (-1022)).toNat, by
      have : max (Int.log 2 (draw * (n : ℚ))) (-1022) ≤ 1 := max_le hL1 (by norm_num)
      push_cast
      omega⟩
  have hj2 : n = 2 → 1 ≤ j := by
    intro hn
    have : max (Int.log 2 (draw * (n : ℚ))) (-1022) ≤ 0 := max_le (hL0 hn) (by norm_num)
    push_cast at hj
    omega
  rw [hj, zpow_neg, zpow_natCast]
  have hU : (0 : ℚ) < 2 ^ (51 + j) := by positivity
  have hdiv : draw * (n : ℚ) / (2 ^ (51 + j))⁻¹ = draw * (n : ℚ) * 2 ^ (51 + j) := by
    rw [div_inv_eq_mul]
  rw [hdiv]
  -- `n` is a multiple of the quantum
  have hN : (((n * 2 ^ (51 + j) : ℕ) : ℤ) : ℚ) = (n : ℚ) * 2 ^ (51 + j) := by push_cast; ring
  have hj1 : (1 : ℚ) ≤ 2 ^ j := one_le_pow₀ (by norm_num)
  have hhalf : (1 : ℚ) / 2 < ((n : ℚ) - draw * (n : ℚ)) * 2 ^ (51 + j) := by
    have h1 : (n : ℚ) / 2 ^ 53 * 2 ^ (51 + j) ≤ ((n : ℚ) - draw * (n : ℚ)) * 2 ^ (51 + j) :=
      mul_le_mul_of_nonneg_right hgap hU.le
    have h2' : (n : ℚ) / 2 ^ 53 * 2 ^ (51 + j) = (n : ℚ) * 2 ^ j / 4 := by
      rw [pow_add]; ring
    rw [h2'] at h1
    rcases Nat.lt_or_ge 2 n with h3 | h3
    · have hn3 : (3 : ℚ) ≤ (n : ℚ) := by exact_mod_cast h3
      have : (3 : ℚ) ≤ (n : ℚ) * 2 ^ j := by nlinarith
      linarith
    · have hn' : n = 2 := by omega
      have hj' : (2 : ℚ) ≤ 2 ^ j := by
        calc (2 : ℚ) = 2 ^ 1 := by norm_num
          _ ≤ 2 ^ j := pow_le_pow_right₀ (by norm_num) (hj2 hn')
      have : (4 : ℚ) ≤ (n : ℚ) * 2 ^ j := by nlinarith
      linarith
  have hle : roundHalfEven (draw * (n : ℚ) * 2 ^ (51 + j)) ≤ ((n * 2 ^ (51 + j) : ℕ) : ℤ) - 1 := by
    apply roundHalfEven_le
    push_cast
    have : ((n : ℚ) - draw * (n : ℚ)) * 2 ^ (51 + j)
        = (n : ℚ) * 2 ^ (51 + j) - draw * (n : ℚ) * 2 ^ (51 + j) := by ring
    rw [this] at hhalf
    linarith
  have hnn : 0 ≤ roundHalfEven (draw * (n : ℚ) * 2 ^ (51 + j)) :=
    roundHalfEven_nonneg _ (by positivity)
  have hleq : (roundHalfEven (draw * (n : ℚ) * 2 ^ (51 + j)) : ℚ)
      ≤ (n : ℚ) * 2 ^ (51 + j) - 1 := by
    have : (roundHalfEven (draw * (n : ℚ) * 2 ^ (51 + j)) : ℚ)
        ≤ ((((n * 2 ^ (51 + j) : ℕ) : ℤ) - 1 : ℤ) : ℚ) := by exact_mod_cast hle
    push_cast at this
    exact this
  have hnnq : (0 : ℚ) ≤ (roundHalfEven (draw * (n : ℚ) * 2 ^ (51 + j)) : ℚ) := by
    exact_mod_cast hnn
  constructor
  · positivity
  · rw [← div_eq_mul_inv, div_lt_iff₀ hU]
    linarith

/-- The value of `Math.floor(Math.random() * n)`, for a double `draw` in
`[0, 1)` and `n` from 2 to 4, is below `n`. -/
theorem floor_roundDouble_lt (draw : ℚ) (n : ℕ) (hd : IsDouble draw) (hd1 : draw < 1)
    (h2 : 2 ≤ n) (h4 : n ≤ 4) : ⌊roundDouble (draw * (n : ℚ))⌋₊ < n := by
  obtain ⟨h0, hlt⟩ := roundDouble_mul_lt draw n (isDouble_lt_one draw hd hd1) h2 h4
  rw [Nat.floor_lt h0]
  exact hlt

/-- The product of the double nearest to two thirds and 3 lies half way
between two doubles and is rounded to 2, above the exact product: the floor
is 2 where the floor of the exact product is 1. -/
theorem roundDouble_two_thirds :
    roundDouble (6004799503160661 / 2 ^ 53 * 3) = 2 ∧
    ⌊roundDouble (6004799503160661 / 2 ^ 53 * 3)⌋₊ = 2 ∧
    ⌊(6004799503160661 / 2 ^ 53 * 3 : ℚ)⌋₊ = 1 := by
  have hlog : Int.log 2 (6004799503160661 / 2 ^ 53 * 3 : ℚ) = 0 := by
    apply le_antisymm
    · have : Int.log 2 (6004799503160661 / 2 ^ 53 * 3 : ℚ) < 1 := by
        rw [← Int.lt_zpow_iff_log_lt (by norm_num) (by norm_num)]
        norm_num
      omega
    · rw [← Int.zpow_le_iff_le_log (by norm_num) (by norm_num)]
      norm_num
  have hfl : ⌊(18014398509481983 / 2 : ℚ)⌋ = 9007199254740991 := by
    rw [Int.floor_eq_iff]
    constructor <;> norm_num
  have h1 : roundDouble (6004799503160661 / 2 ^ 53 * 3) = 2 := by
    unfold roundDouble
    rw [if_neg (by norm_num), hlog]
    have hq : (6004799503160661 / 2 ^ 53 * 3 : ℚ) / 2 ^ (max (0 : ℤ) (-1022) - 52)
        = 18014398509481983 / 2 := by
      norm_num [zpow_neg]
    rw [hq]
    unfold roundHalfEven
    rw [hfl]
    norm_num [zpow_neg]
  refine ⟨h1, ?_, ?_⟩
  · rw [h1]; exact Nat.floor_ofNat 2
  · rw [Nat.floor_eq_iff (by norm_num)]
    constructor <;> norm_num

theorem mem_insertRoom (rooms : List (RoomCode × Room)) (code : RoomCode) (room : Room)
    (e : RoomCode × Room) : e ∈ insertRoom rooms code room ↔ e = (code, room) ∨ e ∈ rooms := by
  unfold insertRoom
  rw [List.mem_append, List.mem_cons]
  constructor
  · rintro (h | h | h)
    · exact Or.inr (List.takeWhile_subset _ h)
    · exact Or.inl h
    · exact Or.inr (List.dropWhile_subset _ h)
  · rintro (h | h)
    · exact Or.inr (Or.inl h)
    · rw [← List.takeWhile_append_dropWhile (fun e => visitedAfter code e.1) rooms,
        List.mem_append] at h
      tauto

theorem mem_setRoom (rooms : List (RoomCode × Room)) (code : RoomCode) (room : Room)
    (e : RoomCode × Room) (h : e ∈ setRoom rooms code room) : e ∈ rooms ∨ e = (code, room) := by
  unfold setRoom at h
  obtain ⟨x, hx, rfl⟩ := List.mem_map.mp h
  by_cases hc : x.1 = code
  · rw [if_pos hc]; exact Or.inr rfl
  · rw [if_neg hc]; exact Or.inl hx

theorem mem_deleteRoom (rooms : List (RoomCode × Room)) (code : RoomCode)
    (e : RoomCode × Room) (h : e ∈ deleteRoom rooms code) : e ∈ rooms :=
  List.mem_of_mem_filter h

theorem lookupRoom_mem (rooms : List (RoomCode × Room)) (code : RoomCode) (room : Room)
    (h : lookupRoom rooms code = some room) : (code, room) ∈ rooms := by
  unfold lookupRoom at h
  cases hf : rooms.find? (fun e => decide (e.1 = code)) with
  | none => rw [hf] at h; simp at h
  | some e =>
    rw [hf] at h
    simp only [Option.map_some', Option.some.injEq] at h
    have h1 := List.find?_some hf
    have h2 := List.mem_of_find?_eq_some hf
    simp only [decide_eq_true_eq] at h1
    obtain ⟨c, r⟩ := e
    simp only at h h1
    subst h h1
    exact h2

theorem lookupRoom_eq_none (rooms : List (RoomCode × Room)) (code : RoomCode) :
    lookupRoom rooms code = none ↔ ∀ e ∈ rooms, e.1 ≠ code := by
  unfold lookupRoom
  simp [List.find?_eq_none]

theorem lookupRoom_cons (e : RoomCode × Room) (rooms : List (RoomCode × Room))
    (code : RoomCode) :
    lookupRoom (e :: rooms) code = if e.1 = code then some e.2 else lookupRoom rooms code := by
  unfold lookupRoom
  by_cases hc : e.1 = code
  · simp [List.find?_cons, hc]
  · simp [List.find?_cons, hc]

theorem setRoom_cons (e : RoomCode × Room) (rooms : List (RoomCode × Room))
    (code : RoomCode) (room : Room) :
    setRoom (e :: rooms) code room
      = (if e.1 = code then (code, room) else e) :: setRoom rooms code room := rfl

/-- After a write to `rooms[code]`, which exists, that is what `rooms[code]`
holds. -/
theorem lookupRoom_setRoom (rooms : List (RoomCode × Room)) (code : RoomCode)
    (room room2 : Room) (h : lookupRoom rooms code = some room) :
    lookupRoom (setRoom rooms code room2) code = some room2 := by
  induction rooms with
  | nil => simp [lookupRoom] at h
  | cons e rooms ih =>
    rw [setRoom_cons, lookupRoom_cons]
    rw [lookupRoom_cons] at h
    by_cases hc : e.1 = code
    · rw [if_pos hc, if_pos rfl]
    · rw [if_neg hc] at h
      rw [if_neg hc, if_neg hc]
      exact ih h

/-- A write to `rooms[code]` leaves the other rooms as they are. -/
theorem lookupRoom_setRoom_ne (rooms : List (RoomCode × Room)) (code code2 : RoomCode)
    (room2 : Room) (hne : code2 ≠ code) :
    lookupRoom (setRoom rooms code room2) code2 = lookupRoom rooms code2 := by
  induction rooms with
  | nil => rfl
  | cons e rooms ih =>
    rw [setRoom_cons, lookupRoom_cons, lookupRoom_cons]
    by_cases hc : e.1 = code
    · have hc2 : ¬ e.1 = code2 := fun h => hne (h ▸ hc)
      rw [if_pos hc, if_neg (fun h : code = code2 => hne h.symm), if_neg hc2]
      exact ih
    · rw [if_neg hc]
      by_cases hc2 : e.1 = code2
      · rw [if_pos hc2, if_pos hc2]
      · rw [if_neg hc2, if_neg hc2]
        exact ih

theorem roomOk_createRoom (socketId : Nat) (nickname : String) :
    RoomOk { players := [⟨socketId, nickname⟩], host := socketId, gameState := none } :=
  ⟨by simp, by simp, ⟨⟨socketId, nickname⟩, by simp, rfl⟩, fun gs h => by simp at h⟩

/-- The loop of the `disconnect` handler keeps `RoomOk` for every room. -/
theorem roomOk_disconnectLoop (socketId : Nat) (rooms : List (RoomCode × Room))
    (h : ∀ e ∈ rooms, RoomOk e.2) : ∀ e ∈ (disconnectLoop socketId rooms).1, RoomOk e.2 := by
  induction rooms with
  | nil => intro e he; simp [disconnectLoop] at he
  | cons x rooms ih =>
    obtain ⟨code, room⟩ := x
    have hroom : RoomOk room := h (code, room) (List.mem_cons_self _ _)
    have hrest : ∀ e ∈ rooms, RoomOk e.2 := fun e he => h e (List.mem_cons_of_mem _ he)
    unfold disconnectLoop
    cases hidx : room.players.findIdx? (fun p => decide (p.id = socketId)) with
    | none =>
      simp only
      intro e he
      rcases List.mem_cons.mp he with rfl | he
      · exact hroom
      · exact ih hrest e he
    | some i =>
      simp only
      cases hera : room.players.eraseIdx i with
      | nil => simp only; exact hrest
      | cons first others =>
        simp only
        intro e he
        rcases List.mem_cons.mp he with rfl | he
        swap
        · exact hrest e he
        obtain ⟨h1, h4, ⟨q, hq, hqh⟩, hgs⟩ := hroom
        have hlen : (first :: others).length ≤ room.players.length := by
          rw [← hera]; exact List.length_eraseIdx_le _ _
        refine ⟨by simp, by simp only at hlen ⊢; omega, ?_, hgs⟩
        simp only
        by_cases hh : room.host = socketId
        · rw [if_pos hh]
          exact ⟨first, List.mem_cons_self _ _, rfl⟩
        · rw [if_neg hh]
          -- the host's entry is not the one that was removed
          obtain ⟨hi, hpi, _⟩ := List.findIdx?_eq_some_iff_getElem.mp hidx
          simp only [decide_eq_true_eq] at hpi
          obtain ⟨j, hj, hjq⟩ := List.getElem_of_mem hq
          have hji : j ≠ i := by
            rintro rfl
            rw [hjq] at hpi
            exact hh (hqh ▸ hpi)
          refine ⟨q, ?_, hqh⟩
          rw [← hera, List.mem_iff_getElem?]
          by_cases hlt : j < i
          · exact ⟨j, by rw [List.getElem?_eraseIdx_of_lt _ _ _ hlt, List.getElem?_eq_getElem hj, hjq]⟩
          · refine ⟨j - 1, ?_⟩
            rw [List.getElem?_eraseIdx_of_ge _ _ _ (by omega),
              show j - 1 + 1 = j by omega, List.getElem?_eq_getElem hj, hjq]

/-- Every event handler keeps `RoomOk` for every room. -/
theorem roomOk_handle (event : Event) (rooms rooms2 : List (RoomCode × Room))
    (out : List LobbyEmit) (hwf : event.WellFormed) (h : ∀ e ∈ rooms, RoomOk e.2)
    (hstep : handle event rooms = some (rooms2, out)) : ∀ e ∈ rooms2, RoomOk e.2 := by
  cases event with
  | createRoom socketId nickname code =>
    simp only [handle, createRoom, Option.some.injEq] at hstep
    cases hl : lookupRoom rooms code with
    | some room =>
      rw [hl] at hstep
      simp only [Prod.mk.injEq] at hstep
      rw [← hstep.1]; exact h
    | none =>
      rw [hl] at hstep
      simp only at hstep
      split at hstep
      · simp only [Prod.mk.injEq] at hstep
        rw [← hstep.1]; exact h
      · simp only [Prod.mk.injEq] at hstep
        rw [← hstep.1]
        intro e he
        rcases (mem_insertRoom _ _ _ _).mp he with rfl | he
        · exact roomOk_createRoom socketId nickname
        · exact h e he
  | joinRoom socketId nickname code =>
    simp only [handle, joinRoom] at hstep
    cases hl : lookupRoom rooms code with
    | none =>
      rw [hl] at hstep
      simp only at hstep
      split at hstep
      · exact absurd hstep (by simp)
      · simp only [Option.some.injEq, Prod.mk.injEq] at hstep
        rw [← hstep.1]; exact h
    | some room =>
      rw [hl] at hstep
      simp only at hstep
      have hroom : RoomOk room := h _ (lookupRoom_mem rooms code room hl)
      split at hstep
      · simp only [Option.some.injEq, Prod.mk.injEq] at hstep
        rw [← hstep.1]; exact h
      · rename_i hfull
        simp only [Option.some.injEq, Prod.mk.injEq] at hstep
        rw [← hstep.1]
        intro e he
        rcases mem_setRoom _ _ _ _ he with he | rfl
        · exact h e he
        · obtain ⟨h1, h4, ⟨q, hq, hqh⟩, hgs⟩ := hroom
          refine ⟨by simp, ?_, ⟨q, List.mem_append_left _ hq, hqh⟩, hgs⟩
          simp only [List.length_append, List.length_singleton]
          omega
  | startGame socketId code draw =>
    simp only [handle, startGame, Option.some.injEq] at hstep
    cases hl : lookupRoom rooms code with
    | none =>
      rw [hl] at hstep
      simp only [Prod.mk.injEq] at hstep
      rw [← hstep.1]; exact h
    | some room =>
      rw [hl] at hstep
      simp only at hstep
      have hroom : RoomOk room := h _ (lookupRoom_mem rooms code room hl)
      split at hstep
      · split at hstep
        · simp only [Prod.mk.injEq] at hstep
          rw [← hstep.1]; exact h
        · rename_i hn
          simp only [Prod.mk.injEq] at hstep
          rw [← hstep.1]
          intro e he
          rcases mem_setRoom _ _ _ _ he with he | rfl
          · exact h e he
          · obtain ⟨h1, h4, hhost, _⟩ := hroom
            refine ⟨h1, h4, hhost, ?_⟩
            intro gs hgs
            simp only [Option.some.injEq] at hgs
            rw [← hgs, newGameState_length _ _ h4]
            show ⌊roundDouble (draw * (room.players.length : ℚ))⌋₊ < room.players.length
            exact floor_roundDouble_lt draw _ hwf.1 hwf.2.2 (by omega) h4
      · simp only [Prod.mk.injEq] at hstep
        rw [← hstep.1]; exact h
  | gameAction socketId code action =>
    simp only [handle, roomGameAction] at hstep
    cases hl : lookupRoom rooms code with
    | none =>
      rw [hl] at hstep
      simp only [Option.some.injEq, Prod.mk.injEq] at hstep
      rw [← hstep.1]; exact h
    | some room =>
      rw [hl] at hstep
      simp only at hstep
      have hroom : RoomOk room := h _ (lookupRoom_mem rooms code room hl)
      cases hg : room.gameState with
      | none =>
        rw [hg] at hstep
        simp only [Option.some.injEq, Prod.mk.injEq] at hstep
        rw [← hstep.1]; exact h
      | some gs =>
        rw [hg] at hstep
        simp only at hstep
        cases ha : gameAction socketId action gs with
        | none => rw [ha] at hstep; simp at hstep
        | some res =>
          obtain ⟨gs2, out2⟩ := res
          rw [ha] at hstep
          simp only [Option.some.injEq, Prod.mk.injEq] at hstep
          rw [← hstep.1]
          intro e he
          rcases mem_setRoom _ _ _ _ he with he | rfl
          · exact h e he
          · obtain ⟨h1, h4, hhost, _⟩ := hroom
            refine ⟨h1, h4, hhost, ?_⟩
            intro gs3 hgs3
            simp only [Option.some.injEq] at hgs3
            rw [← hgs3]
            exact (gameAction_turnIndex socketId action gs gs2 out2 ha).2
  | disconnect socketId =>
    simp only [handle, disconnect, Option.some.injEq] at hstep
    have := roomOk_disconnectLoop socketId rooms h
    rw [show (disconnectLoop socketId rooms) = (rooms2, out) from hstep] at this
    exact this
  | teardown code =>
    simp only [handle, teardown, Option.some.injEq, Prod.mk.injEq] at hstep
    rw [← hstep.1]
    cases hl : lookupRoom rooms code with
    | none => exact h
    | some room => exact fun e he => h e (mem_deleteRoom _ _ _ he)

theorem roomOk_of_dirReachable (rooms : List (RoomCode × Room)) (h : DirReachable rooms) :
    ∀ e ∈ rooms, RoomOk e.2 := by
  induction h with
  | empty => intro e he; simp at he
  | step rooms rooms2 event out _ hwf hstep ih => exact roomOk_handle event rooms rooms2 out hwf ih hstep

/-- In a reachable directory every event handler returns, but for a
`join-room` with a key that names a property of `Object.prototype`. -/
theorem handle_isSome_of_dirReachable (rooms : List (RoomCode × Room)) (h : DirReachable rooms)
    (event : Event)
    (hev : ∀ socketId nickname code, event = Event.joinRoom socketId nickname code →
      code.isInherited = false) : ∃ r, handle event rooms = some r := by
  cases event with
  | createRoom socketId nickname code => exact ⟨_, rfl⟩
  | joinRoom socketId nickname code =>
    have hc := hev socketId nickname code rfl
    simp only [handle, joinRoom]
    cases hl : lookupRoom rooms code with
    | none => simp only [hc]; exact ⟨_, rfl⟩
    | some room =>
      simp only
      split
      · exact ⟨_, rfl⟩
      · exact ⟨_, rfl⟩
  | startGame socketId code draw => exact ⟨_, rfl⟩
  | disconnect socketId => exact ⟨_, rfl⟩
  | teardown code => exact ⟨_, rfl⟩
  | gameAction socketId code action =>
    simp only [handle, roomGameAction]
    cases hl : lookupRoom rooms code with
    | none => exact ⟨_, rfl⟩
    | some room =>
      simp only
      cases hg : room.gameState with
      | none => exact ⟨_, rfl⟩
      | some gs =>
        simp only
        have hlt : gs.turnIndex < gs.players.length :=
          (roomOk_of_dirReachable rooms h _ (lookupRoom_mem rooms code room hl)).2.2.2 gs hg
        have hpl : gs.players[gs.turnIndex]? = some gs.players[gs.turnIndex] :=
          List.getElem?_eq_getElem hlt
        cases ha : gameAction socketId action gs with
        | some res => exact ⟨_, rfl⟩
        | none =>
          exfalso
          unfold gameAction at ha
          rw [hpl] at ha
          simp only at ha
          split at ha
          · simp at ha
          · cases action with
            | other => simp at ha
            | move row col =>
              simp only at ha
              split at ha
              · simp at ha
              · split at ha <;> simp at ha
            | placeWall wall =>
              simp only at ha
              split at ha
              · simp at ha
              · split at ha <;> simp at ha

theorem keys_setRoom (rooms : List (RoomCode × Room)) (code : RoomCode) (room : Room) :
    (setRoom rooms code room).map Prod.fst = rooms.map Prod.fst := by
  induction rooms with
  | nil => rfl
  | cons e rooms ih =>
    rw [setRoom_cons, List.map_cons, List.map_cons, ih]
    by_cases hc : e.1 = code
    · rw [if_pos hc, hc]
    · rw [if_neg hc]

theorem keys_insertRoom (rooms : List (RoomCode × Room)) (code : RoomCode) (room : Room) :
    List.Perm ((insertRoom rooms code room).map Prod.fst) (code :: rooms.map Prod.fst) := by
  unfold insertRoom
  rw [List.map_append, List.map_cons]
  refine List.perm_middle.trans ?_
  rw [← List.map_append, List.takeWhile_append_dropWhile]

theorem keys_disconnectLoop (socketId : Nat) (rooms : List (RoomCode × Room)) :
    List.Sublist ((disconnectLoop socketId rooms).1.map Prod.fst) (rooms.map Prod.fst) := by
  induction rooms with
  | nil => simp [disconnectLoop]
  | cons x rooms ih =>
    obtain ⟨code, room⟩ := x
    unfold disconnectLoop
    cases hidx : room.players.findIdx? (fun p => decide (p.id = socketId)) with
    | none =>
      simp only [List.map_cons]
      exact ih.cons₂ code
    | some i =>
      simp only
      cases hera : room.players.eraseIdx i with
      | nil => simp only [List.map_cons]; exact List.sublist_cons_self _ _
      | cons first others => simp only [List.map_cons]; exact List.Sublist.refl _

/-- The keys of the directory a handler leaves behind are keys it found or
name no property of `Object.prototype`. -/
theorem keys_handle (event : Event) (rooms rooms2 : List (RoomCode × Room))
    (out : List LobbyEmit) (hstep : handle event rooms = some (rooms2, out)) :
    ∀ e ∈ rooms2, e.1 ∈ rooms.map Prod.fst ∨ e.1.isInherited = false := by
  have hsub : (∀ e ∈ rooms2, e.1 ∈ rooms2.map Prod.fst) :=
    fun e he => List.mem_map.mpr ⟨e, he, rfl⟩
  have hkeep : rooms2.map Prod.fst = rooms.map Prod.fst →
      ∀ e ∈ rooms2, e.1 ∈ rooms.map Prod.fst ∨ e.1.isInherited = false :=
    fun hk e he => Or.inl (hk ▸ hsub e he)
  cases event with
  | createRoom socketId nickname code =>
    simp only [handle, createRoom, Option.some.injEq] at hstep
    cases hl : lookupRoom rooms code with
    | some room =>
      rw [hl] at hstep
      simp only [Prod.mk.injEq] at hstep
      exact hkeep (by rw [← hstep.1])
    | none =>
      rw [hl] at hstep
      simp only at hstep
      split at hstep
      · simp only [Prod.mk.injEq] at hstep
        exact hkeep (by rw [← hstep.1])
      · rename_i hinh
        simp only [Prod.mk.injEq] at hstep
        rw [← hstep.1]
        intro e he
        rcases (mem_insertRoom _ _ _ _).mp he with rfl | he
        · right; simpa using hinh
        · exact Or.inl (List.mem_map.mpr ⟨e, he, rfl⟩)
  | joinRoom socketId nickname code =>
    simp only [handle, joinRoom] at hstep
    cases hl : lookupRoom rooms code with
    | none =>
      rw [hl] at hstep
      simp only at hstep
      split at hstep
      · exact absurd hstep (by simp)
      · simp only [Option.some.injEq, Prod.mk.injEq] at hstep
        exact hkeep (by rw [← hstep.1])
    | some room =>
      rw [hl] at hstep
      simp only at hstep
      split at hstep
      · simp only [Option.some.injEq, Prod.mk.injEq] at hstep
        exact hkeep (by rw [← hstep.1])
      · simp only [Option.some.injEq, Prod.mk.injEq] at hstep
        exact hkeep (by rw [← hstep.1, keys_setRoom])
  | startGame socketId code draw =>
    simp only [handle, startGame, Option.some.injEq] at hstep
    cases hl : lookupRoom rooms code with
    | none =>
      rw [hl] at hstep
      simp only [Prod.mk.injEq] at hstep
      exact hkeep (by rw [← hstep.1])
    | some room =>
      rw [hl] at hstep
      simp only at hstep
      split at hstep
      · split at hstep
        · simp only [Prod.mk.injEq] at hstep
          exact hkeep (by rw [← hstep.1])
        · simp only [Prod.mk.injEq] at hstep
          exact hkeep (by rw [← hstep.1, keys_setRoom])
      · simp only [Prod.mk.injEq] at hstep
        exact hkeep (by rw [← hstep.1])
  | gameAction socketId code action =>
    simp only [handle, roomGameAction] at hstep
    cases hl : lookupRoom rooms code with
    | none =>
      rw [hl] at hstep
      simp only [Option.some.injEq, Prod.mk.injEq] at hstep
      exact hkeep (by rw [← hstep.1])
    | some room =>
      rw [hl] at hstep
      simp only at hstep
      cases hg : room.gameState with
      | none =>
        rw [hg] at hstep
        simp only [Option.some.injEq, Prod.mk.injEq] at hstep
        exact hkeep (by rw [← hstep.1])
      | some gs =>
        rw [hg] at hstep
        simp only at hstep
        cases ha : gameAction socketId action gs with
        | none => rw [ha] at hstep; simp at hstep
        | some res =>
          obtain ⟨gs2, out2⟩ := res
          rw [ha] at hstep
          simp only [Option.some.injEq, Prod.mk.injEq] at hstep
          exact hkeep (by rw [← hstep.1, keys_setRoom])
  | disconnect socketId =>
    simp only [handle, disconnect, Option.some.injEq] at hstep
    have hsl := keys_disconnectLoop socketId rooms
    rw [show (disconnectLoop socketId rooms) = (rooms2, out) from hstep] at hsl
    exact fun e he => Or.inl (hsl.subset (hsub e he))
  | teardown code =>
    simp only [handle, teardown, Option.some.injEq, Prod.mk.injEq] at hstep
    rw [← hstep.1]
    cases hl : lookupRoom rooms code with
    | none => exact fun e he => Or.inl (List.mem_map.mpr ⟨e, he, rfl⟩)
    | some room =>
      exact fun e he => Or.inl (List.mem_map.mpr ⟨e, mem_deleteRoom _ _ _ he, rfl⟩)

/-- No key of a reachable directory names a property of `Object.prototype`. -/
theorem keys_not_inherited_of_dirReachable (rooms : List (RoomCode × Room))
    (h : DirReachable rooms) : ∀ e ∈ rooms, e.1.isInherited = false := by
  induction h with
  | empty => intro e he; simp at he
  | step rooms rooms2 event out _ _ hstep ih =>
    intro e he
    rcases keys_handle event rooms rooms2 out hstep e he with hk | hk
    · obtain ⟨e2, he2, hk2⟩ := List.mem_map.mp hk
      rw [← hk2]; exact ih e2 he2
    · exact hk

/-- In a reachable directory a `join-room` with a key that names a property of
`Object.prototype` throws. -/
theorem joinRoom_inherited_of_dirReachable (rooms : List (RoomCode × Room))
    (h : DirReachable rooms) (socketId : Nat) (nickname : String) (code : RoomCode)
    (hc : code.isInherited = true) :
    handle (Event.joinRoom socketId nickname code) rooms = none := by
  have hl : lookupRoom rooms code = none := by
    rw [lookupRoom_eq_none]
    intro e he hec
    have := keys_not_inherited_of_dirReachable rooms h e he
    rw [hec, hc] at this
    exact absurd this (by simp)
  simp only [handle, joinRoom, hl, hc, if_true]

/-- Every event handler keeps the keys of the directory pairwise different. -/
theorem keys_nodup_handle (event : Event) (rooms rooms2 : List (RoomCode × Room))
    (out : List LobbyEmit) (ih : (rooms.map Prod.fst).Nodup)
    (hstep : handle event rooms = some (rooms2, out)) : (rooms2.map Prod.fst).Nodup := by
  cases event with
  | createRoom socketId nickname code =>
    simp only [handle, createRoom, Option.some.injEq] at hstep
    cases hl : lookupRoom rooms code with
    | some room =>
      rw [hl] at hstep
      simp only [Prod.mk.injEq] at hstep
      rw [← hstep.1]; exact ih
    | none =>
      rw [hl] at hstep
      simp only at hstep
      split at hstep
      · simp only [Prod.mk.injEq] at hstep
        rw [← hstep.1]; exact ih
      · simp only [Prod.mk.injEq] at hstep
        rw [← hstep.1, (keys_insertRoom rooms code _).nodup_iff, List.nodup_cons]
        refine ⟨?_, ih⟩
        intro hmem
        obtain ⟨e, he, hec⟩ := List.mem_map.mp hmem
        exact (lookupRoom_eq_none rooms code).mp hl e he hec
  | joinRoom socketId nickname code =>
    simp only [handle, joinRoom] at hstep
    cases hl : lookupRoom rooms code with
    | none =>
      rw [hl] at hstep
      simp only at hstep
      split at hstep
      · exact absurd hstep (by simp)
      · simp only [Option.some.injEq, Prod.mk.injEq] at hstep
        rw [← hstep.1]; exact ih
    | some room =>
      rw [hl] at hstep
      simp only at hstep
      split at hstep
      · simp only [Option.some.injEq, Prod.mk.injEq] at hstep
        rw [← hstep.1]; exact ih
      · simp only [Option.some.injEq, Prod.mk.injEq] at hstep
        rw [← hstep.1, keys_setRoom]; exact ih
  | startGame socketId code draw =>
    simp only [handle, startGame, Option.some.injEq] at hstep
    cases hl : lookupRoom rooms code with
    | none =>
      rw [hl] at hstep
      simp only [Prod.mk.injEq] at hstep
      rw [← hstep.1]; exact ih
    | some room =>
      rw [hl] at hstep
      simp only at hstep
      split at hstep
      · split at hstep
        · simp only [Prod.mk.injEq] at hstep
          rw [← hstep.1]; exact ih
        · simp only [Prod.mk.injEq] at hstep
          rw [← hstep.1, keys_setRoom]; exact ih
      · simp only [Prod.mk.injEq] at hstep
        rw [← hstep.1]; exact ih
  | gameAction socketId code action =>
    simp only [handle, roomGameAction] at hstep
    cases hl : lookupRoom rooms code with
    | none =>
      rw [hl] at hstep
      simp only [Option.some.injEq, Prod.mk.injEq] at hstep
      rw [← hstep.1]; exact ih
    | some room =>
      rw [hl] at hstep
      simp only at hstep
      cases hg : room.gameState with
      | none =>
        rw [hg] at hstep
        simp only [Option.some.injEq, Prod.mk.injEq] at hstep
        rw [← hstep.1]; exact ih
      | some gs =>
        rw [hg] at hstep
        simp only at hstep
        cases ha : gameAction socketId action gs with
        | none => rw [ha] at hstep; simp at hstep
        | some res =>
          obtain ⟨gs2, out2⟩ := res
          rw [ha] at hstep
          simp only [Option.some.injEq, Prod.mk.injEq] at hstep
          rw [← hstep.1, keys_setRoom]; exact ih
  | disconnect socketId =>
    simp only [handle, disconnect, Option.some.injEq] at hstep
    have := keys_disconnectLoop socketId rooms
    rw [show (disconnectLoop socketId rooms) = (rooms2, out) from hstep] at this
    exact ih.sublist this
  | teardown code =>
    simp only [handle, teardown, Option.some.injEq, Prod.mk.injEq] at hstep
    rw [← hstep.1]
    cases hl : lookupRoom rooms code with
    | none => exact ih
    | some room =>
      simp only
      exact ih.sublist ((List.filter_sublist _).map _)

/-- The keys of a reachable directory are pairwise different, as the keys of an
object are. -/
theorem keys_nodup_of_dirReachable (rooms : List (RoomCode × Room)) (h : DirReachable rooms) :
    (rooms.map Prod.fst).Nodup := by
  induction h with
  | empty => simp
  | step rooms rooms2 event out _ _ hstep ih =>
    exact keys_nodup_handle event rooms rooms2 out ih hstep

theorem dirReachable_runEvents (events : List Event) (hwf : ∀ ev ∈ events, ev.WellFormed) :
    ∀ rooms rooms2 : List (RoomCode × Room), DirReachable rooms →
      runEvents events rooms = some rooms2 → DirReachable rooms2 := by
  induction events with
  | nil =>
    intro rooms rooms2 hr h
    simp only [runEvents, Option.some.injEq] at h
    exact h ▸ hr
  | cons ev events ih =>
    intro rooms rooms2 hr h
    simp only [runEvents] at h
    cases hstep : handle ev rooms with
    | none => rw [hstep] at h; simp at h
    | some res =>
      obtain ⟨rooms1, out⟩ := res
      rw [hstep] at h
      exact ih (fun e he => hwf e (List.mem_cons_of_mem _ he)) rooms1 rooms2
        (DirReachable.step rooms rooms1 ev out hr (hwf ev (List.mem_cons_self _ _)) hstep) h

theorem newGameState_players_spec (participants : List Participant) (turnIndex : Nat)
    (h4 : participants.length ≤ 4) :
    (newGameState participants turnIndex).players.map (fun p => (p.id, p.nickname))
      = participants.map (fun p => (p.id, p.nickname)) ∧
    ∀ (i : Nat) (p : Player), (newGameState participants turnIndex).players[i]? = some p →
      playerPositions[i]? = some p.cell ∧ destinationRows[i]? = some p.destination ∧
      p.wallsLeft = if participants.length < 4 then 10 else 5 := by
  rcases participants with _ | ⟨a, _ | ⟨b, _ | ⟨c, _ | ⟨d, _ | ⟨e, rest⟩⟩⟩⟩⟩
  · exact ⟨rfl, fun i p h => by simp [newGameState] at h⟩
  · refine ⟨rfl, fun i p h => ?_⟩
    rcases i with _ | i
    · simp [newGameState, playerPositions, destinationRows] at h; subst h; exact ⟨rfl, rfl, rfl⟩
    · simp [newGameState, playerPositions, destinationRows] at h
  · refine ⟨rfl, fun i p h => ?_⟩
    rcases i with _ | _ | i
    · simp [newGameState, playerPositions, destinationRows] at h; subst h; exact ⟨rfl, rfl, rfl⟩
    · simp [newGameState, playerPositions, destinationRows] at h; subst h; exact ⟨rfl, rfl, rfl⟩
    · simp [newGameState, playerPositions, destinationRows] at h
  · refine ⟨rfl, fun i p h => ?_⟩
    rcases i with _ | _ | _ | i
    · simp [newGameState, playerPositions, destinationRows] at h; subst h; exact ⟨rfl, rfl, rfl⟩
    · simp [newGameState, playerPositions, destinationRows] at h; subst h; exact ⟨rfl, rfl, rfl⟩
    · simp [newGameState, playerPositions, destinationRows] at h; subst h; exact ⟨rfl, rfl, rfl⟩
    · simp [newGameState, playerPositions, destinationRows] at h
  · refine ⟨rfl, fun i p h => ?_⟩
    rcases i with _ | _ | _ | _ | i
    · simp [newGameState, playerPositions, destinationRows] at h; subst h; exact ⟨rfl, rfl, rfl⟩
    · simp [newGameState, playerPositions, destinationRows] at h; subst h; exact ⟨rfl, rfl, rfl⟩
    · simp [newGameState, playerPositions, destinationRows] at h; subst h; exact ⟨rfl, rfl, rfl⟩
    · simp [newGameState, playerPositions, destinationRows] at h; subst h; exact ⟨rfl, rfl, rfl⟩
    · simp [newGameState, playerPositions, destinationRows] at h
  · simp at h4

theorem map_destination_set (players : List Player) (i : Nat) (player player2 : Player)
    (h : players[i]? = some player) (hd : player2.destination = player.destination) :
    (players.set i player2).map Player.destination = players.map Player.destination := by
  rw [List.map_set, hd]
  apply List.ext_getElem?
  intro j
  by_cases hj : i = j
  · subst hj
    have hlt : i < (players.map Player.destination).length := by
      rw [List.length_map]; exact (List.getElem?_eq_some.mp h).1
    rw [List.getElem?_set_self hlt, List.getElem?_map, h]
    rfl
  · rw [List.getElem?_set_ne hj]

/-- The handler never changes a destination row. -/
theorem destination_gameAction (socketId : Nat) (action : Action) (gs gs2 : GameState)
    (out : List Emit) (h : gameAction socketId action gs = some (gs2, out)) :
    gs2.players.map Player.destination = gs.players.map Player.destination := by
  unfold gameAction at h
  cases hpl : gs.players[gs.turnIndex]? with
  | none => rw [hpl] at h; simp at h
  | some player =>
    rw [hpl] at h
    simp only at h
    split at h
    · simp only [Option.some.injEq, Prod.mk.injEq] at h
      rw [← h.1]
    · cases action with
      | other =>
        simp only [nextTurn, Option.some.injEq, Prod.mk.injEq] at h
        rw [← h.1]
      | move row col =>
        simp only at h
        split at h
        · simp only [Option.some.injEq, Prod.mk.injEq] at h
          rw [← h.1]
        · split at h
          · simp only [Option.some.injEq, Prod.mk.injEq] at h
            rw [← h.1]
            exact map_destination_set gs.players gs.turnIndex player _ hpl rfl
          · simp only [nextTurn, Option.some.injEq, Prod.mk.injEq] at h
            rw [← h.1]
            exact map_destination_set gs.players gs.turnIndex player _ hpl rfl
      | placeWall wall =>
        simp only at h
        split at h
        · simp only [Option.some.injEq, Prod.mk.injEq] at h
          rw [← h.1]
        · split at h
          · simp only [nextTurn, Option.some.injEq, Prod.mk.injEq] at h
            rw [← h.1]
            exact map_destination_set gs.players gs.turnIndex player _ hpl rfl
          · simp only [Option.some.injEq, Prod.mk.injEq] at h
            rw [← h.1]

/-- In every reachable game state the player of seat `i` has the destination
row `destinationRows[i]`. -/
theorem destination_of_reachable (gs : GameState) (h : Reachable gs) :
    ∀ (i : Nat) (p : Player), gs.players[i]? = some p →
      destinationRows[i]? = some p.destination := by
  induction h with
  | start participants turnIndex _ h4 _ _ =>
    intro i p hp
    exact ((newGameState_players_spec participants turnIndex h4).2 i p hp).2.1
  | step gs gs2 socketId action out _ hstep ih =>
    intro i p hp
    have hmap := destination_gameAction socketId action gs gs2 out hstep
    have h1 : (gs2.players.map Player.destination)[i]? = some p.destination := by
      rw [List.getElem?_map, hp]; rfl
    rw [hmap, List.getElem?_map] at h1
    cases hq : gs.players[i]? with
    | none => rw [hq] at h1; simp at h1
    | some q =>
      rw [hq] at h1
      simp only [Option.map_some', Option.some.injEq] at h1
      rw [← h1]
      exact ih i q hq

/-- Under pairwise different ids, `findIndex` and `splice` remove every entry
of the connection. -/
theorem eraseIdx_findIdx_eq_filter (socketId : Nat) :
    ∀ (players : List Participant) (i : Nat),
      (players.map fun p => p.id).Nodup →
      players.findIdx? (fun p => decide (p.id = socketId)) = some i →
      players.eraseIdx i = players.filter fun p => !decide (p.id = socketId) := by
  intro players
  induction players with
  | nil => intro i _ h; simp at h
  | cons x xs ih =>
    intro i hnd h
    rw [List.map_cons, List.nodup_cons] at hnd
    rw [List.findIdx?_cons] at h
    by_cases hx : x.id = socketId
    · simp only [hx, decide_True, if_true, Option.some.injEq] at h
      subst h
      rw [List.eraseIdx_zero, List.tail_cons, List.filter_cons]
      simp only [hx, decide_True, Bool.not_true, Bool.false_eq_true, if_false]
      symm
      rw [List.filter_eq_self]
      intro y hy
      have : y.id ≠ socketId := by
        intro hys
        exact hnd.1 (List.mem_map.mpr ⟨y, hy, by rw [hys, hx]⟩)
      simp [this]
    · simp only [hx, decide_False, Bool.false_eq_true, if_false] at h
      rw [List.findIdx?_start_succ] at h
      cases hj : xs.findIdx? (fun p => decide (p.id = socketId)) with
      | none => rw [hj] at h; simp at h
      | some j =>
        rw [hj] at h
        simp only [Option.map_some', Option.some.injEq] at h
        subst h
        rw [List.eraseIdx_cons_succ, ih j hnd.2 hj, List.filter_cons]
        simp [hx]

/-- What the `disconnect` handler does when the first room of the directory
lists the connection, with pairwise different participant ids, and another
participant remains: the connection is removed, the others keep their order,
and when the connection was the host the first of them becomes host, else the
host stays. -/
theorem disconnect_first_room (socketId : Nat) (code : RoomCode) (room : Room)
    (rest : List (RoomCode × Room))
    (hnd : (room.players.map fun p => p.id).Nodup)
    (hmem : ∃ p ∈ room.players, p.id = socketId) (hlen : 2 ≤ room.players.length) :
    ∃ (first : Participant) (others : List Participant),
      (room.players.filter fun p => !decide (p.id = socketId)) = first :: others ∧
      (disconnect socketId ((code, room) :: rest)).1
        = (code, { room with
            players := first :: others
            host := if room.host = socketId then first.id else room.host }) :: rest := by
  obtain ⟨p, hp, hps⟩ := hmem
  cases hidx : room.players.findIdx? (fun p => decide (p.id = socketId)) with
  | none =>
    have := List.findIdx?_eq_none_iff.mp hidx p hp
    simp [hps] at this
  | some i =>
    have hera := eraseIdx_findIdx_eq_filter socketId room.players i hnd hidx
    have hi : i < room.players.length := (List.findIdx?_eq_some_iff_getElem.mp hidx).1
    have hlen2 : (room.players.eraseIdx i).length = room.players.length - 1 :=
      List.length_eraseIdx_of_lt hi
    cases hlist : room.players.eraseIdx i with
    | nil => rw [hlist] at hlen2; simp at hlen2; omega
    | cons first others =>
      refine ⟨first, others, by rw [← hera, hlist], ?_⟩
      simp only [disconnect, disconnectLoop, hidx, hlist]

/-- A lookup in two lists of entries one after the other. -/
theorem lookupRoom_append (l1 l2 : List (RoomCode × Room)) (code : RoomCode) :
    lookupRoom (l1 ++ l2) code
      = match lookupRoom l1 code with
        | some room => some room
        | none => lookupRoom l2 code := by
  induction l1 with
  | nil => rfl
  | cons e l1 ih =>
    rw [List.cons_append, lookupRoom_cons, lookupRoom_cons]
    by_cases hc : e.1 = code
    · rw [if_pos hc, if_pos hc]
    · rw [if_neg hc, if_neg hc]; exact ih

/-- A new key leaves what the other keys hold as it is. -/
theorem lookupRoom_insertRoom_ne (rooms : List (RoomCode × Room)) (code code2 : RoomCode)
    (room2 : Room) (hne : code2 ≠ code) :
    lookupRoom (insertRoom rooms code2 room2) code = lookupRoom rooms code := by
  unfold insertRoom
  rw [lookupRoom_append, lookupRoom_cons, if_neg hne]
  conv_rhs => rw [← List.takeWhile_append_dropWhile (fun e => visitedAfter code2 e.1) rooms,
    lookupRoom_append]

/-- A deleted key holds nothing, and the other keys hold what they held. -/
theorem lookupRoom_deleteRoom_self (rooms : List (RoomCode × Room)) (code : RoomCode) :
    lookupRoom (deleteRoom rooms code) code = none := by
  rw [lookupRoom_eq_none]
  intro e he
  unfold deleteRoom at he
  simpa using (List.mem_filter.mp he).2

theorem lookupRoom_deleteRoom_ne (rooms : List (RoomCode × Room)) (code code2 : RoomCode)
    (hne : code2 ≠ code) :
    lookupRoom (deleteRoom rooms code2) code = lookupRoom rooms code := by
  induction rooms with
  | nil => rfl
  | cons e rooms ih =>
    unfold deleteRoom at ih ⊢
    by_cases hc2 : e.1 = code2
    · have hc : ¬ e.1 = code := fun h => hne (hc2 ▸ h)
      rw [List.filter_cons_of_neg (by simpa using hc2), lookupRoom_cons, if_neg hc]
      exact ih
    · rw [List.filter_cons_of_pos (by simpa using hc2), lookupRoom_cons, lookupRoom_cons, ih]

/-- The room a key holds after the loop of `disconnect` is the room it held
before, with the game state it had. -/
theorem lookupRoom_disconnectLoop (socketId : Nat) (code : RoomCode) (room2 : Room) :
    ∀ rooms : List (RoomCode × Room), (rooms.map Prod.fst).Nodup →
      lookupRoom (disconnectLoop socketId rooms).1 code = some room2 →
      ∃ room, lookupRoom rooms code = some room ∧ room2.gameState = room.gameState := by
  intro rooms
  induction rooms with
  | nil => intro _ h; simp [disconnectLoop, lookupRoom] at h
  | cons x rooms ih =>
    obtain ⟨c, r⟩ := x
    intro hnd h
    rw [List.map_cons, List.nodup_cons] at hnd
    unfold disconnectLoop at h
    rw [lookupRoom_cons]
    cases hidx : r.players.findIdx? (fun p => decide (p.id = socketId)) with
    | none =>
      rw [hidx] at h
      simp only at h
      rw [lookupRoom_cons] at h
      by_cases hc : c = code
      · simp only [hc, if_true, Option.some.injEq] at h ⊢
        exact ⟨r, rfl, by rw [h]⟩
      · simp only [hc, if_false] at h ⊢
        exact ih hnd.2 h
    | some i =>
      rw [hidx] at h
      simp only at h
      cases hera : r.players.eraseIdx i with
      | nil =>
        rw [hera] at h
        simp only at h
        by_cases hc : c = code
        · exfalso
          have hm := lookupRoom_mem _ _ _ h
          exact hnd.1 (List.mem_map.mpr ⟨(code, room2), hm, hc.symm⟩)
        · simp only [hc, if_false]
          exact ⟨room2, h, rfl⟩
      | cons first others =>
        rw [hera] at h
        simp only at h
        rw [lookupRoom_cons] at h
        by_cases hc : c = code
        · simp only [hc, if_true, Option.some.injEq] at h ⊢
          exact ⟨r, rfl, by rw [← h]⟩
        · simp only [hc, if_false] at h ⊢
          exact ⟨room2, h, rfl⟩

/-- What a key holds after an event: the room it held before with the game
state it had, a new room without a game state, or a game state written by
`start-game` on the request of the host of a room of two participants or more,
or by `game-action`. -/
theorem lookupRoom_handle (event : Event) (rooms rooms2 : List (RoomCode × Room))
    (out : List LobbyEmit) (code : RoomCode) (room2 : Room)
    (hnd : (rooms.map Prod.fst).Nodup) (hstep : handle event rooms = some (rooms2, out))
    (h2 : lookupRoom rooms2 code = some room2) :
    (∃ room, lookupRoom rooms code = some room ∧ room2.gameState = room.gameState) ∨
    (lookupRoom rooms code = none ∧ room2.gameState = none) ∨
    (∃ room draw, event = Event.startGame room.host code draw ∧
      lookupRoom rooms code = some room ∧ 2 ≤ room.players.length) ∨
    (∃ room socketId action gs gs2 o, event = Event.gameAction socketId code action ∧
      lookupRoom rooms code = some room ∧ room.gameState = some gs ∧
      gameAction socketId action gs = some (gs2, o) ∧ room2.gameState = some gs2) := by
  cases event with
  | createRoom socketId nickname c =>
    simp only [handle, createRoom, Option.some.injEq] at hstep
    cases hl : lookupRoom rooms c with
    | some r =>
      rw [hl] at hstep
      simp only [Prod.mk.injEq] at hstep
      rw [← hstep.1] at h2
      exact Or.inl ⟨room2, h2, rfl⟩
    | none =>
      rw [hl] at hstep
      simp only at hstep
      split at hstep
      · simp only [Prod.mk.injEq] at hstep
        rw [← hstep.1] at h2
        exact Or.inl ⟨room2, h2, rfl⟩
      · simp only [Prod.mk.injEq] at hstep
        rw [← hstep.1] at h2
        by_cases hc : c = code
        · subst hc
          have hm := lookupRoom_mem _ _ _ h2
          rw [mem_insertRoom] at hm
          rcases hm with hm | hm
          · simp only [Prod.mk.injEq] at hm
            right; left; exact ⟨hl, by rw [hm.2]⟩
          · exact absurd rfl ((lookupRoom_eq_none rooms c).mp hl _ hm)
        · rw [lookupRoom_insertRoom_ne _ _ _ _ hc] at h2
          exact Or.inl ⟨room2, h2, rfl⟩
  | joinRoom socketId nickname c =>
    simp only [handle, joinRoom] at hstep
    cases hl : lookupRoom rooms c with
    | none =>
      rw [hl] at hstep
      simp only at hstep
      split at hstep
      · simp at hstep
      · simp only [Option.some.injEq, Prod.mk.injEq] at hstep
        rw [← hstep.1] at h2
        exact Or.inl ⟨room2, h2, rfl⟩
    | some r =>
      rw [hl] at hstep
      simp only at hstep
      split at hstep
      · simp only [Option.some.injEq, Prod.mk.injEq] at hstep
        rw [← hstep.1] at h2
        exact Or.inl ⟨room2, h2, rfl⟩
      · simp only [Option.some.injEq, Prod.mk.injEq] at hstep
        rw [← hstep.1] at h2
        by_cases hc : c = code
        · subst hc
          rw [lookupRoom_setRoom _ _ _ _ hl] at h2
          simp only [Option.some.injEq] at h2
          exact Or.inl ⟨r, hl, by rw [← h2]⟩
        · rw [lookupRoom_setRoom_ne _ _ _ _ (fun h => hc h.symm)] at h2
          exact Or.inl ⟨room2, h2, rfl⟩
  | startGame socketId c draw =>
    simp only [handle, startGame, Option.some.injEq] at hstep
    cases hl : lookupRoom rooms c with
    | none =>
      rw [hl] at hstep
      simp only [Prod.mk.injEq] at hstep
      rw [← hstep.1] at h2
      exact Or.inl ⟨room2, h2, rfl⟩
    | some r =>
      rw [hl] at hstep
      simp only at hstep
      split at hstep
      · rename_i hhost
        split at hstep
        · simp only [Prod.mk.injEq] at hstep
          rw [← hstep.1] at h2
          exact Or.inl ⟨room2, h2, rfl⟩
        · rename_i hlen
          simp only [Prod.mk.injEq] at hstep
          rw [← hstep.1] at h2
          by_cases hc : c = code
          · subst hc
            right; right; left
            exact ⟨r, draw, by rw [hhost], hl, by omega⟩
          · rw [lookupRoom_setRoom_ne _ _ _ _ (fun h => hc h.symm)] at h2
            exact Or.inl ⟨room2, h2, rfl⟩
      · simp only [Prod.mk.injEq] at hstep
        rw [← hstep.1] at h2
        exact Or.inl ⟨room2, h2, rfl⟩
  | gameAction socketId c action =>
    simp only [handle, roomGameAction] at hstep
    cases hl : lookupRoom rooms c with
    | none =>
      rw [hl] at hstep
      simp only [Option.some.injEq, Prod.mk.injEq] at hstep
      rw [← hstep.1] at h2
      exact Or.inl ⟨room2, h2, rfl⟩
    | some r =>
      rw [hl] at hstep
      simp only at hstep
      cases hg : r.gameState with
      | none =>
        rw [hg] at hstep
        simp only [Option.some.injEq, Prod.mk.injEq] at hstep
        rw [← hstep.1] at h2
        exact Or.inl ⟨room2, h2, rfl⟩
      | some gs =>
        rw [hg] at hstep
        simp only at hstep
        cases ha : gameAction socketId action gs with
        | none => rw [ha] at hstep; simp at hstep
        | some res =>
          obtain ⟨gs2, o⟩ := res
          rw [ha] at hstep
          simp only [Option.some.injEq, Prod.mk.injEq] at hstep
          rw [← hstep.1] at h2
          by_cases hc : c = code
          · subst hc
            rw [lookupRoom_setRoom _ _ _ _ hl] at h2
            simp only [Option.some.injEq] at h2
            right; right; right
            exact ⟨r, socketId, action, gs, gs2, o, rfl, hl, hg, ha, by rw [← h2]⟩
          · rw [lookupRoom_setRoom_ne _ _ _ _ (fun h => hc h.symm)] at h2
            exact Or.inl ⟨room2, h2, rfl⟩
  | disconnect socketId =>
    simp only [handle, disconnect, Option.some.injEq] at hstep
    have h1 : (disconnectLoop socketId rooms).1 = rooms2 := by rw [hstep]
    rw [← h1] at h2
    exact Or.inl (lookupRoom_disconnectLoop socketId code room2 rooms hnd h2)
  | teardown c =>
    simp only [handle, teardown, Option.some.injEq, Prod.mk.injEq] at hstep
    cases hl : lookupRoom rooms c with
    | none =>
      rw [hl] at hstep
      simp only at hstep
      rw [← hstep.1] at h2
      exact Or.inl ⟨room2, h2, rfl⟩
    | some r =>
      rw [hl] at hstep
      simp only at hstep
      rw [← hstep.1] at h2
      by_cases hc : c = code
      · subst hc
        rw [lookupRoom_deleteRoom_self] at h2
        simp at h2
      · rw [lookupRoom_deleteRoom_ne _ _ _ hc] at h2
        exact Or.inl ⟨room2, h2, rfl⟩

/-- A write of the room a key holds, to that key, changes nothing. -/
theorem setRoom_self (rooms : List (RoomCode × Room)) (code : RoomCode) (room : Room)
    (hnd : (rooms.map Prod.fst).Nodup) (h : lookupRoom rooms code = some room) :
    setRoom rooms code room = rooms := by
  induction rooms with
  | nil => rfl
  | cons e rooms ih =>
    rw [List.map_cons, List.nodup_cons] at hnd
    rw [lookupRoom_cons] at h
    rw [setRoom_cons]
    by_cases hc : e.1 = code
    · rw [if_pos hc] at h
      rw [if_pos hc]
      simp only [Option.some.injEq] at h
      have he : (code, room) = e := by rw [← hc, ← h]
      rw [he]
      congr 1
      unfold setRoom
      conv_rhs => rw [← List.map_id rooms]
      refine List.map_congr_left fun x hx => ?_
      have hx1 : ¬ x.1 = code := fun hxc =>
        hnd.1 (List.mem_map.mpr ⟨x, hx, by rw [hxc, hc]⟩)
      rw [if_neg hx1]; rfl
    · rw [if_neg hc] at h
      rw [if_neg hc, ih hnd.2 h]

/-- No player of a game state that `start-game` builds stands on its
destination row. -/
theorem newGameState_no_winner (participants : List Participant) (turnIndex : Nat)
    (p : Player) (hp : p ∈ (newGameState participants turnIndex).players) :
    p.row ≠ p.destination := by
  have h := (atSeat_newGameState participants turnIndex p hp).1
  simp only [AtSeat, playerPositions, destinationRows, List.zip_cons_cons, List.zip_nil_right,
    List.mem_cons, List.mem_singleton, List.not_mem_nil, or_false, Prod.mk.injEq, Player.cell,
    Cell.mk.injEq] at h
  omega

/-- While the player on turn of the game state `gs2` sends no `game-action`
against the room `code` and nobody sends `start-game` against it, an event
keeps this: a game state that the room `code` holds is `gs2`. -/
theorem frozen_handle (gs2 : GameState) (winner : Player)
    (hturn2 : gs2.players[gs2.turnIndex]? = some winner) (code : RoomCode) (event : Event)
    (rooms rooms2 : List (RoomCode × Room)) (out : List LobbyEmit)
    (hnd : (rooms.map Prod.fst).Nodup)
    (hinv : ∀ room gs3, lookupRoom rooms code = some room → room.gameState = some gs3 → gs3 = gs2)
    (hstep : handle event rooms = some (rooms2, out))
    (hev1 : ∀ action, event ≠ Event.gameAction winner.id code action)
    (hev2 : ∀ socketId draw, event ≠ Event.startGame socketId code draw) :
    ∀ room gs3, lookupRoom rooms2 code = some room → room.gameState = some gs3 → gs3 = gs2 := by
  intro room2 gs3 h2 hg
  rcases lookupRoom_handle event rooms rooms2 out code room2 hnd hstep h2 with
    ⟨room, hl, hsame⟩ | hnone | ⟨room, draw, hev, _, _⟩ |
    ⟨room, socketId, action, gs, gs4, o, hev, hl, hgs, ha, hg4⟩
  · exact hinv room gs3 hl (by rw [← hsame, hg])
  · rw [hnone.2] at hg; simp at hg
  · exact absurd hev (hev2 _ _)
  · have hgs2 : gs = gs2 := hinv room gs hl hgs
    subst hgs2
    have hid : winner.id ≠ socketId := fun e => hev1 action (by rw [hev, e])
    unfold gameAction at ha
    rw [hturn2] at ha
    simp only [hid, ne_eq, not_false_eq_true, if_true, Option.some.injEq, Prod.mk.injEq] at ha
    rw [hg4] at hg
    simp only [Option.some.injEq] at hg
    rw [← hg, ← ha.1]

/-- The same over a run of events. -/
theorem frozen_runEvents (gs2 : GameState) (winner : Player)
    (hturn2 : gs2.players[gs2.turnIndex]? = some winner) (code : RoomCode)
    (events : List Event) :
    ∀ rooms rooms2 : List (RoomCode × Room), (rooms.map Prod.fst).Nodup →
      (∀ room gs3, lookupRoom rooms code = some room → room.gameState = some gs3 → gs3 = gs2) →
      (∀ ev ∈ events, (∀ action, ev ≠ Event.gameAction winner.id code action) ∧
        ∀ socketId draw, ev ≠ Event.startGame socketId code draw) →
      runEvents events rooms = some rooms2 →
      ∀ room gs3, lookupRoom rooms2 code = some room → room.gameState = some gs3 → gs3 = gs2 := by
  induction events with
  | nil =>
    intro rooms rooms2 _ hinv _ hrun
    simp only [runEvents, Option.some.injEq] at hrun
    rw [← hrun]; exact hinv
  | cons ev events ih =>
    intro rooms rooms2 hnd hinv hev hrun
    simp only [runEvents] at hrun
    cases hstep : handle ev rooms with
    | none => rw [hstep] at hrun; simp at hrun
    | some res =>
      obtain ⟨rooms1, out⟩ := res
      rw [hstep] at hrun
      simp only at hrun
      have h1 := hev ev (List.mem_cons_self _ _)
      exact ih rooms1 rooms2 (keys_nodup_handle ev rooms rooms1 out hnd hstep)
        (frozen_handle gs2 winner hturn2 code ev rooms rooms1 out hnd hinv hstep h1.1 h1.2)
        (fun e he => hev e (List.mem_cons_of_mem _ he)) hrun

/-! ### The claims -/

/-- C1. Wall safety: in any game state whose players stand on the board, a wall
that `isValidWallPlacement` accepts leaves every player a genuine path (cells on
the board, consecutive cells orthogonal neighbours, no step blocked under
`isMoveBlockedByWall` for the walls with the new wall appended) from its cell
to a cell of its destination row. -/
theorem wall_safety (w : Wall) (gs : GameState)
    (hboard : ∀ p ∈ gs.players, OnBoard p.cell)
    (hvalid : isValidWallPlacement w gs = true) :
    ∀ p ∈ gs.players, HasPathToRow (gs.walls ++ [w]) p.cell p.destination := by
  intro p hp
  unfold isValidWallPlacement at hvalid
  split at hvalid
  · simp at hvalid
  · split at hvalid
    · simp at hvalid
    · rw [List.all_eq_true] at hvalid
      exact (pathExistsForPlayer_iff_path p _ (hboard p hp)).mp (hvalid p hp)

theorem wall_safety_witness :
    (∀ p ∈ (newGameState [⟨10, "a"⟩, ⟨11, "b"⟩] 0).players, OnBoard p.cell) ∧
    isValidWallPlacement ⟨3, 3, Orientation.horizontal⟩ (newGameState [⟨10, "a"⟩, ⟨11, "b"⟩] 0)
      = true ∧
    ∀ p ∈ (newGameState [⟨10, "a"⟩, ⟨11, "b"⟩] 0).players,
      HasPathToRow ((newGameState [⟨10, "a"⟩, ⟨11, "b"⟩] 0).walls
        ++ [⟨3, 3, Orientation.horizontal⟩]) p.cell p.destination :=
  ⟨by decide, by decide,
    wall_safety ⟨3, 3, Orientation.horizontal⟩ (newGameState [⟨10, "a"⟩, ⟨11, "b"⟩] 0)
      (by decide) (by decide)⟩

/-- C2. Connectivity oracle: from a start cell with `0 ≤ row, col ≤ 8`, for any
walls and any destination row, the loop of `pathExistsForPlayer` ends within
its 83 iterations (any larger bound gives the same answer), the answer is
`true` exactly when a genuine path leads from the start cell to a cell of the
destination row and `false` exactly when none does; with no walls the answer
is `true` for every destination row in `0..8`. -/
theorem pathExistsForPlayer_correct (walls : List Wall) (player : Player)
    (hstart : 0 ≤ player.row ∧ player.row ≤ 8 ∧ 0 ≤ player.col ∧ player.col ≤ 8) :
    (∀ fuel, searchFuel ≤ fuel →
      pathSearch walls player.destination fuel [player.cell] [player.cell]
        = some (pathExistsForPlayer player walls)) ∧
    (pathExistsForPlayer player walls = true ↔
      HasPathToRow walls player.cell player.destination) ∧
    (pathExistsForPlayer player walls = false ↔
      ¬ HasPathToRow walls player.cell player.destination) ∧
    (0 ≤ player.destination ∧ player.destination ≤ 8 →
      pathExistsForPlayer player [] = true) := by
  have hb : OnBoard player.cell := by
    simp only [OnBoard, inBounds_iff, Player.cell]; omega
  refine ⟨fun fuel h => pathSearch_fuel walls player fuel h,
    pathExistsForPlayer_iff_path player walls hb, ?_, ?_⟩
  · rw [← pathExistsForPlayer_iff_path player walls hb]
    simp
  · intro hd
    rw [pathExistsForPlayer_iff_reach]
    exact ⟨⟨player.destination, player.col⟩,
      reach_row_nil player.row player.col player.destination (by omega) (by omega) (by omega),
      rfl⟩

theorem pathExistsForPlayer_correct_witness :
    (0 ≤ (4 : Int) ∧ (4 : Int) ≤ 8 ∧ 0 ≤ (0 : Int) ∧ (0 : Int) ≤ 8) ∧
    pathExistsForPlayer ⟨12, "c", 4, 0, 10, 8⟩ [⟨3, 3, Orientation.horizontal⟩] = true ∧
    (pathExistsForPlayer ⟨12, "c", 4, 0, 10, 8⟩ [⟨3, 3, Orientation.horizontal⟩] = true ↔
      HasPathToRow [⟨3, 3, Orientation.horizontal⟩] (⟨4, 0⟩ : Cell) 8) :=
  ⟨by decide, by decide,
    (pathExistsForPlayer_correct [⟨3, 3, Orientation.horizontal⟩] ⟨12, "c", 4, 0, 10, 8⟩
      (by decide)).2.1⟩

/-- C3 (fails on the code). The occupancy invariant does not hold: in a game of
three players started by `start-game`, eleven accepted moves lead to a state
in which the players with ids 10 and 11 both stand on the cell `(5,4)`; the
last move is a straight jump of player 10 from `(3,4)` over `(4,4)` onto the
cell where player 11 stands. -/
theorem occupancy_violated :
    runActions collisionEvents (newGameState threeParticipants 2) = some collisionState ∧
    Reachable collisionState ∧
    (⟨5, 4⟩ : Cell) ∈ getValidMoves ⟨10, "a", 3, 4, 10, 8⟩
      { walls := []
        players := [⟨10, "a", 3, 4, 10, 8⟩, ⟨11, "b", 5, 4, 10, 0⟩, ⟨12, "c", 4, 4, 10, 8⟩]
        turnIndex := 0 } ∧
    ∃ p ∈ collisionState.players, ∃ q ∈ collisionState.players,
      p.id ≠ q.id ∧ p.cell = q.cell := by
  have hrun : runActions collisionEvents (newGameState threeParticipants 2)
      = some collisionState := by decide
  refine ⟨hrun, ?_, by decide, ⟨10, "a", 5, 4, 10, 8⟩, by decide, ⟨11, "b", 5, 4, 10, 0⟩,
    by decide, by decide, by decide⟩
  exact reachable_runActions collisionEvents _ _
    (Reachable.start threeParticipants 2 (by decide) (by decide) (by decide) (by decide)) hrun

/-- C4. Path invariant of a session: in every game state reachable from a
`start-game` state by `game-action` events, every player has a genuine path,
under the current walls, from its cell to a cell of its destination row; the
handler returns on every further `game-action`, and whatever a `move` leaves
behind has the property again, so no accepted pawn move (step, jump or
sidestep) cuts a pawn off. -/
theorem path_invariant (gs : GameState) (h : Reachable gs) :
    (∀ p ∈ gs.players, HasPathToRow gs.walls p.cell p.destination) ∧
    (∀ (socketId : Nat) (action : Action),
      ∃ gs2 out, gameAction socketId action gs = some (gs2, out)) ∧
    (∀ (socketId : Nat) (row col : Int) (gs2 : GameState) (out : List Emit),
      gameAction socketId (Action.move row col) gs = some (gs2, out) →
      ∀ p ∈ gs2.players, HasPathToRow gs2.walls p.cell p.destination) := by
  have key : ∀ gs, Reachable gs →
      ∀ p ∈ gs.players, HasPathToRow gs.walls p.cell p.destination := by
    intro gs h p hp
    obtain ⟨hb, hr⟩ := pathInv_reachable gs h p hp
    exact (hasPathToRow_iff_reach gs.walls p.cell p.destination hb).mpr hr
  exact ⟨key gs h, gameAction_isSome_of_reachable gs h, fun socketId row col gs2 out hstep =>
    key gs2 (Reachable.step gs gs2 socketId (Action.move row col) out h hstep)⟩

theorem path_invariant_witness :
    Reachable collisionState ∧
    ∀ p ∈ collisionState.players, HasPathToRow collisionState.walls p.cell p.destination :=
  have hr : Reachable collisionState :=
    reachable_runActions collisionEvents _ _
      (Reachable.start threeParticipants 2 (by decide) (by decide) (by decide) (by decide))
      (by decide)
  ⟨hr, (path_invariant collisionState hr).1⟩

/-- C5. Wall legality: for a horizontal or vertical candidate `w`,
`isValidWallPlacement` answers `true` exactly when (1) the anchor of `w` has row
and column in `0..7`, (2) no existing wall has the anchor of `w`, whatever its
orientation, (3) no existing wall of the orientation of `w` lies on the line of
`w` (same row if horizontal, same column if vertical) with the other
coordinate less than 2 away, and (4) `pathExistsForPlayer` answers `true` for
every player on the walls with `w` appended.  On a freshly started game the
player on turn can place the horizontal wall `(3,3)`; after that the vertical
wall `(3,3)` and the horizontal wall `(3,4)` are refused and the horizontal
wall `(3,5)` is accepted. -/
theorem isValidWallPlacement_iff :
    (∀ (w : Wall) (gs : GameState),
      w.orientation = Orientation.horizontal ∨ w.orientation = Orientation.vertical →
      (isValidWallPlacement w gs = true ↔
        (0 ≤ w.row ∧ w.row ≤ 7 ∧ 0 ≤ w.col ∧ w.col ≤ 7) ∧
        (∀ v ∈ gs.walls, ¬ (v.row = w.row ∧ v.col = w.col)) ∧
        (∀ v ∈ gs.walls, v.orientation = w.orientation →
          ¬ ((w.orientation = Orientation.horizontal ∧ v.row = w.row ∧ |v.col - w.col| < 2) ∨
             (w.orientation = Orientation.vertical ∧ v.col = w.col ∧ |v.row - w.row| < 2))) ∧
        (∀ p ∈ gs.players, pathExistsForPlayer p (gs.walls ++ [w]) = true))) ∧
    (∀ (participants : List Participant) (turnIndex : Nat) (player : Player),
      2 ≤ participants.length ∧ participants.length ≤ 4 →
      (newGameState participants turnIndex).players[turnIndex]? = some player →
      ∃ gs1 : GameState,
        gameAction player.id (Action.placeWall ⟨3, 3, Orientation.horizontal⟩)
          (newGameState participants turnIndex) = some (gs1, [Emit.updateGameState gs1]) ∧
        gs1.walls = [⟨3, 3, Orientation.horizontal⟩] ∧
        isValidWallPlacement ⟨3, 3, Orientation.vertical⟩ gs1 = false ∧
        isValidWallPlacement ⟨3, 4, Orientation.horizontal⟩ gs1 = false ∧
        isValidWallPlacement ⟨3, 5, Orientation.horizontal⟩ gs1 = true) := by
  constructor
  · intro w gs _
    rw [isValidWallPlacement_eq]
    constructor
    · rintro ⟨hb, hc, hp⟩
      refine ⟨hb, ?_, ?_, hp⟩
      · intro v hv h
        have := hc v hv
        rw [(wallCollides_iff w v).mpr (Or.inl h)] at this
        exact absurd this (by simp)
      · intro v hv ho h
        have := hc v hv
        rw [(wallCollides_iff w v).mpr (Or.inr ⟨ho, h⟩)] at this
        exact absurd this (by simp)
    · rintro ⟨hb, h2, h3, hp⟩
      refine ⟨hb, ?_, hp⟩
      intro v hv
      by_contra hcv
      rcases (wallCollides_iff w v).mp (by simpa using hcv) with h | ⟨ho, h⟩
      · exact h2 v hv h
      · exact h3 v hv ho h
  · intro participants turnIndex player _ hpl
    have hmem : player ∈ (newGameState participants turnIndex).players := List.getElem?_mem hpl
    obtain ⟨hseat, hwl⟩ := atSeat_newGameState participants turnIndex player hmem
    have hpos : ¬ player.wallsLeft ≤ 0 := by rw [hwl]; split <;> omega
    have hv0 : isValidWallPlacement ⟨3, 3, Orientation.horizontal⟩
        (newGameState participants turnIndex) = true := by
      rw [isValidWallPlacement_eq]
      refine ⟨by decide, fun v hv => by simp [newGameState] at hv, ?_⟩
      intro p hp
      exact (atSeat_paths p (atSeat_newGameState participants turnIndex p hp).1).1
    refine ⟨(nextTurn { newGameState participants turnIndex with
      walls := (newGameState participants turnIndex).walls ++ [⟨3, 3, Orientation.horizontal⟩]
      players := (newGameState participants turnIndex).players.set
        (newGameState participants turnIndex).turnIndex
        { player with wallsLeft := player.wallsLeft - 1 } }).1, ?_, ?_, ?_, ?_, ?_⟩
    · unfold gameAction
      have hpl2 : (newGameState participants turnIndex).players[
          (newGameState participants turnIndex).turnIndex]? = some player := hpl
      rw [hpl2]
      simp only [ne_eq, not_true_eq_false, if_false, hpos, hv0, if_true, nextTurn]
    · simp [newGameState, nextTurn]
    · cases h : isValidWallPlacement ⟨3, 3, Orientation.vertical⟩ _ with
      | false => rfl
      | true =>
        have := ((isValidWallPlacement_eq _ _).mp h).2.1 ⟨3, 3, Orientation.horizontal⟩
          (by simp [newGameState, nextTurn])
        exact absurd this (by decide)
    · cases h : isValidWallPlacement ⟨3, 4, Orientation.horizontal⟩ _ with
      | false => rfl
      | true =>
        have := ((isValidWallPlacement_eq _ _).mp h).2.1 ⟨3, 3, Orientation.horizontal⟩
          (by simp [newGameState, nextTurn])
        exact absurd this (by decide)
    · rw [isValidWallPlacement_eq]
      refine ⟨by decide, ?_, ?_⟩
      · intro v hv
        simp only [newGameState, nextTurn, List.nil_append, List.mem_singleton] at hv
        subst hv
        decide
      · intro p hp
        have hs : AtSeat p := by
          rcases List.mem_or_eq_of_mem_set hp with hp | rfl
          · exact (atSeat_newGameState participants turnIndex p hp).1
          · exact hseat
        exact (atSeat_paths p hs).2

theorem isValidWallPlacement_iff_witness :
    ((⟨3, 5, Orientation.horizontal⟩ : Wall).orientation = Orientation.horizontal ∨
      (⟨3, 5, Orientation.horizontal⟩ : Wall).orientation = Orientation.vertical) ∧
    isValidWallPlacement ⟨3, 5, Orientation.horizontal⟩ oneWallState = true ∧
    (∀ p ∈ oneWallState.players,
      pathExistsForPlayer p (oneWallState.walls ++ [⟨3, 5, Orientation.horizontal⟩]) = true) ∧
    ((newGameState [⟨10, "a"⟩, ⟨11, "b"⟩] 0).players[0]? = some ⟨10, "a", 0, 4, 10, 8⟩) ∧
    ∃ gs1 : GameState,
      gameAction 10 (Action.placeWall ⟨3, 3, Orientation.horizontal⟩)
        (newGameState [⟨10, "a"⟩, ⟨11, "b"⟩] 0) = some (gs1, [Emit.updateGameState gs1]) ∧
      gs1.walls = [⟨3, 3, Orientation.horizontal⟩] ∧
      isValidWallPlacement ⟨3, 3, Orientation.vertical⟩ gs1 = false ∧
      isValidWallPlacement ⟨3, 4, Orientation.horizontal⟩ gs1 = false ∧
      isValidWallPlacement ⟨3, 5, Orientation.horizontal⟩ gs1 = true :=
  ⟨Or.inl rfl, by decide,
    ((isValidWallPlacement_iff.1 ⟨3, 5, Orientation.horizontal⟩ oneWallState (Or.inl rfl)).mp
      (by decide)).2.2.2,
    by decide,
    isValidWallPlacement_iff.2 [⟨10, "a"⟩, ⟨11, "b"⟩] 0 ⟨10, "a", 0, 4, 10, 8⟩
      ⟨by decide, by decide⟩ (by decide)⟩

/-- C6. Jump and sidestep rule of `getValidMoves`: when the neighbour cell in a
direction is on the board, not walled off from the player's cell and occupied
by a player, then (a) that cell is not in the result; (b) if the cell two steps
away is on the board and not walled off from the neighbour, it is in the result
and is all that the direction contributes; (c) otherwise the cell two steps
away is not in the result, and each of the two cells beside the neighbour,
perpendicular to the direction, is in the result when it is on the board and
not walled off from the neighbour.  Pawn `(3,4)`, opponent `(4,4)`: with no
walls the result has `(5,4)` and not `(4,4)`; with a horizontal wall at `(4,4)`
it has `(4,3)` and `(4,5)` and not `(5,4)`. -/
theorem getValidMoves_jump_rule :
    (∀ (gs : GameState) (player : Player) (d : Int × Int), d ∈ directions →
      inBounds (player.row + d.1) (player.col + d.2) = true →
      isMoveBlockedByWall player.row player.col (player.row + d.1) (player.col + d.2)
        gs.walls = false →
      (∃ q ∈ gs.players, q.row = player.row + d.1 ∧ q.col = player.col + d.2) →
      (⟨player.row + d.1, player.col + d.2⟩ : Cell) ∉ getValidMoves player gs ∧
      (JumpOpen player gs d →
        (⟨player.row + d.1 + d.1, player.col + d.2 + d.2⟩ : Cell) ∈ getValidMoves player gs ∧
        directionMoves player gs d = [⟨player.row + d.1 + d.1, player.col + d.2 + d.2⟩]) ∧
      (¬ JumpOpen player gs d →
        (⟨player.row + d.1 + d.1, player.col + d.2 + d.2⟩ : Cell) ∉ getValidMoves player gs ∧
        ∀ e ∈ sideSteps d,
          inBounds (player.row + d.1 + e.1) (player.col + d.2 + e.2) = true →
          isMoveBlockedByWall (player.row + d.1) (player.col + d.2)
            (player.row + d.1 + e.1) (player.col + d.2 + e.2) gs.walls = false →
          (⟨player.row + d.1 + e.1, player.col + d.2 + e.2⟩ : Cell) ∈ getValidMoves player gs)) ∧
    ((⟨5, 4⟩ : Cell) ∈ getValidMoves ⟨10, "a", 3, 4, 10, 8⟩ jumpState ∧
      (⟨4, 4⟩ : Cell) ∉ getValidMoves ⟨10, "a", 3, 4, 10, 8⟩ jumpState) ∧
    ((⟨4, 3⟩ : Cell) ∈ getValidMoves ⟨10, "a", 3, 4, 10, 8⟩ sidestepState ∧
      (⟨4, 5⟩ : Cell) ∈ getValidMoves ⟨10, "a", 3, 4, 10, 8⟩ sidestepState ∧
      (⟨5, 4⟩ : Cell) ∉ getValidMoves ⟨10, "a", 3, 4, 10, 8⟩ sidestepState) := by
  refine ⟨?_, by decide, by decide⟩
  intro gs player d hd hb hw hocc
  refine ⟨neighbour_not_mem_getValidMoves player gs d hd hocc, ?_, ?_⟩
  · intro hj
    have hdm := directionMoves_jump player gs d hb hw hocc hj
    refine ⟨(mem_getValidMoves player gs _).mpr ⟨d, hd, ?_⟩, hdm⟩
    rw [hdm]
    exact List.mem_singleton.mpr rfl
  · intro hj
    refine ⟨jump_not_mem_getValidMoves player gs d hj, ?_⟩
    intro e he hsb hsw
    refine (mem_getValidMoves player gs _).mpr ⟨d, hd, ?_⟩
    rw [mem_directionMoves]
    exact ⟨hb, hw, Or.inr (Or.inr ⟨hocc, hj, e, he, rfl, hsb, hsw⟩)⟩

theorem getValidMoves_jump_rule_witness :
    ((1, 0) : Int × Int) ∈ directions ∧
    (∃ q ∈ sidestepState.players, q.row = 3 + 1 ∧ q.col = 4 + 0) ∧
    ¬ JumpOpen ⟨10, "a", 3, 4, 10, 8⟩ sidestepState (1, 0) ∧
    (⟨3 + 1, 4 + 0⟩ : Cell) ∉ getValidMoves ⟨10, "a", 3, 4, 10, 8⟩ sidestepState ∧
    (⟨3 + 1 + 1, 4 + 0 + 0⟩ : Cell) ∉ getValidMoves ⟨10, "a", 3, 4, 10, 8⟩ sidestepState :=
  have h := getValidMoves_jump_rule.1 sidestepState ⟨10, "a", 3, 4, 10, 8⟩ (1, 0) (by decide)
    (by decide) (by decide) ⟨⟨11, "b", 4, 4, 10, 0⟩, by decide, by decide, by decide⟩
  have hj : ¬ JumpOpen ⟨10, "a", 3, 4, 10, 8⟩ sidestepState (1, 0) := by
    unfold JumpOpen; decide
  ⟨by decide, ⟨⟨11, "b", 4, 4, 10, 0⟩, by decide, by decide, by decide⟩, hj, h.1, (h.2.2 hj).1⟩

/-- C7. Turn exclusivity: in a game in progress, a `game-action` of any type
and payload sent by a connection whose id is not the id of
`players[turnIndex]` leaves the game state (walls, players, `turnIndex`) as it
is, and the only message sent is an error message to that connection. -/
theorem turn_exclusivity (gs : GameState) (player : Player) (socketId : Nat) (action : Action)
    (hturn : gs.players[gs.turnIndex]? = some player) (hid : player.id ≠ socketId) :
    gameAction socketId action gs
      = some (gs, [Emit.errorMessage socketId "당신의 턴이 아닙니다."]) := by
  unfold gameAction
  rw [hturn]
  simp only [hid, ne_eq, not_false_eq_true, if_true]

theorem turn_exclusivity_witness :
    oneWallState.players[oneWallState.turnIndex]? = some ⟨11, "b", 8, 4, 10, 0⟩ ∧
    (⟨11, "b", 8, 4, 10, 0⟩ : Player).id ≠ 10 ∧
    gameAction 10 (Action.move 1 4) oneWallState
      = some (oneWallState, [Emit.errorMessage 10 "당신의 턴이 아닙니다."]) :=
  ⟨by decide, by decide,
    turn_exclusivity oneWallState ⟨11, "b", 8, 4, 10, 0⟩ 10 (Action.move 1 4) (by decide)
      (by decide)⟩

/-- C8 (as stated, fails on the code). A finished session is not frozen: in a
two-player game started by `start-game`, fifteen accepted moves end with
player 10 reaching its destination row (`game-over` is sent); the `place-wall`
action player 10 sends next is accepted and changes the walls, that player's
`wallsLeft` and `turnIndex`. -/
theorem finished_session_not_frozen :
    runActions winEvents.dropLast (newGameState twoParticipants 0) = some beforeWinState ∧
    gameAction 10 (Action.move 8 4) beforeWinState = some (wonState, [Emit.gameOver "a"]) ∧
    gameAction 10 (Action.placeWall ⟨0, 0, Orientation.horizontal⟩) wonState
      = some (afterWonState, [Emit.updateGameState afterWonState]) ∧
    afterWonState ≠ wonState := by
  refine ⟨by decide, by decide, by decide, by decide⟩

/-- C8 (amended). After an accepted move that puts the moving player on its
destination row (`game-over` sent), the winner is still the player on turn and
nothing records that the game is over.  Every `game-action` sent by a
connection with another id is answered with an error to that connection and
leaves the game state, and the whole directory, unchanged; so does any
sequence of such actions.  In a directory in which a room holds that game
state, every event leaves the room with that game state, or deletes the room,
with two exceptions: a `game-action` against the room by the winner, and a
`start-game` against the room by its host when it has two participants or
more.  Over a run of events with no `game-action` by the winner against the
room and no `start-game` against it, a game state that the room holds is the
one the winning move left.  The `start-game` of the second exception is
carried out: it replaces the game state by a new one, which is a different
one. -/
theorem finished_session_frozen_for_others (gs gs2 : GameState) (player : Player)
    (row col : Int)
    (hturn : gs.players[gs.turnIndex]? = some player)
    (hwin : gameAction player.id (Action.move row col) gs
      = some (gs2, [Emit.gameOver player.nickname])) :
    gs2.turnIndex = gs.turnIndex ∧
    gs2.players[gs2.turnIndex]? = some { player with row := row, col := col } ∧
    row = player.destination ∧
    (∀ (socketId : Nat) (action : Action), socketId ≠ player.id →
      gameAction socketId action gs2
        = some (gs2, [Emit.errorMessage socketId "당신의 턴이 아닙니다."])) ∧
    (∀ events : List (Nat × Action), (∀ ev ∈ events, ev.1 ≠ player.id) →
      runActions events gs2 = some gs2) ∧
    (∀ (rooms : List (RoomCode × Room)) (code : RoomCode) (room : Room) (socketId : Nat)
      (action : Action),
      (rooms.map Prod.fst).Nodup → lookupRoom rooms code = some room →
      room.gameState = some gs2 → socketId ≠ player.id →
      handle (Event.gameAction socketId code action) rooms
        = some (rooms,
            [LobbyEmit.game code (Emit.errorMessage socketId "당신의 턴이 아닙니다.")])) ∧
    (∀ (rooms rooms2 : List (RoomCode × Room)) (code : RoomCode) (room : Room) (event : Event)
      (out : List LobbyEmit),
      (rooms.map Prod.fst).Nodup → lookupRoom rooms code = some room →
      room.gameState = some gs2 → handle event rooms = some (rooms2, out) →
      (∀ action, event ≠ Event.gameAction player.id code action) →
      (∀ draw, event = Event.startGame room.host code draw → room.players.length < 2) →
      lookupRoom rooms2 code = none ∨
        ∃ room2, lookupRoom rooms2 code = some room2 ∧ room2.gameState = some gs2) ∧
    (∀ (events : List Event) (rooms rooms2 : List (RoomCode × Room)) (code : RoomCode),
      (rooms.map Prod.fst).Nodup →
      (∀ room gs3, lookupRoom rooms code = some room → room.gameState = some gs3 → gs3 = gs2) →
      (∀ ev ∈ events, (∀ action, ev ≠ Event.gameAction player.id code action) ∧
        ∀ socketId draw, ev ≠ Event.startGame socketId code draw) →
      runEvents events rooms = some rooms2 →
      ∀ room gs3, lookupRoom rooms2 code = some room → room.gameState = some gs3 → gs3 = gs2) ∧
    (∀ (rooms : List (RoomCode × Room)) (code : RoomCode) (room : Room) (draw : ℚ),
      lookupRoom rooms code = some room → room.gameState = some gs2 →
      2 ≤ room.players.length →
      ∃ rooms2 out room2 gs3,
        handle (Event.startGame room.host code draw) rooms = some (rooms2, out) ∧
        lookupRoom rooms2 code = some room2 ∧ room2.gameState = some gs3 ∧ gs3 ≠ gs2) := by
  have hlt : gs.turnIndex < gs.players.length := (List.getElem?_eq_some.mp hturn).1
  have hshape : gs2 = { gs with
      players := gs.players.set gs.turnIndex { player with row := row, col := col } } ∧
      row = player.destination := by
    unfold gameAction at hwin
    rw [hturn] at hwin
    simp only [ne_eq, not_true_eq_false, if_false] at hwin
    split at hwin
    · simp at hwin
    · split at hwin
      · rename_i hrow
        simp only [Option.some.injEq, Prod.mk.injEq] at hwin
        exact ⟨hwin.1.symm, hrow⟩
      · simp [nextTurn] at hwin
  obtain ⟨hgs2, hrow⟩ := hshape
  have hturn2 : gs2.players[gs2.turnIndex]? = some { player with row := row, col := col } := by
    rw [hgs2]
    exact List.getElem?_set_self hlt
  have hothers : ∀ (socketId : Nat) (action : Action), socketId ≠ player.id →
      gameAction socketId action gs2
        = some (gs2, [Emit.errorMessage socketId "당신의 턴이 아닙니다."]) := by
    intro socketId action hid
    unfold gameAction
    rw [hturn2]
    have : player.id ≠ socketId := fun e => hid e.symm
    simp only [this, ne_eq, not_false_eq_true, if_true]
  refine ⟨by rw [hgs2], hturn2, hrow, hothers, ?_, ?_, ?_, ?_, ?_⟩
  · exact runActions_others gs2 { player with row := row, col := col } hturn2
  · intro rooms code room socketId action hnd hl hg hid
    have hroom : ({ room with gameState := some gs2 } : Room) = room := by
      cases room; simp only [Room.mk.injEq, true_and] at hg ⊢; exact hg.symm
    simp only [handle, roomGameAction, hl, hg, hothers socketId action hid, hroom,
      setRoom_self rooms code room hnd hl, List.map_cons, List.map_nil]
  · intro rooms rooms2 code room event out hnd hl hg hstep hev1 hev2
    cases h2 : lookupRoom rooms2 code with
    | none => exact Or.inl rfl
    | some room2 =>
      refine Or.inr ⟨room2, rfl, ?_⟩
      rcases lookupRoom_handle event rooms rooms2 out code room2 hnd hstep h2 with
        ⟨room1, hl1, hsame⟩ | hnone | ⟨room1, draw, hev, hl1, hlen⟩ |
        ⟨room1, socketId, action, gs3, gs4, o, hev, hl1, hgs, ha, hg4⟩
      · rw [hl] at hl1
        simp only [Option.some.injEq] at hl1
        rw [hsame, ← hl1, hg]
      · rw [hl] at hnone
        simp at hnone
      · rw [hl] at hl1
        simp only [Option.some.injEq] at hl1
        subst hl1
        have := hev2 draw hev
        omega
      · rw [hl] at hl1
        simp only [Option.some.injEq] at hl1
        subst hl1
        rw [hg] at hgs
        simp only [Option.some.injEq] at hgs
        subst hgs
        have hid : socketId ≠ player.id := fun e => hev1 action (by rw [hev, e])
        rw [hothers socketId action hid] at ha
        simp only [Option.some.injEq, Prod.mk.injEq] at ha
        rw [hg4, ← ha.1]
  · intro events rooms rooms2 code
    exact frozen_runEvents gs2 { player with row := row, col := col } hturn2 code events
      rooms rooms2
  · intro rooms code room draw hl hg hlen
    have hlen2 : ¬ room.players.length < 2 := by omega
    refine ⟨setRoom rooms code { room with gameState := some (newGameState room.players
        ⌊roundDouble (draw * (room.players.length : ℚ))⌋₊) },
      [LobbyEmit.gameStarted code (newGameState room.players
        ⌊roundDouble (draw * (room.players.length : ℚ))⌋₊)],
      { room with gameState := some (newGameState room.players
        ⌊roundDouble (draw * (room.players.length : ℚ))⌋₊) },
      newGameState room.players ⌊roundDouble (draw * (room.players.length : ℚ))⌋₊,
      ?_, lookupRoom_setRoom rooms code room _ hl, rfl, ?_⟩
    · simp only [handle, startGame, hl, if_true, hlen2, if_false]
    · intro heq
      have hmem : ({ player with row := row, col := col } : Player) ∈ gs2.players :=
        List.getElem?_mem hturn2
      rw [← heq] at hmem
      exact newGameState_no_winner _ _ _ hmem hrow

theorem finished_session_frozen_for_others_witness :
    beforeWinState.players[beforeWinState.turnIndex]? = some ⟨10, "a", 7, 4, 10, 8⟩ ∧
    gameAction 10 (Action.move 8 4) beforeWinState = some (wonState, [Emit.gameOver "a"]) ∧
    runActions [(11, Action.move 8 2), (12, Action.placeWall ⟨0, 0, Orientation.horizontal⟩),
      (11, Action.other)] wonState = some wonState ∧
    handle (Event.gameAction 11 (RoomCode.text "A") (Action.move 8 2)) wonRooms
      = some (wonRooms,
          [LobbyEmit.game (RoomCode.text "A") (Emit.errorMessage 11 "당신의 턴이 아닙니다.")]) ∧
    (lookupRoom (disconnect 11 wonRooms).1 (RoomCode.text "A") = none ∨
      ∃ room2, lookupRoom (disconnect 11 wonRooms).1 (RoomCode.text "A") = some room2 ∧
        room2.gameState = some wonState) ∧
    (∃ rooms2 out room2 gs3,
      handle (Event.startGame 10 (RoomCode.text "A") (1 / 2)) wonRooms = some (rooms2, out) ∧
      lookupRoom rooms2 (RoomCode.text "A") = some room2 ∧ room2.gameState = some gs3 ∧
      gs3 ≠ wonState) :=
  have h := finished_session_frozen_for_others beforeWinState wonState ⟨10, "a", 7, 4, 10, 8⟩ 8 4
    (by decide) (by decide)
  ⟨by decide, by decide, h.2.2.2.2.1 _ (by decide),
    h.2.2.2.2.2.1 wonRooms (RoomCode.text "A") ⟨twoParticipants, 10, some wonState⟩ 11
      (Action.move 8 2) (by decide) (by decide) rfl (by decide),
    h.2.2.2.2.2.2.1 wonRooms (disconnect 11 wonRooms).1 (RoomCode.text "A")
      ⟨twoParticipants, 10, some wonState⟩ (Event.disconnect 11) (disconnect 11 wonRooms).2
      (by decide) (by decide) rfl rfl (by intro a e; cases e) (by intro d e; cases e),
    h.2.2.2.2.2.2.2.2 wonRooms (RoomCode.text "A") ⟨twoParticipants, 10, some wonState⟩ (1 / 2)
      (by decide) rfl (by decide)⟩

/-- C9. Move action: for a `move` to the cell `(row, col)` sent by the player on
turn, if the cell is not in `getValidMoves` the game state is unchanged and the
only message is an error to the sender; if it is, the player's cell becomes
`(row, col)`, the walls, the other players and every `wallsLeft` are unchanged,
and the turn passes to `(turnIndex + 1) % players.length` with a broadcast of
the state when `row` is not the player's destination row, whereas when it is
`turnIndex` stays and `game-over` is sent with the player's nickname. -/
theorem move_postcondition (gs : GameState) (player : Player) (row col : Int)
    (hturn : gs.players[gs.turnIndex]? = some player) :
    ((⟨row, col⟩ : Cell) ∉ getValidMoves player gs →
      gameAction player.id (Action.move row col) gs
        = some (gs, [Emit.errorMessage player.id "유효하지 않은 움직임입니다."])) ∧
    ((⟨row, col⟩ : Cell) ∈ getValidMoves player gs →
      ∃ (gs2 : GameState) (out : List Emit),
        gameAction player.id (Action.move row col) gs = some (gs2, out) ∧
        gs2.players = gs.players.set gs.turnIndex { player with row := row, col := col } ∧
        gs2.players[gs.turnIndex]? = some { player with row := row, col := col } ∧
        (∀ i : Nat, i ≠ gs.turnIndex → gs2.players[i]? = gs.players[i]?) ∧
        (∀ i : Nat, (gs2.players[i]?).map Player.wallsLeft = (gs.players[i]?).map Player.wallsLeft) ∧
        gs2.walls = gs.walls ∧
        (row ≠ player.destination →
          gs2.turnIndex = (gs.turnIndex + 1) % gs.players.length ∧
          out = [Emit.updateGameState gs2]) ∧
        (row = player.destination →
          gs2.turnIndex = gs.turnIndex ∧ out = [Emit.gameOver player.nickname])) := by
  have hlt : gs.turnIndex < gs.players.length := (List.getElem?_eq_some.mp hturn).1
  constructor
  · intro hnot
    unfold gameAction
    rw [hturn]
    simp only [ne_eq, not_true_eq_false, if_false]
    rw [← any_validMoves_iff] at hnot
    simp only [Bool.not_eq_true] at hnot
    simp only [hnot, Bool.not_false, if_true]
  · intro hmem
    have hany := (any_validMoves_iff (getValidMoves player gs) row col).mpr hmem
    have hset : (gs.players.set gs.turnIndex { player with row := row, col := col })[
        gs.turnIndex]? = some { player with row := row, col := col } := by
      rw [List.getElem?_set_self hlt]
    have hother : ∀ i : Nat, i ≠ gs.turnIndex →
        (gs.players.set gs.turnIndex { player with row := row, col := col })[i]?
          = gs.players[i]? := by
      intro i hi
      rw [List.getElem?_set_ne (Ne.symm hi)]
    have hwalls : ∀ i : Nat,
        ((gs.players.set gs.turnIndex { player with row := row, col := col })[i]?).map
          Player.wallsLeft = (gs.players[i]?).map Player.wallsLeft := by
      intro i
      by_cases hi : i = gs.turnIndex
      · subst hi; rw [hset, hturn]; rfl
      · rw [hother i hi]
    by_cases hwin : row = player.destination
    · subst hwin
      refine ⟨{ gs with
        players := gs.players.set gs.turnIndex
          { player with row := player.destination, col := col } },
        [Emit.gameOver player.nickname], ?_, rfl, hset, hother, hwalls, rfl,
        fun h => absurd rfl h, fun _ => ⟨rfl, rfl⟩⟩
      unfold gameAction
      rw [hturn]
      simp only [ne_eq, not_true_eq_false, if_false, hany, Bool.not_true, Bool.false_eq_true,
        if_true]
    · refine ⟨(nextTurn { gs with
        players := gs.players.set gs.turnIndex { player with row := row, col := col } }).1,
        _, ?_, rfl, hset, hother, hwalls, rfl, fun _ => ⟨?_, rfl⟩, fun h => absurd h hwin⟩
      · unfold gameAction
        rw [hturn]
        simp only [ne_eq, not_true_eq_false, if_false, hany, Bool.not_true, Bool.false_eq_true,
          hwin, nextTurn]
      · simp only [nextTurn, List.length_set]

theorem move_postcondition_witness :
    jumpState.players[jumpState.turnIndex]? = some ⟨10, "a", 3, 4, 10, 8⟩ ∧
    (⟨5, 4⟩ : Cell) ∈ getValidMoves ⟨10, "a", 3, 4, 10, 8⟩ jumpState ∧
    ∃ (gs2 : GameState) (out : List Emit),
      gameAction 10 (Action.move 5 4) jumpState = some (gs2, out) ∧
      gs2.players[0]? = some ⟨10, "a", 5, 4, 10, 8⟩ ∧ gs2.walls = jumpState.walls ∧
      gs2.turnIndex = 1 :=
  ⟨by decide, by decide,
    match (move_postcondition jumpState ⟨10, "a", 3, 4, 10, 8⟩ 5 4 (by decide)).2 (by decide) with
    | ⟨gs2, out, h1, _, h3, _, _, h6, h7, _⟩ => ⟨gs2, out, h1, h3, h6, (h7 (by decide)).1⟩⟩

/-- C10. Wall action: a `place-wall` with candidate `w` sent by the player on
turn is accepted exactly when that player has `wallsLeft > 0` and
`isValidWallPlacement` answers `true`.  When accepted, the new wall list is the
old one with `w` appended, that player's `wallsLeft` is one less, the other
players and every cell are unchanged, the turn passes to
`(turnIndex + 1) % players.length` and the state is broadcast; when refused,
the state is unchanged and the only message is an error to the sender.  In
every reachable game state every `wallsLeft` is at least 0. -/
theorem placeWall_postcondition :
    (∀ (gs : GameState) (player : Player) (w : Wall),
      gs.players[gs.turnIndex]? = some player →
      ((0 < player.wallsLeft ∧ isValidWallPlacement w gs = true) →
        ∃ gs2 : GameState,
          gameAction player.id (Action.placeWall w) gs
            = some (gs2, [Emit.updateGameState gs2]) ∧
          gs2.walls = gs.walls ++ [w] ∧
          gs2.players = gs.players.set gs.turnIndex
            { player with wallsLeft := player.wallsLeft - 1 } ∧
          gs2.players[gs.turnIndex]? = some { player with wallsLeft := player.wallsLeft - 1 } ∧
          (∀ i : Nat, i ≠ gs.turnIndex → gs2.players[i]? = gs.players[i]?) ∧
          (∀ i : Nat, (gs2.players[i]?).map Player.cell = (gs.players[i]?).map Player.cell) ∧
          gs2.turnIndex = (gs.turnIndex + 1) % gs.players.length) ∧
      (¬ (0 < player.wallsLeft ∧ isValidWallPlacement w gs = true) →
        ∃ text : String,
          gameAction player.id (Action.placeWall w) gs
            = some (gs, [Emit.errorMessage player.id text]))) ∧
    (∀ gs : GameState, Reachable gs → ∀ p ∈ gs.players, 0 ≤ p.wallsLeft) := by
  refine ⟨?_, wallsLeft_reachable⟩
  intro gs player w hturn
  have hlt : gs.turnIndex < gs.players.length := (List.getElem?_eq_some.mp hturn).1
  constructor
  · rintro ⟨hpos, hvalid⟩
    have hset : (gs.players.set gs.turnIndex { player with wallsLeft := player.wallsLeft - 1 })[
        gs.turnIndex]? = some { player with wallsLeft := player.wallsLeft - 1 } :=
      List.getElem?_set_self hlt
    have hother : ∀ i : Nat, i ≠ gs.turnIndex →
        (gs.players.set gs.turnIndex { player with wallsLeft := player.wallsLeft - 1 })[i]?
          = gs.players[i]? := by
      intro i hi
      rw [List.getElem?_set_ne (Ne.symm hi)]
    refine ⟨(nextTurn { gs with
      walls := gs.walls ++ [w]
      players := gs.players.set gs.turnIndex
        { player with wallsLeft := player.wallsLeft - 1 } }).1, ?_, rfl, rfl, hset, hother, ?_, ?_⟩
    · unfold gameAction
      rw [hturn]
      have : ¬ player.wallsLeft ≤ 0 := by omega
      simp only [ne_eq, not_true_eq_false, if_false, this, hvalid, if_true, nextTurn]
    · intro i
      by_cases hi : i = gs.turnIndex
      · subst hi
        show Option.map Player.cell (gs.players.set gs.turnIndex _)[gs.turnIndex]? = _
        rw [hset, hturn]; rfl
      · exact congrArg _ (hother i hi)
    · simp only [nextTurn, List.length_set]
  · intro hnot
    unfold gameAction
    rw [hturn]
    simp only [ne_eq, not_true_eq_false, if_false]
    by_cases hpos : player.wallsLeft ≤ 0
    · exact ⟨_, by rw [if_pos hpos]⟩
    · have hv : ¬ (isValidWallPlacement w gs = true) := fun hv => hnot ⟨by omega, hv⟩
      exact ⟨_, by rw [if_neg hpos, if_neg hv]⟩

theorem placeWall_postcondition_witness :
    oneWallState.players[oneWallState.turnIndex]? = some ⟨11, "b", 8, 4, 10, 0⟩ ∧
    (0 < (⟨11, "b", 8, 4, 10, 0⟩ : Player).wallsLeft ∧
      isValidWallPlacement ⟨3, 5, Orientation.horizontal⟩ oneWallState = true) ∧
    (∃ gs2 : GameState,
      gameAction 11 (Action.placeWall ⟨3, 5, Orientation.horizontal⟩) oneWallState
        = some (gs2, [Emit.updateGameState gs2]) ∧
      gs2.walls = oneWallState.walls ++ [⟨3, 5, Orientation.horizontal⟩]) ∧
    Reachable collisionState ∧
    ∀ p ∈ collisionState.players, 0 ≤ p.wallsLeft :=
  have hr : Reachable collisionState :=
    reachable_runActions collisionEvents _ _
      (Reachable.start threeParticipants 2 (by decide) (by decide) (by decide) (by decide))
      (by decide)
  ⟨by decide, ⟨by decide, by decide⟩,
    match (placeWall_postcondition.1 oneWallState ⟨11, "b", 8, 4, 10, 0⟩
      ⟨3, 5, Orientation.horizontal⟩ (by decide)).1 ⟨by decide, by decide⟩ with
    | ⟨gs2, h1, h2, _⟩ => ⟨gs2, h1, h2⟩,
    hr, placeWall_postcondition.2 collisionState hr⟩

/-- C11. Game start: a `start-game` request leaves the whole directory as it
is unless the room exists, the request comes from its host and the room has at
least 2 participants.  Then, for `n` participants (`2 ≤ n ≤ 4`) and a draw
that is a double in `[0, 1)`, only the game state of that room is replaced;
the new one has no walls, `n` players with the ids and nicknames of the
participants in join order, player `i` on the `i`-th of the cells `(0,4)`,
`(8,4)`, `(4,0)`, `(4,8)`, every `wallsLeft` 10 if `n < 4` and 5 if `n = 4`, and
as `turnIndex` the floor of the product `draw * n` rounded to a double, which
is below `n`. -/
theorem startGame_spec :
    (∀ (rooms : List (RoomCode × Room)) (socketId : Nat) (code : RoomCode) (draw : ℚ),
      (∀ room, lookupRoom rooms code = some room →
        room.host ≠ socketId ∨ room.players.length < 2) →
      (startGame socketId code draw rooms).1 = rooms) ∧
    (∀ (rooms : List (RoomCode × Room)) (socketId : Nat) (code : RoomCode) (draw : ℚ)
      (room : Room),
      lookupRoom rooms code = some room → room.host = socketId →
      2 ≤ room.players.length → room.players.length ≤ 4 →
      IsDouble draw → 0 ≤ draw → draw < 1 →
      ∃ gs : GameState,
        startGame socketId code draw rooms
          = (setRoom rooms code { room with gameState := some gs },
              [LobbyEmit.gameStarted code gs]) ∧
        lookupRoom (startGame socketId code draw rooms).1 code
          = some { room with gameState := some gs } ∧
        (∀ code2, code2 ≠ code →
          lookupRoom (startGame socketId code draw rooms).1 code2 = lookupRoom rooms code2) ∧
        gs.walls = [] ∧
        gs.players.length = room.players.length ∧
        gs.players.map (fun p => (p.id, p.nickname))
          = room.players.map (fun p => (p.id, p.nickname)) ∧
        (∀ (i : Nat) (p : Player), gs.players[i]? = some p →
          playerPositions[i]? = some p.cell ∧
          p.wallsLeft = if room.players.length < 4 then 10 else 5) ∧
        gs.turnIndex = ⌊roundDouble (draw * (room.players.length : ℚ))⌋₊ ∧
        gs.turnIndex < room.players.length) := by
  constructor
  · intro rooms socketId code draw h
    unfold startGame
    cases hl : lookupRoom rooms code with
    | none => rfl
    | some room =>
      simp only
      rcases h room hl with hh | hn
      · rw [if_neg hh]
      · by_cases hh : room.host = socketId
        · rw [if_pos hh, if_pos hn]
        · rw [if_neg hh]
  · intro rooms socketId code draw room hl hh h2 h4 hdbl _ hd1
    have hstart : startGame socketId code draw rooms
        = (setRoom rooms code
            { room with
              gameState := some (newGameState room.players
                ⌊roundDouble (draw * (room.players.length : ℚ))⌋₊) },
            [LobbyEmit.gameStarted code
              (newGameState room.players ⌊roundDouble (draw * (room.players.length : ℚ))⌋₊)]) := by
      unfold startGame
      rw [hl]
      simp only
      rw [if_pos hh, if_neg (by omega)]
    obtain ⟨hids, hseats⟩ := newGameState_players_spec room.players
      ⌊roundDouble (draw * (room.players.length : ℚ))⌋₊ h4
    refine ⟨newGameState room.players ⌊roundDouble (draw * (room.players.length : ℚ))⌋₊,
      hstart, ?_, ?_, rfl, newGameState_length _ _ h4, hids,
      fun i p h => ⟨(hseats i p h).1, (hseats i p h).2.2⟩, rfl,
      floor_roundDouble_lt draw _ hdbl hd1 h2 h4⟩
    · rw [hstart]
      exact lookupRoom_setRoom rooms code room _ hl
    · intro code2 hne
      rw [hstart]
      exact lookupRoom_setRoom_ne rooms code code2 _ hne

theorem startGame_spec_witness :
    lookupRoom lobbyRooms (RoomCode.text "B")
      = some { players := [⟨1, "a"⟩, ⟨2, "b"⟩], host := 1, gameState := none } ∧
    IsDouble (1 / 2) ∧ (0 : ℚ) ≤ 1 / 2 ∧ (1 / 2 : ℚ) < 1 ∧
    ∃ gs : GameState,
      lookupRoom (startGame 1 (RoomCode.text "B") (1 / 2) lobbyRooms).1 (RoomCode.text "B")
        = some { players := [⟨1, "a"⟩, ⟨2, "b"⟩], host := 1, gameState := some gs } ∧
      gs.walls = [] ∧ gs.players.length = 2 ∧ gs.turnIndex < 2 :=
  have hdbl : IsDouble (1 / 2) := ⟨1, -1, by norm_num, by norm_num, by norm_num, by norm_num⟩
  ⟨by decide, hdbl, by norm_num, by norm_num,
    match startGame_spec.2 lobbyRooms 1 (RoomCode.text "B") (1 / 2)
      { players := [⟨1, "a"⟩, ⟨2, "b"⟩], host := 1, gameState := none }
      (by decide) (by decide) (by decide) (by decide) hdbl (by norm_num) (by norm_num) with
    | ⟨gs, _, h2, _, h4, h5, _, _, _, h9⟩ => ⟨gs, h2, h4, h5, h9⟩⟩

/-- C12 (as stated, fails on the code). The seat on the left edge does not
have the right edge as its goal: the third player of a three-player game
starts at `(4,0)` with destination row 8; after nine accepted moves its move
to `(8,0)`, a cell of the left edge, is answered with `game-over`, and after
twenty-one accepted moves of another game its move to `(4,8)`, on the right
edge, just passes the turn. -/
theorem left_seat_goal_is_bottom_row :
    (newGameState threeParticipants 2).players[2]? = some ⟨12, "c", 4, 0, 10, 8⟩ ∧
    runActions leftSeatEvents (newGameState threeParticipants 2) = some leftSeatState ∧
    gameAction 12 (Action.move 8 0) leftSeatState
      = some (leftSeatWonState, [Emit.gameOver "c"]) ∧
    runActions crossingEvents (newGameState threeParticipants 2) = some crossingState ∧
    gameAction 12 (Action.move 4 8) crossingState
      = some (crossedState, [Emit.updateGameState crossedState]) := by
  refine ⟨by decide, by decide, by decide, by decide, by decide⟩

/-- C12 (amended). The four seats start on the four edges, at `(0,4)` (top),
`(8,4)` (bottom), `(4,0)` (left) and `(4,8)` (right), and the goal of a seat is
a destination row, 8, 0, 8 and 0 in this order, which stays with the seat for
the whole game: the top seat must reach the bottom row and the bottom seat the
top row, the left seat must reach the bottom row and the right seat the top
row.  An accepted move is answered with `game-over` exactly when its row is
the destination row of the player who moves. -/
theorem seat_goals :
    (∀ (participants : List Participant) (turnIndex i : Nat) (p : Player),
      participants.length ≤ 4 → (newGameState participants turnIndex).players[i]? = some p →
      (i = 0 ∧ p.cell = ⟨0, 4⟩ ∧ p.destination = 8) ∨
      (i = 1 ∧ p.cell = ⟨8, 4⟩ ∧ p.destination = 0) ∨
      (i = 2 ∧ p.cell = ⟨4, 0⟩ ∧ p.destination = 8) ∨
      (i = 3 ∧ p.cell = ⟨4, 8⟩ ∧ p.destination = 0)) ∧
    (∀ gs : GameState, Reachable gs → ∀ (i : Nat) (p : Player), gs.players[i]? = some p →
      destinationRows[i]? = some p.destination) ∧
    (∀ (gs : GameState) (player : Player) (row col : Int),
      gs.players[gs.turnIndex]? = some player → (⟨row, col⟩ : Cell) ∈ getValidMoves player gs →
      ((∃ gs2, gameAction player.id (Action.move row col) gs
          = some (gs2, [Emit.gameOver player.nickname])) ↔ row = player.destination)) := by
  refine ⟨?_, destination_of_reachable, ?_⟩
  · intro participants turnIndex i p h4 hp
    obtain ⟨hpos, hdest, _⟩ := (newGameState_players_spec participants turnIndex h4).2 i p hp
    rcases i with _ | _ | _ | _ | i
    · simp [playerPositions, destinationRows] at hpos hdest
      exact Or.inl ⟨rfl, hpos.symm, hdest.symm⟩
    · simp [playerPositions, destinationRows] at hpos hdest
      exact Or.inr (Or.inl ⟨rfl, hpos.symm, hdest.symm⟩)
    · simp [playerPositions, destinationRows] at hpos hdest
      exact Or.inr (Or.inr (Or.inl ⟨rfl, hpos.symm, hdest.symm⟩))
    · simp [playerPositions, destinationRows] at hpos hdest
      exact Or.inr (Or.inr (Or.inr ⟨rfl, hpos.symm, hdest.symm⟩))
    · simp [playerPositions] at hpos
  · intro gs player row col hturn hmem
    have hany := (any_validMoves_iff (getValidMoves player gs) row col).mpr hmem
    unfold gameAction
    rw [hturn]
    simp only [ne_eq, not_true_eq_false, if_false, hany, Bool.not_true, Bool.false_eq_true]
    by_cases hwin : row = player.destination
    · rw [if_pos hwin]
      exact ⟨fun _ => hwin, fun _ => ⟨_, rfl⟩⟩
    · rw [if_neg hwin]
      constructor
      · rintro ⟨gs2, h⟩
        simp [nextTurn] at h
      · intro h; exact absurd h hwin

theorem seat_goals_witness :
    (newGameState threeParticipants 2).players[2]? = some ⟨12, "c", 4, 0, 10, 8⟩ ∧
    ((⟨12, "c", 4, 0, 10, 8⟩ : Player).cell = ⟨4, 0⟩ ∧
      (⟨12, "c", 4, 0, 10, 8⟩ : Player).destination = 8) ∧
    leftSeatState.players[leftSeatState.turnIndex]? = some ⟨12, "c", 7, 0, 10, 8⟩ ∧
    (⟨8, 0⟩ : Cell) ∈ getValidMoves ⟨12, "c", 7, 0, 10, 8⟩ leftSeatState ∧
    ((∃ gs2, gameAction 12 (Action.move 8 0) leftSeatState = some (gs2, [Emit.gameOver "c"]))
      ↔ (8 : Int) = 8) :=
  ⟨by decide,
    (seat_goals.1 threeParticipants 2 2 ⟨12, "c", 4, 0, 10, 8⟩ (by decide) (by decide)).elim
      (fun h => absurd h.1 (by decide))
      (fun h => h.elim (fun h => absurd h.1 (by decide))
        (fun h => h.elim (fun h => h.2) (fun h => absurd h.1 (by decide)))),
    by decide, by decide,
    seat_goals.2.2 leftSeatState ⟨12, "c", 7, 0, 10, 8⟩ 8 0 (by decide) (by decide)⟩

/-- C13. Room directory: in every directory reachable from the empty one by
`create-room`, `join-room`, `start-game`, `game-action` and `disconnect`
events (and the deletions scheduled at a win), every room has between 1 and 4
participants and its host id is the id of one of them, the keys are pairwise
different, and every handler returns but for one event: a `join-room` with a
key that names a property of `Object.prototype` throws.  A `join-room` on a
room that holds 4 participants and a `create-room` with a code in use leave
the directory as it is and send an error to the sender. -/
theorem room_directory_invariant :
    (∀ rooms : List (RoomCode × Room), DirReachable rooms →
      (∀ e ∈ rooms, 1 ≤ e.2.players.length ∧ e.2.players.length ≤ 4 ∧
        ∃ p ∈ e.2.players, p.id = e.2.host) ∧
      (rooms.map Prod.fst).Nodup ∧
      (∀ event : Event,
        (∀ socketId nickname code, event = Event.joinRoom socketId nickname code →
          code.isInherited = false) →
        ∃ r, handle event rooms = some r) ∧
      (∀ (socketId : Nat) (nickname : String) (code : RoomCode), code.isInherited = true →
        handle (Event.joinRoom socketId nickname code) rooms = none)) ∧
    (∀ (rooms : List (RoomCode × Room)) (socketId : Nat) (nickname : String) (code : RoomCode)
      (room : Room), lookupRoom rooms code = some room → 4 ≤ room.players.length →
      joinRoom socketId nickname code rooms
        = some (rooms, [LobbyEmit.errorMessage socketId "방이 가득 찼습니다."])) ∧
    (∀ (rooms : List (RoomCode × Room)) (socketId : Nat) (nickname : String) (code : RoomCode)
      (room : Room), lookupRoom rooms code = some room →
      createRoom socketId nickname code rooms
        = (rooms, [LobbyEmit.errorMessage socketId "이미 존재하는 방 코드입니다."])) := by
  refine ⟨?_, ?_, ?_⟩
  · intro rooms h
    refine ⟨?_, keys_nodup_of_dirReachable rooms h, handle_isSome_of_dirReachable rooms h,
      joinRoom_inherited_of_dirReachable rooms h⟩
    intro e he
    obtain ⟨h1, h4, hhost, _⟩ := roomOk_of_dirReachable rooms h e he
    exact ⟨h1, h4, hhost⟩
  · intro rooms socketId nickname code room hl hfull
    unfold joinRoom
    rw [hl]
    simp only
    rw [if_pos hfull]
  · intro rooms socketId nickname code room hl
    unfold createRoom
    rw [hl]

theorem room_directory_invariant_witness :
    DirReachable fullRooms ∧
    (∀ e ∈ fullRooms, 1 ≤ e.2.players.length ∧ e.2.players.length ≤ 4 ∧
      ∃ p ∈ e.2.players, p.id = e.2.host) ∧
    joinRoom 5 "e" (RoomCode.text "A") fullRooms
      = some (fullRooms, [LobbyEmit.errorMessage 5 "방이 가득 찼습니다."]) ∧
    createRoom 6 "f" (RoomCode.text "A") fullRooms
      = (fullRooms, [LobbyEmit.errorMessage 6 "이미 존재하는 방 코드입니다."]) ∧
    handle (Event.joinRoom 7 "g" (RoomCode.text "constructor")) fullRooms = none :=
  have hr : DirReachable fullRooms :=
    dirReachable_runEvents fullRoomEvents (by simp [fullRoomEvents, Event.WellFormed]) [] _
      DirReachable.empty (by decide)
  ⟨hr, (room_directory_invariant.1 fullRooms hr).1,
    room_directory_invariant.2.1 fullRooms 5 "e" (RoomCode.text "A")
      { players := [⟨1, "a"⟩, ⟨2, "b"⟩, ⟨3, "c"⟩, ⟨4, "d"⟩], host := 1, gameState := none }
      (by decide) (by decide),
    room_directory_invariant.2.2 fullRooms 6 "f" (RoomCode.text "A")
      { players := [⟨1, "a"⟩, ⟨2, "b"⟩, ⟨3, "c"⟩, ⟨4, "d"⟩], host := 1, gameState := none }
      (by decide),
    (room_directory_invariant.1 fullRooms hr).2.2.2 7 "g" (RoomCode.text "constructor")
      (by decide)⟩

/-- C14 (fails on the code). Host failover does not happen when the host is
listed in a room that the loop of the `disconnect` handler visits earlier:
connection 1 creates the rooms `A` and `B`, connection 2 joins `B`; when
connection 1 disconnects, room `A` is deleted and the loop ends, so room `B`,
whose participants 1 and 2 have different ids, keeps the host 1 and still
lists connection 1. -/
theorem host_failover_skipped :
    runEvents twoRoomEvents [] = some twoRooms ∧
    DirReachable twoRooms ∧
    lookupRoom twoRooms (RoomCode.text "B")
      = some { players := [⟨1, "a"⟩, ⟨2, "b"⟩], host := 1, gameState := none } ∧
    disconnect 1 twoRooms = (staleHostRooms, []) ∧
    lookupRoom staleHostRooms (RoomCode.text "B")
      = some { players := [⟨1, "a"⟩, ⟨2, "b"⟩], host := 1, gameState := none } := by
  have hrun : runEvents twoRoomEvents [] = some twoRooms := by decide
  exact ⟨hrun,
    dirReachable_runEvents twoRoomEvents (by simp [twoRoomEvents, Event.WellFormed]) [] _
      DirReachable.empty hrun,
    by decide, by decide, by decide⟩

/-- C15 (fails on the code). The `disconnect` handler removes one entry of
the connection from one room only.  After connection 1 has created room `A`
and joined it again, its disconnect leaves room `A` with connection 1 as
participant and host; after connection 1 has created the rooms `A` and `B`,
its disconnect deletes `A` and leaves `B`, whose only participant and host is
connection 1. -/
theorem disconnect_leaves_participant :
    runEvents doubleJoinEvents [] = some doubleJoinRooms ∧
    disconnect 1 doubleJoinRooms
      = ([(RoomCode.text "A", { players := [⟨1, "a"⟩], host := 1, gameState := none })],
          [LobbyEmit.updateLobby (RoomCode.text "A")
            { players := [⟨1, "a"⟩], host := 1, gameState := none }]) ∧
    runEvents twoCreateEvents [] = some twoCreateRooms ∧
    disconnect 1 twoCreateRooms
      = ([(RoomCode.text "B", { players := [⟨1, "a"⟩], host := 1, gameState := none })], []) := by
  refine ⟨by decide, by decide, by decide, by decide⟩

end Quoridor
